import Mathlib

/-! sergeant: decoding Apache Drill JSON results into R columns

A shallow embedding of `src/sergeant-main.cpp` and the properties of its
specification.

Conventions of the embedding.

* C integers are `Int`/`Nat`; the ranges of `int`, `long` (LP64) and
  `int64_t` are written out where the code tests them.
* The C library is modelled after glibc in the C locale: `strtol`,
  `strtoll`, `strtod`/`atof`, `strncmp`, `strptime`, `timegm`.
* A C string is a `List Char`; the end of the list is the terminating NUL.
  A JSON string is its whole payload, NUL characters included; where the
  code hands `GetString()` to a consumer of `const char*` (a `std::string`
  constructor, `strtol`, `atof`, `strncmp`, `strptime`, `Rcpp::Date`) the
  consumer sees `c_str`, the characters before the first NUL.
* A `double` is an explicit binary64 value (`Dbl`), with round-to-nearest-even
  implemented on integers so that every definition evaluates.
* Failed rapidjson preconditions (a missing member, an index past the end,
  a value of the wrong JSON kind) and R API preconditions are errors
  (`Err.assertion`), `Rcpp::stop` is `Err.stop`.
-/

namespace Sergeant

/-! ## Errors -/

/-- Ways a call can fail: `Rcpp::stop(msg)`, a violated precondition of
rapidjson or of the R API, a user interrupt seen by
`Rcpp::checkUserInterrupt`, and an error raised by the R runtime. -/
inductive Err
  | stop (msg : String)
  | assertion (what : String)
  | interrupted
  | rerror (msg : String)
  deriving DecidableEq, Repr

/-! ## binary64 -/

/-- A binary64 value. `fin neg m e` is `(-1)^neg * m * 2^e` in canonical
form (`2^52 ≤ m < 2^53` and `-1074 ≤ e ≤ 971`, or `m < 2^52` and `e = -1074`).
R reads a NaN as `NA_real_` exactly when the low 32 bits of its significand
are 1954 (`R_IsNA`): `na` stands for the NaNs with that low word, `nan` for
every other NaN. -/
inductive Dbl
  | fin (neg : Bool) (m : Nat) (e : Int)
  | inf (neg : Bool)
  | nan
  | na
  deriving DecidableEq, Repr

namespace Dbl

/-- Positive zero. -/
def zero : Dbl := fin false 0 (-1074)

/-- Floor of the base-2 logarithm, 0 at 0 (the first argument bounds the
number of halvings). -/
def lg : Nat → Nat → Nat
  | 0, _ => 0
  | f + 1, n => if 2 ≤ n then lg f (n / 2) + 1 else 0

/-- Whether `2^e ≤ num / den`. -/
def pow2_le (e : Int) (num den : Nat) : Bool :=
  if 0 ≤ e then decide (den * 2 ^ e.toNat ≤ num) else decide (den ≤ num * 2 ^ (-e).toNat)

/-- Round the non-negative rational `num / den` (`den > 0`) to the nearest
binary64, ties to even; overflow gives an infinity. -/
def ofRatio (neg : Bool) (num den : Nat) : Dbl :=
  if num = 0 then fin neg 0 (-1074)
  else
    let e0 : Int := (lg num num : Int) - (lg den den : Int)
    let e : Int := if pow2_le e0 num den then e0 else e0 - 1
    let ex : Int := max (e - 52) (-1074)
    let A : Nat := if 0 ≤ ex then num else num * 2 ^ (-ex).toNat
    let B : Nat := if 0 ≤ ex then den * 2 ^ ex.toNat else den
    let q := A / B
    let r := A % B
    let n := if 2 * r < B then q else if B < 2 * r then q + 1 else if q % 2 = 0 then q else q + 1
    let m := if n = 2 ^ 53 then 2 ^ 52 else n
    let ex1 := if n = 2 ^ 53 then ex + 1 else ex
    if 971 < ex1 then inf neg else fin neg m ex1

/-- Conversion of a C integer to `double`. -/
def ofInt (z : Int) : Dbl := ofRatio (decide (z < 0)) z.natAbs 1

/-- Round `s * 2^e` to binary64; `negz` is the sign given to an exact zero. -/
def ofScaled (s : Int) (e : Int) (negz : Bool) : Dbl :=
  if s = 0 then fin negz 0 (-1074)
  else if 0 ≤ e then ofRatio (decide (s < 0)) (s.natAbs * 2 ^ e.toNat) 1
  else ofRatio (decide (s < 0)) s.natAbs (2 ^ (-e).toNat)

/-- Signed integer significand of a finite value. -/
def signed (neg : Bool) (m : Nat) : Int := if neg then -(m : Int) else m

/-- IEEE addition, round to nearest even. A NaN operand is returned as is
(the first one when both are NaN); a zero added to a non-zero value leaves
it unchanged, and the sum of two zeros is negative only when both are. -/
def add : Dbl → Dbl → Dbl
  | na, _ => na
  | nan, _ => nan
  | _, na => na
  | _, nan => nan
  | inf a, inf b => if a = b then inf a else nan
  | inf a, fin _ _ _ => inf a
  | fin _ _ _, inf b => inf b
  | fin n1 m1 e1, fin n2 m2 e2 =>
      if m2 = 0 then (if m1 = 0 then fin (n1 && n2) 0 (-1074) else fin n1 m1 e1)
      else if m1 = 0 then fin n2 m2 e2
      else
        let e := min e1 e2
        ofScaled (signed n1 m1 * 2 ^ (e1 - e).toNat + signed n2 m2 * 2 ^ (e2 - e).toNat) e
          (n1 && n2)

end Dbl

/-! ## C library: character classes and integer parsing -/

/-- C `isspace` in the C locale. -/
def isspace (c : Char) : Bool :=
  c = ' ' || c = '\t' || c = '\n' || c = '\x0b' || c = '\x0c' || c = '\r'

/-- C `isdigit`. -/
def isdigit (c : Char) : Bool := decide (48 ≤ c.toNat) && decide (c.toNat ≤ 57)

/-- Value of a decimal digit character. -/
def digitVal (c : Char) : Nat := c.toNat - 48

/-- Value of a run of decimal digits, most significant first, as the
conversion loops of `strtol` and `strtod` accumulate it. -/
def digitsVal (ds : List Char) : Nat := ds.foldl (fun acc c => acc * 10 + digitVal c) 0

/-- C `strncmp(a, b, 1) == 0`: the first bytes of the two strings are equal,
the terminating NUL being the first byte of an empty string. -/
def strncmp1 (a b : List Char) : Bool := decide (a.head? = b.head?)

/-- Optional sign of a numeric literal: whether it is negative, and the rest. -/
def takeSign : List Char → Bool × List Char
  | '-' :: r => (true, r)
  | '+' :: r => (false, r)
  | s => (false, s)

/-- The family `strtol`/`strtoll` in base 10 for a result type with range
`lo..hi`: skip white space, read an optional sign and the longest run of
digits, ignore what follows. The second component is `errno != 0` after the
call when `errno` was 0 before it: set (to `ERANGE`) exactly when the value
is out of range, in which case the result is clamped. With no digits the
result is 0 and `errno` stays 0 (glibc). -/
def strtoRange (lo hi : Int) (x : List Char) : Int × Bool :=
  let s := takeSign (x.dropWhile isspace)
  let n : Nat := digitsVal (s.2.takeWhile isdigit)
  let v : Int := if s.1 then -(n : Int) else n
  if v < lo then (lo, true) else if hi < v then (hi, true) else (v, false)

def LONG_MIN : Int := -(2 ^ 63)
def LONG_MAX : Int := 2 ^ 63 - 1
def LLONG_MIN : Int := -(2 ^ 63)
def LLONG_MAX : Int := 2 ^ 63 - 1
def INT_MIN : Int := -(2 ^ 31)
def INT_MAX : Int := 2 ^ 31 - 1

/-- R's `NA_INTEGER` is `INT_MIN`. -/
def NA_INTEGER : Int := INT_MIN

/-- R's `NA_LOGICAL` is `INT_MIN`. -/
def NA_LOGICAL : Int := INT_MIN

/-- R's `NA_REAL`. -/
def NA_REAL : Dbl := Dbl.na

/-- C `strtol(x, NULL, 10)` with a 64-bit `long`. -/
def strtol (x : List Char) : Int × Bool := strtoRange LONG_MIN LONG_MAX x

/-- C `strtoll(x, NULL, 10)`. -/
def strtoll (x : List Char) : Int × Bool := strtoRange LLONG_MIN LLONG_MAX x

/-- Source `parse_int` (lines 26-35). -/
def parse_int (x : List Char) : Int :=
  let r := strtol x
  if r.2 || decide (r.1 > INT_MAX) || decide (r.1 < INT_MIN) then NA_INTEGER else r.1

/-- Source `parse_int64` (lines 38-45). The macro `NA_INTEGER64` comes from
`integer64.h`, which is not among the sources: its value is the parameter
`na64`. -/
def parse_int64 (na64 : Int) (x : List Char) : Int :=
  let r := strtoll x
  if r.2 then na64 else r.1

/-! ## Field types -/

/-- Source `enum DrillType` (lines 47-59). -/
inductive DrillType
  | DRILL_INT
  | DRILL_FLOAT
  | DRILL_DOUBLE
  | DRILL_BIGINT
  | DRILL_BINARY
  | DRILL_BOOLEAN
  | DRILL_VARCHAR
  | DRILL_TIMESTAMP
  | DRILL_TIME
  | DRILL_DATE
  | DRILL_INTERVAL
  deriving DecidableEq, Repr

/-- Source `parse_drill_type` (lines 62-86). -/
def parse_drill_type (x : String) : Except Err DrillType :=
  if x = "INT" then .ok .DRILL_INT
  else if x = "BIGINT" then .ok .DRILL_BIGINT
  else if x = "FLOAT" then .ok .DRILL_FLOAT
  else if x = "BOOLEAN" then .ok .DRILL_BOOLEAN
  else if x = "STRING" then .ok .DRILL_VARCHAR
  else if x = "TIMESTAMP" then .ok .DRILL_TIMESTAMP
  else if x = "TIME" then .ok .DRILL_TIME
  else if x = "DATE" then .ok .DRILL_DATE
  else if x = "INTERVAL" then .ok .DRILL_INTERVAL
  else if x = "BINARY" then .ok .DRILL_BINARY
  else .error (.stop ("Unknown type " ++ x))

/-! ## C library: `strtod` -/

/-- ASCII lower case. -/
def tolower (c : Char) : Char :=
  if 65 ≤ c.toNat ∧ c.toNat ≤ 90 then Char.ofNat (c.toNat + 32) else c

/-- Strip the prefix `p` (given in lower case) from `s`, ignoring case. -/
def stripPrefixCI : List Char → List Char → Option (List Char)
  | [], s => some s
  | _ :: _, [] => none
  | p :: ps, c :: s => if tolower c = p then stripPrefixCI ps s else none

/-- C `isxdigit`. -/
def isxdigit (c : Char) : Bool :=
  isdigit c || (decide (97 ≤ (tolower c).toNat) && decide ((tolower c).toNat ≤ 102))

/-- Value of a hexadecimal digit character. -/
def xdigitVal (c : Char) : Nat :=
  if isdigit c then digitVal c else (tolower c).toNat - 87

/-- Value of a run of hexadecimal digits. -/
def xdigitsVal (ds : List Char) : Nat := ds.foldl (fun acc c => acc * 16 + xdigitVal c) 0

/-- Optional exponent part of a floating literal after its marker `e` or `p`:
a sign and at least one decimal digit, else no exponent (value 0). -/
def takeExponent (markers : List Char) : List Char → Int
  | c :: t =>
      if markers.contains (tolower c) then
        let s := takeSign t
        let ds := s.2.takeWhile isdigit
        if ds = [] then 0 else if s.1 then -(digitsVal ds : Int) else digitsVal ds
      else 0
  | [] => 0

/-- Digits before and after an optional radix point `.`, and what follows. -/
def takeMantissa (isd : Char → Bool) (s : List Char) : List Char × List Char × List Char :=
  let i := s.takeWhile isd
  match s.dropWhile isd with
  | '.' :: t => (i, t.takeWhile isd, t.dropWhile isd)
  | r => (i, [], r)

/-- The decimal form of `strtod` after the sign; `none` when there is no digit. -/
def strtod_decimal (neg : Bool) (s : List Char) : Option Dbl :=
  let m := takeMantissa isdigit s
  if m.1 = [] ∧ m.2.1 = [] then none
  else
    let d := digitsVal (m.1 ++ m.2.1)
    let x : Int := takeExponent ['e'] m.2.2 - (m.2.1.length : Int)
    some (if 0 ≤ x then Dbl.ofRatio neg (d * 10 ^ x.toNat) 1 else Dbl.ofRatio neg d (10 ^ (-x).toNat))

/-- The hexadecimal form of `strtod` after the sign and the `0x`; `none` when
there is no hexadecimal digit. -/
def strtod_hex (neg : Bool) (s : List Char) : Option Dbl :=
  let m := takeMantissa isxdigit s
  if m.1 = [] ∧ m.2.1 = [] then none
  else
    let d := xdigitsVal (m.1 ++ m.2.1)
    let x : Int := takeExponent ['p'] m.2.2 - 4 * (m.2.1.length : Int)
    some (if 0 ≤ x then Dbl.ofRatio neg (d * 2 ^ x.toNat) 1 else Dbl.ofRatio neg d (2 ^ (-x).toNat))

def ULLONG_MAX : Nat := 2 ^ 64 - 1

/-- The characters of the n-char-sequence of `nan(...)`: digits, letters and
the underscore. -/
def isnchar (c : Char) : Bool :=
  isdigit c || (decide (97 ≤ (tolower c).toNat) && decide ((tolower c).toNat ≤ 122)) || c = '_'

/-- Whether a character is an octal digit. -/
def isodigit (c : Char) : Bool := decide (48 ≤ c.toNat) && decide (c.toNat ≤ 55)

/-- Value of a run of octal digits. -/
def odigitsVal (ds : List Char) : Nat := ds.foldl (fun acc c => acc * 8 + digitVal c) 0

/-- C `strtoull(seq, &endp, 0)` on an n-char-sequence (which holds no white
space and no sign), for the caller that asks whether `endp` is the end of
`seq`: the value, clamped to `ULLONG_MAX`, when the conversion stops at the
end of `seq`, and `none` when it stops before. Base 0 reads `0x` and
hexadecimal digits, or a leading `0` and octal digits, or decimal digits; the
empty sequence converts nothing, ends where it starts and gives 0. -/
def strtoull0 (seq : List Char) : Option Nat :=
  match seq with
  | [] => some 0
  | '0' :: t =>
      match t with
      | x :: h =>
          if tolower x = 'x' then
            if h ≠ [] ∧ h.all isxdigit = true then some (min (xdigitsVal h) ULLONG_MAX) else none
          else if t.all isodigit = true then some (min (odigitsVal t) ULLONG_MAX) else none
      | [] => some 0
  | c :: t =>
      if isdigit c = true ∧ t.all isdigit = true then some (min (digitsVal (c :: t)) ULLONG_MAX)
      else none

/-- The NaN of `strtod` for what follows the letters `nan` (glibc,
`strtod_nan`): after `(`, an n-char-sequence and `)`, the number that
`strtoull` reads from the whole sequence is stored in the significand, its
low 32 bits in the low word; in every other case the NaN is the default one,
with low word 0. The sign does not touch the significand. -/
def strtod_nan (after : List Char) : Dbl :=
  match after with
  | '(' :: t =>
      match t.dropWhile isnchar with
      | ')' :: _ =>
          match strtoull0 (t.takeWhile isnchar) with
          | some mant => if mant % 2 ^ 32 = 1954 then Dbl.na else Dbl.nan
          | none => Dbl.nan
      | _ => Dbl.nan
  | _ => Dbl.nan

/-- C `strtod(x, &endptr)` (the end pointer is never read by the callers):
white space, a sign, then `inf`/`infinity`, `nan` or `nan(...)`, a
hexadecimal or a decimal floating literal, correctly rounded; what follows
the literal is ignored, and with no literal at all the result is `0.0`. -/
def strtod (x : List Char) : Dbl :=
  let s := takeSign (x.dropWhile isspace)
  match stripPrefixCI ['i', 'n', 'f'] s.2 with
  | some _ => Dbl.inf s.1
  | none =>
    match stripPrefixCI ['n', 'a', 'n'] s.2 with
    | some after => strtod_nan after
    | none =>
      match (stripPrefixCI ['0', 'x'] s.2).bind (strtod_hex s.1) with
      | some d => d
      | none => (strtod_decimal s.1 s.2).getD Dbl.zero

/-- C `atof(x)`, which is `strtod(x, NULL)`. -/
def atof (x : List Char) : Dbl := strtod x

/-- Source `parse_partial_seconds` (lines 89-95); the argument is never `NULL`
at its two call sites. -/
def parse_partial_seconds (string : List Char) : Dbl :=
  match string with
  | '.' :: _ => strtod string
  | _ => Dbl.zero

/-! ## C library: `strptime` and `timegm` -/

/-- The fields of `struct tm` that the program reads or writes. -/
structure Tm where
  tm_sec : Int
  tm_min : Int
  tm_hour : Int
  tm_mday : Int
  tm_mon : Int
  tm_year : Int
  deriving DecidableEq, Repr

/-- The digit loop of the `get_number` of glibc `strptime`: with `n` more
digits allowed, keep reading while ten times the value still fits `hi`. -/
def get_digits (hi : Nat) : Nat → Nat → List Char → Nat × List Char
  | 0, val, rp => (val, rp)
  | _ + 1, val, [] => (val, [])
  | n + 1, val, c :: rp =>
      if val * 10 ≤ hi ∧ isdigit c = true then get_digits hi n (val * 10 + digitVal c) rp
      else (val, c :: rp)

/-- The `get_number (lo, hi, n)` of glibc `strptime`: skip white space, read
at least one and at most `n` digits, fail when the value is outside `lo..hi`. -/
def get_number (lo hi n : Nat) (rp : List Char) : Option (Nat × List Char) :=
  match rp.dropWhile isspace with
  | [] => none
  | c :: rest =>
      if isdigit c then
        let r := get_digits hi (n - 1) (digitVal c) rest
        if r.1 < lo ∨ hi < r.1 then none else some r
      else none

/-- One conversion specification of `strptime`; only the six that the
program uses are modelled, any other fails. -/
def strptime_conv (d : Char) (rp : List Char) (tm : Tm) : Option (List Char × Tm) :=
  if d = 'Y' then (get_number 0 9999 4 rp).map fun r => (r.2, { tm with tm_year := (r.1 : Int) - 1900 })
  else if d = 'm' then (get_number 1 12 2 rp).map fun r => (r.2, { tm with tm_mon := (r.1 : Int) - 1 })
  else if d = 'd' then (get_number 1 31 2 rp).map fun r => (r.2, { tm with tm_mday := r.1 })
  else if d = 'H' then (get_number 0 23 2 rp).map fun r => (r.2, { tm with tm_hour := r.1 })
  else if d = 'M' then (get_number 0 59 2 rp).map fun r => (r.2, { tm with tm_min := r.1 })
  else if d = 'S' then (get_number 0 61 2 rp).map fun r => (r.2, { tm with tm_sec := r.1 })
  else none

/-- C `strptime(buf, fmt, &tm)` (glibc): the unparsed rest of `buf` and the
fields set, or `none` for `NULL`. White space in the format matches any run
of white space, any other ordinary character matches itself. -/
def strptime : List Char → List Char → Tm → Option (List Char × Tm)
  | [], rp, tm => some (rp, tm)
  | '%' :: d :: fmt, rp, tm =>
      match strptime_conv d rp tm with
      | some r => strptime fmt r.1 r.2
      | none => none
  | c :: fmt, rp, tm =>
      if isspace c then strptime fmt (rp.dropWhile isspace) tm
      else
        match rp with
        | [] => none
        | r :: rp => if r = c then strptime fmt rp tm else none

/-- The contents of an uninitialised `struct tm`: every field the program
reads is written by `strptime` first, so the value never matters. -/
def Tm.uninit : Tm := ⟨0, 0, 0, 0, 0, 0⟩

/-- Gregorian leap year. -/
def leapyear (y : Int) : Bool := decide (y % 4 = 0) && (decide (y % 100 ≠ 0) || decide (y % 400 = 0))

/-- Days of the year before month `m` (0-based), the `__mon_yday` table. -/
def mon_yday (leap : Bool) (m : Int) : Int :=
  let t : List Int := if leap then [0, 31, 60, 91, 121, 152, 182, 213, 244, 274, 305, 335]
    else [0, 31, 59, 90, 120, 151, 181, 212, 243, 273, 304, 334]
  t.getD m.toNat 0

/-- Leap days in the years before `y`, counted from a fixed origin. -/
def leapsBefore (y : Int) : Int := (y - 1) / 4 - (y - 1) / 100 + (y - 1) / 400

/-- C `timegm(&tm)` with a 64-bit `time_t` (glibc): the month is reduced
into `0..11` carrying into the year, the other fields are taken linearly. -/
def timegm (tm : Tm) : Int :=
  let year := tm.tm_year + 1900 + tm.tm_mon / 12
  let yday := mon_yday (leapyear year) (tm.tm_mon % 12) + tm.tm_mday - 1
  let days := 365 * (year - 1970) + (leapsBefore year - leapsBefore 1970) + yday
  ((days * 24 + tm.tm_hour) * 60 + tm.tm_min) * 60 + tm.tm_sec

/-! ## rapidjson values -/

/-- A parsed JSON document (`rapidjson::Value`). An object keeps its members
in document order, duplicates included. -/
inductive JSON
  | null
  | bool (b : Bool)
  | num (q : ℚ)
  | str (s : String)
  | arr (elems : List JSON)
  | obj (members : List (String × JSON))

/-- The C string that `GetString()` points to, as a consumer of `const char*`
reads it: the characters of the payload before its first NUL. -/
def c_str (s : String) : List Char := s.data.takeWhile fun c => c ≠ '\x00'

/-- The `std::string` constructed from the `const char*` of `GetString()`. -/
def std_string (s : String) : String := String.mk (c_str s)

/-- The first member called `name`, as `FindMember` returns it. -/
def findMember (name : String) : List (String × JSON) → Option JSON
  | [] => none
  | (k, v) :: rest => if k = name then some v else findMember name rest

namespace JSON

def IsString : JSON → Bool
  | str _ => true
  | _ => false

def IsArray : JSON → Bool
  | arr _ => true
  | _ => false

def IsObject : JSON → Bool
  | obj _ => true
  | _ => false

/-- The call `v.GetString()`, which requires a string. -/
def GetString : JSON → Except Err String
  | str s => .ok s
  | _ => .error (.assertion "GetString: IsString()")

/-- The call `v.HasMember(name)`, which requires an object. -/
def HasMember (v : JSON) (name : String) : Except Err Bool :=
  match v with
  | obj ms => .ok (findMember name ms).isSome
  | _ => .error (.assertion "HasMember: IsObject()")

/-- The lookup `v[name]`, which requires an object with that member. -/
def member (v : JSON) (name : String) : Except Err JSON :=
  match v with
  | obj ms =>
      match findMember name ms with
      | some x => .ok x
      | none => .error (.assertion ("operator[]: no member " ++ name))
  | _ => .error (.assertion "operator[]: IsObject()")

/-- The call `v.Size()`, which requires an array. -/
def Size : JSON → Except Err Nat
  | arr es => .ok es.length
  | _ => .error (.assertion "Size: IsArray()")

/-- The lookup `v[i]`, which requires an array longer than `i`. -/
def index (v : JSON) (i : Nat) : Except Err JSON :=
  match v with
  | arr es =>
      match es[i]? with
      | some x => .ok x
      | none => .error (.assertion "operator[]: index < size")
  | _ => .error (.assertion "operator[]: IsArray()")

end JSON

/-! ## Field descriptors -/

/-- Source `class DrillField` (lines 97-104): its four data members. -/
inductive DrillField
  | mk (name_ : String) (type_ : DrillType) (array_ : Bool) (fields_ : List DrillField)

namespace DrillField

def name : DrillField → String
  | mk n _ _ _ => n

def type_ : DrillField → DrillType
  | mk _ t _ _ => t

def array_ : DrillField → Bool
  | mk _ _ a _ => a

def fields_ : DrillField → List DrillField
  | mk _ _ _ fs => fs

/-- The member `name` of a field spec, read with `field["name"].GetString()`
into a `std::string` (lines 114 and 116). -/
def specString (name : String) (ms : List (String × JSON)) : Except Err String :=
  (JSON.obj ms).member name >>= JSON.GetString >>= fun s => .ok (std_string s)

/-- The initialiser of `array_` (line 115). -/
def specArray (ms : List (String × JSON)) : Except Err Bool :=
  match findMember "mode" ms with
  | none => .ok false
  | some m => m.GetString >>= fun s => .ok (decide (std_string s = "REPEATED"))

mutual
/-- Source constructor `DrillField(const rapidjson::Value& field)`
(lines 110-128). -/
def ofJSON : JSON → Except Err DrillField
  | .obj ms => do
      let name_ ← specString "name" ms
      let array_ ← specArray ms
      let type_ ← specString "type" ms >>= parse_drill_type
      let fields_ ← ofMembers ms
      pure (mk name_ type_ array_ fields_)
  | _ => .error (.stop "Invalid field spec")
/-- Lines 118-126: the children, read from the first member `fields` if there
is one. -/
def ofMembers : List (String × JSON) → Except Err (List DrillField)
  | [] => .ok []
  | (k, v) :: rest => if k = "fields" then ofFieldsValue v else ofMembers rest
/-- Lines 120-124: `fields.Begin()` and `fields.End()` require an array. -/
def ofFieldsValue : JSON → Except Err (List DrillField)
  | .arr es => ofList es
  | _ => .error (.assertion "Begin: IsArray()")
/-- The loops of lines 124 and 333: construct and `push_back` each element in
order. -/
def ofList : List JSON → Except Err (List DrillField)
  | [] => .ok []
  | e :: es => do
      let f ← ofJSON e
      let fs ← ofList es
      pure (f :: fs)
end

end DrillField

/-- Source `drill_fields_parse` (lines 326-337). -/
def drill_fields_parse (doc : JSON) : Except Err (List DrillField) := do
  let schema_fields ← (← doc.member "schema").member "fields"
  match schema_fields with
  | .arr es => DrillField.ofList es
  | _ => .error (.assertion "Size: IsArray()")

/-! ## R vectors -/

/-- The storage type of an R vector. -/
inductive SexpType
  | INTSXP
  | LGLSXP
  | REALSXP
  | STRSXP
  | VECSXP
  deriving DecidableEq, Repr

/-- The attributes that `vectorInit` sets on a column. -/
inductive RClass
  | plain
  | integer64
  | POSIXct_UTC
  | Date
  | hms_secs
  deriving DecidableEq, Repr

/-- One slot of an R vector: an `int` (integer and logical vectors), a
`double`, the 64-bit integer that `INTEGER64` stores in the eight bytes of a
`double` slot, a string or `NA_STRING` (`none`), and for a list a whole vector
or `R_NilValue`. -/
inductive Cell
  | int (z : Int)
  | real (d : Dbl)
  | int64 (z : Int)
  | chr (s : Option String)
  | vec (sxp : SexpType) (cls : RClass) (cells : List Cell)
  | nil

/-- An R vector (`SEXP`): storage type, class attributes, slots. -/
structure Column where
  sxp : SexpType
  cls : RClass
  cells : List Cell

namespace Column

/-- The vector as the content of a list slot. -/
def toCell (x : Column) : Cell := .vec x.sxp x.cls x.cells

/-- A freshly allocated vector of `n` equal slots. -/
def fresh (sxp : SexpType) (cls : RClass) (n : Nat) (c : Cell) : Column :=
  ⟨sxp, cls, List.replicate n c⟩

/-- Write slot `i` through an accessor that accepts the storage types `ok`;
a vector of another type or an index past the end violates the
precondition of the accessor. -/
def store (x : Column) (ok : List SexpType) (i : Nat) (c : Cell) : Except Err Column :=
  if x.sxp ∈ ok then
    if i < x.cells.length then .ok { x with cells := x.cells.set i c }
    else .error (.assertion "index out of bounds")
  else .error (.assertion "wrong vector type")

/-- The assignment `INTEGER(x)[i] = z`. -/
def setINTEGER (x : Column) (i : Nat) (z : Int) : Except Err Column :=
  x.store [.INTSXP, .LGLSXP] i (.int z)

/-- The assignment `REAL(x)[i] = d`. -/
def setREAL (x : Column) (i : Nat) (d : Dbl) : Except Err Column :=
  x.store [.REALSXP] i (.real d)

/-- The assignment `INTEGER64(x)[i] = z`; the macro of `integer64.h` views
the `double` storage as `int64_t`. -/
def setINTEGER64 (x : Column) (i : Nat) (z : Int) : Except Err Column :=
  x.store [.REALSXP] i (.int64 z)

/-- The call `SET_STRING_ELT(x, i, s)`, with `s` the `CHARSXP` that
`Rf_mkCharLenCE(v.GetString(), v.GetStringLength(), CE_UTF8)` makes of the
whole payload, or `NA_STRING`. -/
def setSTRING (x : Column) (i : Nat) (s : Option String) : Except Err Column :=
  x.store [.STRSXP] i (.chr s)

/-- The call `SET_VECTOR_ELT(x, i, v)`. -/
def setVECTOR (x : Column) (i : Nat) (v : Column) : Except Err Column :=
  x.store [.VECSXP] i v.toCell

end Column

/-- What the program takes from outside its source file: the macro
`NA_INTEGER64` of `integer64.h`, and the date parser of Rcpp behind
`Rcpp::Date(s).getDate()`, which calls into the R runtime. -/
structure Host where
  NA_INTEGER64 : Int
  getDate : List Char → Dbl

/-- A `for (int i = 0; i < n; ++i)` loop over a state: the bodies for
`0, 1, ..., n - 1` in order, stopping at the first error. -/
def forLoop {σ : Type} (body : Nat → σ → Except Err σ) : Nat → σ → Except Err σ
  | 0, s => .ok s
  | n + 1, s => forLoop body n s >>= body n

namespace DrillField

/-- Source `vectorInit(int n, bool array)` (lines 133-169). A negative length
is rejected by the R allocator. -/
def vectorInit (f : DrillField) (n : Int) (array : Bool) : Except Err Column :=
  if n < 0 then .error (.rerror "negative length vectors are not allowed")
  else if array then .ok (Column.fresh .VECSXP .plain n.toNat .nil)
  else
    match f.type_ with
    | .DRILL_INT => .ok (Column.fresh .INTSXP .plain n.toNat (.int 0))
    | .DRILL_BIGINT => .ok (Column.fresh .REALSXP .integer64 n.toNat (.int64 0))
    | .DRILL_DOUBLE => .ok (Column.fresh .REALSXP .plain n.toNat (.real Dbl.zero))
    | .DRILL_FLOAT => .ok (Column.fresh .REALSXP .plain n.toNat (.real Dbl.zero))
    | .DRILL_BOOLEAN => .ok (Column.fresh .LGLSXP .plain n.toNat (.int 0))
    | .DRILL_VARCHAR => .ok (Column.fresh .STRSXP .plain n.toNat (.chr (some "")))
    | .DRILL_TIMESTAMP => .ok (Column.fresh .REALSXP .POSIXct_UTC n.toNat (.real Dbl.zero))
    | .DRILL_DATE => .ok (Column.fresh .REALSXP .Date n.toNat (.real Dbl.zero))
    | .DRILL_TIME => .ok (Column.fresh .REALSXP .hms_secs n.toNat (.real Dbl.zero))
    | .DRILL_INTERVAL => .ok (Column.fresh .STRSXP .plain n.toNat (.chr (some "")))
    | .DRILL_BINARY => .ok (Column.fresh .STRSXP .plain n.toNat (.chr (some "")))

/-- Source `vectorInit(int n)` (lines 171-173). -/
def vectorInit1 (f : DrillField) (n : Int) : Except Err Column := f.vectorInit n f.array_

/-- The `switch` of `vectorSet` (lines 190-256): the decode of one value of a
non-repeated field into slot `i` of `x`. -/
def vectorSetScalar (H : Host) (f : DrillField) (x : Column) (i : Nat) (v : JSON) :
    Except Err Column :=
  match f.type_ with
  | .DRILL_BIGINT =>
      x.setINTEGER64 i (match v with
        | .str s => parse_int64 H.NA_INTEGER64 (c_str s)
        | _ => H.NA_INTEGER64)
  | .DRILL_INT =>
      x.setINTEGER i (match v with
        | .str s => parse_int (c_str s)
        | _ => NA_INTEGER)
  | .DRILL_DOUBLE | .DRILL_FLOAT =>
      x.setREAL i (match v with
        | .str s => atof (c_str s)
        | _ => NA_REAL)
  | .DRILL_BOOLEAN =>
      match v with
      | .str s =>
          let is_true : Bool := strncmp1 (c_str s) "t".data
          x.setINTEGER i (if is_true then 1 else 0)
      | _ => x.setINTEGER i NA_LOGICAL
  | .DRILL_INTERVAL | .DRILL_BINARY | .DRILL_VARCHAR =>
      match v with
      | .str s => x.setSTRING i (some s)
      | _ => x.setSTRING i none
  | .DRILL_TIME =>
      match v with
      | .str s =>
          match strptime "%H:%M:%S".data (c_str s) Tm.uninit with
          | none => x.setREAL i NA_REAL
          | some (parsed, dtm) =>
              x.setREAL i (Dbl.add (Dbl.ofInt (dtm.tm_hour * 3600 + dtm.tm_min * 60 + dtm.tm_sec))
                (parse_partial_seconds parsed))
      | _ => x.setREAL i NA_REAL
  | .DRILL_DATE =>
      match v with
      | .str s => x.setREAL i (H.getDate (c_str s))
      | _ => x.setREAL i NA_REAL
  | .DRILL_TIMESTAMP =>
      match v with
      | .str s =>
          match strptime "%Y-%m-%dT%H:%M:%S".data (c_str s) Tm.uninit with
          | none => x.setREAL i NA_REAL
          | some (parsed, dtm) =>
              x.setREAL i (Dbl.add (Dbl.ofInt (timegm dtm)) (parse_partial_seconds parsed))
      | _ => x.setREAL i NA_REAL

/-- The body of the loop of lines 182-184:
`vectorSet(out, j, v[j]["v"], false)`. -/
def vectorSetElem (H : Host) (f : DrillField) (v : JSON) (j : Nat) (out : Column) :
    Except Err Column := do
  let e ← (← v.index j).member "v"
  f.vectorSetScalar H out j e

/-- Source `vectorSet(SEXP x, int i, const rapidjson::Value& v, bool array)`
(lines 175-257). -/
def vectorSet (H : Host) (f : DrillField) (x : Column) (i : Nat) (v : JSON) (array : Bool) :
    Except Err Column :=
  if array then
    if !v.IsArray then .error (.stop "Not an array [1]")
    else do
      let n ← v.Size
      let out ← f.vectorInit n false
      let out ← forLoop (f.vectorSetElem H v) n out
      x.setVECTOR i out
  else f.vectorSetScalar H x i v

/-- Source `vectorSet(SEXP x, int i, const rapidjson::Value& v)`
(lines 320-322). -/
def vectorSet1 (H : Host) (f : DrillField) (x : Column) (i : Nat) (v : JSON) : Except Err Column :=
  f.vectorSet H x i v f.array_

end DrillField

/-! ## Tables and the drivers -/

/-- The data frame under construction: the columns, the `names` attribute and
the row count kept in the compact `row.names` attribute `c(NA, -n)`. -/
structure Table where
  cols : List Column
  names : List String
  nrow : Int

/-- An element access `xs[j]` that the code performs with `j` below the size. -/
def elemAt {α : Type} (xs : List α) (j : Nat) : Except Err α :=
  match xs[j]? with
  | some x => .ok x
  | none => .error (.assertion "index out of bounds")

/-- The loop of `drill_fields_init` (lines 345-348): one column per field. -/
def initCols (n : Int) : List DrillField → Except Err (List Column)
  | [] => .ok []
  | f :: fs => do
      let c ← f.vectorInit1 n
      let cs ← initCols n fs
      pure (c :: cs)

/-- Source `drill_fields_init` (lines 339-355). -/
def drill_fields_init (fields : List DrillField) (n : Int) : Except Err Table := do
  let cols ← initCols n fields
  pure ⟨cols, fields.map DrillField.name, n⟩

/-- The body of the inner loop of `drill_fields_set` (line 370):
`fields[j].vectorSet(out[j], i + offset, f[j]["v"])`. -/
def setCell (H : Host) (fields : List DrillField) (f : JSON) (row : Nat) (j : Nat) (out : Table) :
    Except Err Table := do
  let field ← elemAt fields j
  let col ← elemAt out.cols j
  let v ← (← f.index j).member "v"
  let col ← field.vectorSet1 H col row v
  pure { out with cols := out.cols.set j col }

/-- The body of the outer loop of `drill_fields_set` (lines 368-371). -/
def setRow (H : Host) (fields : List DrillField) (rows : JSON) (offset : Nat) (i : Nat)
    (out : Table) : Except Err Table := do
  let f ← (← rows.index i).member "f"
  forLoop (setCell H fields f (i + offset)) fields.length out

/-- Source `drill_fields_set` (lines 357-375): the table after the writes
and the number of rows returned. -/
def drill_fields_set (H : Host) (data : JSON) (out : Table) (fields : List DrillField)
    (offset : Nat) : Except Err (Table × Nat) := do
  let has ← data.HasMember "rows"
  if has then
    let rows ← data.member "rows"
    let n ← rows.Size
    let out ← forLoop (setRow H fields rows offset) n out
    pure (out, n)
  else pure (out, 0)

/-- Source `drill_parse` (lines 378-392), on the two parsed documents. -/
def drill_parse (H : Host) (meta_d values_d : JSON) : Except Err Table := do
  let fields ← drill_fields_parse meta_d
  let has ← values_d.HasMember "rows"
  let n ← if has then values_d.member "rows" >>= JSON.Size else pure 0
  let out ← drill_fields_init fields n
  let r ← drill_fields_set H values_d out fields 0
  pure r.1

/-- One file handed to `drill_parse_files`: its path and the document that
`ParseStream` builds from it, `none` when `HasParseError()`. -/
structure Source where
  path : String
  doc : Option JSON

/-- The loop of `drill_parse_files` (lines 436-455) from source number `k` on:
table and offset after the last source. `interrupt k` tells whether a user
interrupt is pending when `Rcpp::checkUserInterrupt()` runs after source `k`;
`pb.tick()` only draws the progress bar. -/
def parse_files_loop (H : Host) (fields : List DrillField) (quiet : Bool) (interrupt : Nat → Bool) :
    List Source → Nat → Table → Nat → Except Err (Table × Nat)
  | [], _, out, offset => .ok (out, offset)
  | src :: rest, k, out, offset =>
      match src.doc with
      | none => .error (.stop ("Failed to parse '" ++ src.path ++ "'"))
      | some values_doc => do
          let r ← drill_fields_set H values_doc out fields offset
          if quiet && interrupt k then .error .interrupted
          else parse_files_loop H fields quiet interrupt rest (k + 1) r.1 (offset + r.2)

/-- Source `drill_parse_files` (lines 413-458), on the parsed schema document
and the sources in order. -/
def drill_parse_files (H : Host) (schema_doc : JSON) (files : List Source) (n : Int) (quiet : Bool)
    (interrupt : Nat → Bool) : Except Err Table := do
  let fields ← drill_fields_parse schema_doc
  let out ← drill_fields_init fields n
  let r ← parse_files_loop H fields quiet interrupt files 0 out 0
  pure r.1

/-! ## The driver loop, step by step -/

/-- What the loop of `drill_parse_files` does that can be observed from
outside, for source number `k`: the file is opened and parsed (lines 437-440),
its rows are decoded by `drill_fields_set` (line 447), the progress bar is
ticked (line 449), the interrupt signal is polled (line 451). -/
inductive Event
  | opened (k : Nat)
  | decoded (k : Nat) (rows : Nat)
  | tick (k : Nat)
  | poll (k : Nat)
  deriving DecidableEq, Repr

/-- The state in which the loop of `drill_parse_files` stops: the events so
far, the table and the offset after the last source that was decoded in
full, and the error that ended the run (`none` when the sources are
exhausted). -/
structure Run where
  trace : List Event
  out : Table
  offset : Nat
  outcome : Option Err

/-- The loop of `drill_parse_files` (lines 436-455) with its events recorded;
the same steps as `parse_files_loop`. -/
def parse_files_run (H : Host) (fields : List DrillField) (quiet : Bool) (interrupt : Nat → Bool) :
    List Source → Nat → Table → Nat → Run
  | [], _, out, offset => ⟨[], out, offset, none⟩
  | src :: rest, k, out, offset =>
      match src.doc with
      | none => ⟨[.opened k], out, offset, some (.stop ("Failed to parse '" ++ src.path ++ "'"))⟩
      | some values_doc =>
          match drill_fields_set H values_doc out fields offset with
          | .error e => ⟨[.opened k], out, offset, some e⟩
          | .ok r =>
              if quiet then
                if interrupt k then
                  ⟨[.opened k, .decoded k r.2, .poll k], r.1, offset + r.2, some .interrupted⟩
                else
                  let run := parse_files_run H fields quiet interrupt rest (k + 1) r.1 (offset + r.2)
                  { run with trace := [.opened k, .decoded k r.2, .poll k] ++ run.trace }
              else
                let run := parse_files_run H fields quiet interrupt rest (k + 1) r.1 (offset + r.2)
                { run with trace := [.opened k, .decoded k r.2, .tick k] ++ run.trace }

/-- The value or error with which a run leaves the loop. -/
def Run.result (r : Run) : Except Err (Table × Nat) :=
  match r.outcome with
  | none => .ok (r.out, r.offset)
  | some e => .error e

/-! ## Decoding one value -/

namespace DrillField

/-- The decode of one value on its own, as `drill_field_init` (lines 395-410)
runs it: allocate one slot, `vectorSet` it, and read the slot. -/
def decode (H : Host) (f : DrillField) (v : JSON) (array : Bool) : Except Err Cell := do
  let out ← f.vectorInit 1 array
  let out ← f.vectorSet H out 0 v array
  elemAt out.cells 0

/-- The storage type of the vectors that `vectorInit(n, array)` allocates. -/
def columnType (f : DrillField) (array : Bool) : SexpType :=
  match f.vectorInit 0 array with
  | .ok c => c.sxp
  | .error _ => .VECSXP

/-- The class attributes of the vectors that `vectorInit(n, array)` allocates. -/
def columnClass (f : DrillField) (array : Bool) : RClass :=
  match f.vectorInit 0 array with
  | .ok c => c.cls
  | .error _ => .plain

end DrillField

/-! ## Vocabulary of the properties -/

/-- The characters of an optional sign: none, `+` (`some false`) or `-`
(`some true`). -/
def signChars : Option Bool → List Char
  | none => []
  | some false => ['+']
  | some true => ['-']

/-- The integer that a sign and a run of decimal digits denote, by positional
value (least significant digit last). -/
def literalValue (sign : Option Bool) (ds : List Char) : Int :=
  let n : Nat := Nat.ofDigits 10 ((ds.map digitVal).reverse)
  if sign = some true then -(n : Int) else (n : Int)

/-- A host for evaluating examples: the `NA_INTEGER64` of the bit64 package
(`LLONG_MIN`) and a date parser that rejects every string. -/
def demoHost : Host := ⟨LLONG_MIN, fun _ => NA_REAL⟩

/-- The null marker of each column type, as the specification lists them. -/
def nullMarker (H : Host) : DrillType → Cell
  | .DRILL_BIGINT => .int64 H.NA_INTEGER64
  | .DRILL_INT => .int NA_INTEGER
  | .DRILL_FLOAT => .real NA_REAL
  | .DRILL_DOUBLE => .real NA_REAL
  | .DRILL_TIME => .real NA_REAL
  | .DRILL_DATE => .real NA_REAL
  | .DRILL_TIMESTAMP => .real NA_REAL
  | .DRILL_BOOLEAN => .int NA_LOGICAL
  | .DRILL_VARCHAR => .chr none
  | .DRILL_INTERVAL => .chr none
  | .DRILL_BINARY => .chr none

/-- The value that the `switch` of `vectorSet` computes for a slot, apart
from the write itself (used to state the effect of a write). -/
def scalarCell (H : Host) (t : DrillType) (v : JSON) : Cell :=
  match t, v with
  | .DRILL_BIGINT, .str s => .int64 (parse_int64 H.NA_INTEGER64 (c_str s))
  | .DRILL_INT, .str s => .int (parse_int (c_str s))
  | .DRILL_DOUBLE, .str s => .real (atof (c_str s))
  | .DRILL_FLOAT, .str s => .real (atof (c_str s))
  | .DRILL_BOOLEAN, .str s => .int (if strncmp1 (c_str s) "t".data then 1 else 0)
  | .DRILL_INTERVAL, .str s => .chr (some s)
  | .DRILL_BINARY, .str s => .chr (some s)
  | .DRILL_VARCHAR, .str s => .chr (some s)
  | .DRILL_TIME, .str s =>
      match strptime "%H:%M:%S".data (c_str s) Tm.uninit with
      | none => .real NA_REAL
      | some (parsed, dtm) =>
          .real (Dbl.add (Dbl.ofInt (dtm.tm_hour * 3600 + dtm.tm_min * 60 + dtm.tm_sec))
            (parse_partial_seconds parsed))
  | .DRILL_DATE, .str s => .real (H.getDate (c_str s))
  | .DRILL_TIMESTAMP, .str s =>
      match strptime "%Y-%m-%dT%H:%M:%S".data (c_str s) Tm.uninit with
      | none => .real NA_REAL
      | some (parsed, dtm) =>
          .real (Dbl.add (Dbl.ofInt (timegm dtm)) (parse_partial_seconds parsed))
  | t, _ => nullMarker H t

/-- The ten type strings of the schema protocol. -/
def recognisedTypes : List String :=
  ["INT", "BIGINT", "FLOAT", "BOOLEAN", "STRING", "TIMESTAMP", "TIME", "DATE", "INTERVAL", "BINARY"]

/-- A field spec that carries a `type` string which is `bad`, itself or in a
field spec of its nested `fields`, at any depth. -/
inductive SpecBad (bad : String → Prop) : JSON → Prop
  | here (ms : List (String × JSON)) (t : String) :
      findMember "type" ms = some (.str t) → bad t → SpecBad bad (.obj ms)
  | nested (ms : List (String × JSON)) (subs : List JSON) (sub : JSON) :
      findMember "fields" ms = some (.arr subs) → sub ∈ subs → SpecBad bad sub →
      SpecBad bad (.obj ms)

/-- A schema document `{schema: {fields: [...]}}` one of whose field specs
carries a `bad` type string, at the top level or nested. -/
def SchemaBad (bad : String → Prop) (doc : JSON) : Prop :=
  ∃ specs spec, ((doc.member "schema") >>= fun s => s.member "fields") = .ok (.arr specs)
    ∧ spec ∈ specs ∧ SpecBad bad spec

/-- A field spec of the shape the schema protocol gives it, at every depth:
an object with a string `name`, a string `type`, a `mode` that is a string
when there is one, and a `fields` that is an array of such field specs when
there is one. -/
inductive SpecShaped : JSON → Prop
  | mk (ms : List (String × JSON)) (nm ty : String) :
      findMember "name" ms = some (.str nm) → findMember "type" ms = some (.str ty) →
      (∀ m, findMember "mode" ms = some m → ∃ s, m = .str s) →
      (∀ v, findMember "fields" ms = some v → v.IsArray = true) →
      (∀ subs sub, findMember "fields" ms = some (.arr subs) → sub ∈ subs → SpecShaped sub) →
      SpecShaped (.obj ms)

/-- The text of a string: its characters before the first NUL. -/
def textOf (s : String) : String := String.mk (s.data.takeWhile fun c => c ≠ '\x00')

/-- A type string that is not one of the ten recognised type strings. -/
def unrecognised (t : String) : Prop := t ∉ recognisedTypes

/-- A type string whose text is not one of the ten recognised type strings. -/
def unrecognisedText (t : String) : Prop := textOf t ∉ recognisedTypes

/-- The character of a decimal digit. -/
def digitChar (d : Nat) : Char := Char.ofNat (48 + d)

/-- Two decimal digits, zero padded. -/
def two (n : Nat) : List Char := [digitChar (n / 10), digitChar (n % 10)]

/-- Four decimal digits, zero padded. -/
def four (n : Nat) : List Char :=
  [digitChar (n / 1000), digitChar (n / 100 % 10), digitChar (n / 10 % 10), digitChar (n % 10)]

/-- The text `YYYY-MM-DDTHH:MM:SS` of six calendar fields. -/
def isoPrefix (Y M D h m s : Nat) : List Char :=
  four Y ++ '-' :: (two M ++ '-' :: (two D ++ 'T' :: (two h ++ ':' :: (two m ++ ':' :: two s))))

/-- Gregorian leap years, by the calendar rule. -/
def isLeap (y : Nat) : Bool := (y % 4 = 0 ∧ y % 100 ≠ 0) ∨ y % 400 = 0

/-- Days in the years `0, ..., y - 1` of the proleptic Gregorian calendar. -/
def daysBeforeYear : Nat → Int
  | 0 => 0
  | y + 1 => daysBeforeYear y + (if isLeap y then 366 else 365)

/-- Days in month `m` (1-based) of year `y`. -/
def monthLength (y m : Nat) : Int :=
  if m = 2 then (if isLeap y then 29 else 28)
  else if m = 4 ∨ m = 6 ∨ m = 9 ∨ m = 11 then 30 else 31

/-- Days in the months `1, ..., m - 1` of year `y`. -/
def daysBeforeMonth (y : Nat) : Nat → Int
  | 0 => 0
  | 1 => 0
  | m + 1 => daysBeforeMonth y m + monthLength y m

/-- Days from 1970-01-01 to the civil date `Y-M-D`, counted day by day; a day
of the month past the end of the month runs on into the next one. -/
def daysSinceEpoch (Y M D : Nat) : Int :=
  daysBeforeYear Y - daysBeforeYear 1970 + daysBeforeMonth Y M + ((D : Int) - 1)

/-! ### Floating literals -/

/-- Whether the word `p`, given in lower case, starts the string `s`, letter
case ignored. -/
def startsWord (p s : List Char) : Bool := (s.take p.length).map tolower = p

/-- What is left of a string after its leading white space and one optional
sign. -/
def afterSign (cs : List Char) : List Char :=
  match cs.dropWhile isspace with
  | '-' :: r => r
  | '+' :: r => r
  | r => r

/-- Whether a string starts a floating-point literal: after white space and
an optional sign comes a digit, or a `.` and a digit, or one of the words
`inf` and `nan`. -/
def startsLiteral (cs : List Char) : Bool :=
  match afterSign cs with
  | [] => false
  | c :: t =>
      isdigit c
        || (decide (c = '.') && (match t with
          | d :: _ => isdigit d
          | [] => false))
        || startsWord ['i', 'n', 'f'] (c :: t) || startsWord ['n', 'a', 'n'] (c :: t)

/-! ### Time stamps as text -/

/-- The number that a run of decimal digits denotes. -/
def numeral (ds : List Char) : Nat := Nat.ofDigits 10 ((ds.map digitVal).reverse)

/-- One numeric field of a time stamp in its lenient form: white space
(possibly none) and then decimal digits. -/
structure NumText where
  ws : List Char
  ds : List Char

/-- The characters of a numeric field. -/
def NumText.chars (t : NumText) : List Char := t.ws ++ t.ds

/-- The number of a numeric field. -/
def NumText.val (t : NumText) : Nat := numeral t.ds

/-- A numeric field of one to `n` digits that denote a number in `lo..hi`. -/
def NumText.ok (lo hi n : Nat) (t : NumText) : Bool :=
  t.ws.all isspace && t.ds.all isdigit && decide (1 ≤ t.ds.length) && decide (t.ds.length ≤ n)
    && decide (lo ≤ t.val) && decide (t.val ≤ hi)

/-- A string cut into the six numeric fields of a time stamp, the separators
`-`, `-`, `T`, `:`, `:` between them, and a rest. -/
structure StampText where
  year : NumText
  month : NumText
  day : NumText
  hour : NumText
  minute : NumText
  second : NumText
  rest : List Char

/-- The characters of a time stamp. -/
def StampText.chars (t : StampText) : List Char :=
  t.year.chars ++ '-' :: (t.month.chars ++ '-' :: (t.day.chars ++ 'T' :: (t.hour.chars
    ++ ':' :: (t.minute.chars ++ ':' :: (t.second.chars ++ t.rest)))))

/-- The lenient form of a time stamp: a year of one to four digits, a month
in 1..12, a day in 1..31, an hour in 0..23, a minute in 0..59 and a second
in 0..61 of one or two digits each, every field after optional white space;
the second has two digits whenever its first digit is at most 6 and a digit
follows it. -/
def StampText.ok (t : StampText) : Bool :=
  t.year.ok 0 9999 4 && t.month.ok 1 12 2 && t.day.ok 1 31 2 && t.hour.ok 0 23 2
    && t.minute.ok 0 59 2 && t.second.ok 0 61 2
    && (decide (t.second.ds.length = 2) || decide (7 ≤ t.second.val)
      || !(match t.rest with
        | c :: _ => isdigit c
        | [] => false))

/-- The seconds from 1970-01-01T00:00:00 to the calendar fields of a time
stamp read as UTC: the day count of the date times 86400 plus
`3600 * HH + 60 * MM + SS`. -/
def StampText.seconds (t : StampText) : Int :=
  daysSinceEpoch t.year.val t.month.val t.day.val * 86400 + 3600 * t.hour.val
    + 60 * t.minute.val + t.second.val

/-! ### Well-formed row batches -/

/-- An envelope `{v: ...}`: an object with a member `v`. -/
def hasV (e : JSON) : Bool :=
  match e.member "v" with
  | .ok _ => true
  | .error _ => false

/-- A value fit for field `f`: for a repeated field, an array of `{v: ...}`
elements; for any other field, any value. -/
def wfValue (f : DrillField) (v : JSON) : Bool :=
  if f.array_ then
    match v with
    | .arr elems => elems.all hasV
    | _ => false
  else true

/-- The entries of the `f` array of a row for the fields of the schema, in
order: each `{v: Value}` with a value fit for its field. -/
def wfCells : List DrillField → List JSON → Bool
  | [], _ => true
  | _ :: _, [] => false
  | f :: fs, e :: es =>
      (match e.member "v" with
        | .ok v => wfValue f v
        | .error _ => false) && wfCells fs es

/-- A row `{f: [{v: Value}, ...]}` with one entry per field of the schema. -/
def wfRow (fields : List DrillField) (row : JSON) : Bool :=
  match row.member "f" with
  | .ok (.arr es) => wfCells fields es
  | _ => false

/-- A well-formed row-batch document `{rows?: [Row, ...]}` for the fields of
the schema. -/
def wfDoc (fields : List DrillField) (d : JSON) : Bool :=
  match d with
  | .obj ms =>
      match findMember "rows" ms with
      | none => true
      | some (.arr rows) => rows.all (wfRow fields)
      | some _ => false
  | _ => false

/-- The number of rows of a row-batch document, 0 without a member `rows`. -/
def rowCount (d : JSON) : Nat :=
  match d.member "rows" with
  | .ok (.arr rows) => rows.length
  | _ => 0

/-- The value of field `j` in row `i` of a row-batch document:
`d["rows"][i]["f"][j]["v"]`. -/
def cellValue (d : JSON) (i j : Nat) : Except Err JSON := do
  let rows ← d.member "rows"
  let f ← (← rows.index i).member "f"
  (← f.index j).member "v"

/-- Slot `idx` of column `j` of a table. -/
def Table.slot (t : Table) (j idx : Nat) : Option Cell :=
  match t.cols[j]? with
  | some c => c.cells[idx]?
  | none => none

/-- A table with one column per field, each of the storage type of its field
and of `N` rows. -/
def TableOK (fields : List DrillField) (t : Table) (N : Nat) : Prop :=
  t.cols.length = fields.length
    ∧ ∀ (j : Nat) (f : DrillField) (c : Column), fields[j]? = some f → t.cols[j]? = some c →
        c.sxp = f.columnType f.array_ ∧ c.cells.length = N

/-- The sources of a run whose files all parse: path and document. -/
def sourcesOf (srcs : List (String × JSON)) : List Source :=
  srcs.map fun s => ⟨s.1, some s.2⟩

/-- The total row count of a list of sources. -/
def totalRows (srcs : List (String × JSON)) : Nat :=
  (srcs.map fun s => rowCount s.2).sum

/-! ### A small result set for examples -/

/-- The schema `a : INT`, `b : STRING (REPEATED)`. -/
def exampleSchema : JSON :=
  .obj [("schema", .obj [("fields", .arr [
    .obj [("name", .str "a"), ("type", .str "INT")],
    .obj [("name", .str "b"), ("type", .str "STRING"), ("mode", .str "REPEATED")]])])]

/-- The fields of `exampleSchema`. -/
def exampleFields : List DrillField :=
  [.mk "a" .DRILL_INT false [], .mk "b" .DRILL_VARCHAR true []]

/-- A row of the example: a value for `a` and the elements of `b`. -/
def exampleRow (a : String) (bs : List String) : JSON :=
  .obj [("f", .arr [.obj [("v", .str a)],
    .obj [("v", .arr (bs.map fun b => .obj [("v", .str b)]))]])]

/-- Three sources of 2, 0 (no member `rows`) and 3 rows. -/
def exampleSources : List (String × JSON) :=
  [("part1.json", .obj [("rows", .arr [exampleRow "1" ["x"], exampleRow "2" []])]),
   ("part2.json", .obj []),
   ("part3.json", .obj [("rows", .arr [exampleRow "3" ["y", "z"], exampleRow "4" [],
      exampleRow "5" ["w"]])])]

/-- The rational number that a finite binary64 value denotes. -/
def Dbl.toRat : Dbl → Option ℚ
  | .fin neg m e => some ((if neg then -1 else 1) * (m : ℚ) * (2 : ℚ) ^ e)
  | _ => none

/-- The mapping of type strings to field types, as the specification lists it. -/
def typeTable : List (String × DrillType) :=
  [("INT", .DRILL_INT), ("BIGINT", .DRILL_BIGINT), ("FLOAT", .DRILL_FLOAT),
   ("BOOLEAN", .DRILL_BOOLEAN), ("STRING", .DRILL_VARCHAR), ("TIMESTAMP", .DRILL_TIMESTAMP),
   ("TIME", .DRILL_TIME), ("DATE", .DRILL_DATE), ("INTERVAL", .DRILL_INTERVAL),
   ("BINARY", .DRILL_BINARY)]

/-! ### Schemas that differ in their nested fields -/

/-- A field descriptor without its children. -/
def DrillField.strip (f : DrillField) : DrillField := .mk f.name f.type_ f.array_ []

/-- Two field specs with the same `name`, `mode` and `type` members; their
`fields` members (and any other member) are free to differ. -/
def SpecSim (e1 e2 : JSON) : Prop :=
  ∃ ms1 ms2, e1 = .obj ms1 ∧ e2 = .obj ms2
    ∧ findMember "name" ms1 = findMember "name" ms2
    ∧ findMember "mode" ms1 = findMember "mode" ms2
    ∧ findMember "type" ms1 = findMember "type" ms2

/-- Two schema documents with field specs pairwise alike apart from their
nested `fields`. -/
def SchemaSim (m1 m2 : JSON) : Prop :=
  ∃ specs1 specs2,
    ((m1.member "schema") >>= fun s => s.member "fields") = .ok (.arr specs1)
    ∧ ((m2.member "schema") >>= fun s => s.member "fields") = .ok (.arr specs2)
    ∧ List.Forall₂ SpecSim specs1 specs2

/-- The example schema with children added to both field specs. -/
def exampleSchemaNested : JSON :=
  .obj [("schema", .obj [("fields", .arr [
    .obj [("name", .str "a"), ("type", .str "INT"),
      ("fields", .arr [.obj [("name", .str "z"), ("type", .str "DATE")]])],
    .obj [("name", .str "b"), ("type", .str "STRING"), ("mode", .str "REPEATED"),
      ("fields", .arr [])]])])]

/-- The fields of `exampleSchemaNested`. -/
def exampleFieldsNested : List DrillField :=
  [.mk "a" .DRILL_INT false [.mk "z" .DRILL_DATE false []], .mk "b" .DRILL_VARCHAR true []]

/-! ### Traces of the driver -/

/-- The events of a quiet run over sources with the given row counts, from
source number `k` on: each source is opened, decoded and then polled once;
the run stops at the first poll that sees an interrupt. -/
def quietTrace (interrupt : Nat → Bool) : List Nat → Nat → List Event
  | [], _ => []
  | c :: cs, k =>
      if interrupt k then [.opened k, .decoded k c, .poll k]
      else [.opened k, .decoded k c, .poll k] ++ quietTrace interrupt cs (k + 1)

/-- The events of a run with the progress bar: each source is opened, decoded
and ticked; nothing is polled. -/
def loudTrace : List Nat → Nat → List Event
  | [], _ => []
  | c :: cs, k => [.opened k, .decoded k c, .tick k] ++ loudTrace cs (k + 1)

/-- Whether an event is a poll of the interrupt signal. -/
def Event.isPoll : Event → Bool
  | .poll _ => true
  | _ => false

/-- The table that `drill_fields_init` allocates for the example schema and
five rows. -/
def exampleInit : Table :=
  ⟨[⟨.INTSXP, .plain, List.replicate 5 (.int 0)⟩, ⟨.VECSXP, .plain, List.replicate 5 .nil⟩],
    ["a", "b"], 5⟩

/-! ## C strings -/

theorem c_str_head_of (s : String) (c : Char) (h : (c_str s).head? = some c) :
    s.data.head? = some c ∧ c ≠ '\x00' := by
  unfold c_str at h
  cases hd : s.data with
  | nil => simp [hd] at h
  | cons a r =>
      rw [hd] at h
      by_cases ha : a = '\x00'
      · simp [List.takeWhile, ha] at h
      · simp [List.takeWhile, ha] at h
        subst h
        exact ⟨rfl, ha⟩

theorem c_str_head (s : String) (c : Char) (hc : c ≠ '\x00') :
    (c_str s).head? = some c ↔ s.data.head? = some c := by
  constructor
  · exact fun h => (c_str_head_of s c h).1
  · intro h
    unfold c_str
    cases hd : s.data with
    | nil => simp [hd] at h
    | cons a r =>
        rw [hd] at h
        simp only [List.head?_cons, Option.some.injEq] at h
        subst h
        simp [List.takeWhile, hc]

theorem c_str_no_nul (s : String) (h : '\x00' ∉ s.data) : c_str s = s.data := by
  unfold c_str
  rw [List.takeWhile_eq_self_iff]
  intro c hc
  simp only [decide_eq_true_eq]
  exact fun e => h (e ▸ hc)

theorem std_string_no_nul (s : String) (h : '\x00' ∉ s.data) : std_string s = s := by
  simp only [std_string, c_str_no_nul s h]

/-! ## Integer parsing -/

theorem isdigit_not_isspace {c : Char} (h : isdigit c = true) : isspace c = false := by
  simp only [isdigit, Bool.and_eq_true, decide_eq_true_eq] at h
  simp only [isspace, Bool.or_eq_false_iff, decide_eq_false_iff_not]
  refine ⟨⟨⟨⟨⟨?_, ?_⟩, ?_⟩, ?_⟩, ?_⟩, ?_⟩ <;> (intro hc; subst hc; revert h; decide)

theorem isdigit_not_sign {c : Char} (h : isdigit c = true) : c ≠ '-' ∧ c ≠ '+' := by
  simp only [isdigit, Bool.and_eq_true, decide_eq_true_eq] at h
  constructor <;> (intro hc; subst hc; revert h; decide)

theorem dropWhile_isspace_append (ws tl : List Char) (hws : ∀ c ∈ ws, isspace c = true)
    (htl : ∀ c, tl.head? = some c → isspace c = false) :
    (ws ++ tl).dropWhile isspace = tl := by
  induction ws with
  | nil =>
      cases tl with
      | nil => rfl
      | cons c t => simp [List.dropWhile, htl c rfl]
  | cons w ws ih =>
      have hw : isspace w = true := hws w (List.mem_cons_self _ _)
      rw [List.cons_append, List.dropWhile_cons, if_pos hw]
      exact ih (fun c hc => hws c (List.mem_cons_of_mem _ hc))

theorem takeWhile_isdigit_append (ds tl : List Char) (hds : ∀ c ∈ ds, isdigit c = true)
    (htl : ∀ c, tl.head? = some c → isdigit c = false) :
    (ds ++ tl).takeWhile isdigit = ds := by
  induction ds with
  | nil =>
      cases tl with
      | nil => rfl
      | cons c t => simp [List.takeWhile, htl c rfl]
  | cons d ds ih =>
      have hd : isdigit d = true := hds d (List.mem_cons_self _ _)
      rw [List.cons_append, List.takeWhile_cons, if_pos hd,
        ih (fun c hc => hds c (List.mem_cons_of_mem _ hc))]

theorem takeSign_signChars (sign : Option Bool) (tl : List Char)
    (htl : ∀ c, tl.head? = some c → c ≠ '-' ∧ c ≠ '+') :
    takeSign (signChars sign ++ tl) = (decide (sign = some true), tl) := by
  cases sign with
  | none =>
      cases tl with
      | nil => rfl
      | cons c t =>
          have h := htl c rfl
          simp only [signChars, List.nil_append]
          unfold takeSign
          split <;> simp_all
  | some b => cases b <;> rfl

theorem foldl_digits (ds : List Char) (acc : Nat) :
    ds.foldl (fun a c => a * 10 + digitVal c) acc
      = acc * 10 ^ ds.length + Nat.ofDigits 10 ((ds.map digitVal).reverse) := by
  induction ds generalizing acc with
  | nil => simp
  | cons d ds ih =>
      simp only [List.foldl_cons, List.map_cons, List.reverse_cons, List.length_cons]
      rw [ih, Nat.ofDigits_append, Nat.ofDigits_singleton, List.length_reverse, List.length_map]
      ring

theorem digitsVal_eq (ds : List Char) :
    digitsVal ds = Nat.ofDigits 10 ((ds.map digitVal).reverse) := by
  simp [digitsVal, foldl_digits]

/-- What `strtol`/`strtoll` return on white space, an optional sign, a
non-empty run of digits and a rest that does not start with a digit. -/
theorem strtoRange_literal (lo hi : Int) (ws : List Char) (sign : Option Bool)
    (ds rest : List Char) (hws : ∀ c ∈ ws, isspace c = true) (hne : ds ≠ [])
    (hds : ∀ c ∈ ds, isdigit c = true) (hrest : ∀ c, rest.head? = some c → isdigit c = false) :
    strtoRange lo hi (ws ++ (signChars sign ++ (ds ++ rest)))
      = if literalValue sign ds < lo then (lo, true)
        else if hi < literalValue sign ds then (hi, true)
        else (literalValue sign ds, false) := by
  obtain ⟨d, ds1, rfl⟩ := List.exists_cons_of_ne_nil hne
  have hd : isdigit d = true := hds d (List.mem_cons_self _ _)
  have h1 : (ws ++ (signChars sign ++ (d :: ds1 ++ rest))).dropWhile isspace
      = signChars sign ++ (d :: ds1 ++ rest) := by
    apply dropWhile_isspace_append _ _ hws
    intro c hc
    cases sign with
    | none =>
        simp only [signChars, List.nil_append, List.cons_append, List.head?_cons,
          Option.some.injEq] at hc
        subst hc
        exact isdigit_not_isspace hd
    | some b =>
        cases b <;> simp only [signChars, List.cons_append, List.head?_cons,
          Option.some.injEq] at hc <;> subst hc <;> decide
  have h2 : takeSign (signChars sign ++ (d :: ds1 ++ rest))
      = (decide (sign = some true), d :: ds1 ++ rest) := by
    apply takeSign_signChars
    intro c hc
    simp only [List.cons_append, List.head?_cons, Option.some.injEq] at hc
    subst hc
    exact isdigit_not_sign hd
  have h3 : (d :: ds1 ++ rest).takeWhile isdigit = d :: ds1 :=
    takeWhile_isdigit_append _ _ hds hrest
  unfold strtoRange
  simp only [h1, h2, h3, digitsVal_eq, literalValue]
  cases sign with
  | none => rfl
  | some b => cases b <;> rfl


/-! ## Writes into a column -/

theorem store_ok (x : Column) (ok : List SexpType) (i : Nat) (c : Cell) (hx : x.sxp ∈ ok)
    (hi : i < x.cells.length) :
    x.store ok i c = .ok { x with cells := x.cells.set i c } := by
  simp [Column.store, hx, hi]

/-- The `switch` of `vectorSet` writes `scalarCell` into slot `i` when the
column has the storage type of the field and `i` is a valid index. -/
theorem vectorSetScalar_ok (H : Host) (f : DrillField) (x : Column) (i : Nat) (v : JSON)
    (hx : x.sxp = f.columnType false) (hi : i < x.cells.length) :
    f.vectorSetScalar H x i v = .ok { x with cells := x.cells.set i (scalarCell H f.type_ v) } := by
  obtain ⟨name, t, a, fs⟩ := f
  cases t <;> cases v <;>
    simp only [DrillField.columnType, DrillField.vectorInit, DrillField.type_, Column.fresh,
      Int.toNat_zero, List.replicate, lt_self_iff_false, if_false, Bool.false_eq_true] at hx <;>
    simp only [DrillField.vectorSetScalar, DrillField.type_, Column.setINTEGER, Column.setREAL,
      Column.setINTEGER64, Column.setSTRING, scalarCell, nullMarker] <;>
    first
      | (rw [store_ok _ _ _ _ (by simp [hx]) hi]; done)
      | (split <;> rw [store_ok _ _ _ _ (by simp [hx]) hi])

theorem scalarCell_nonstring (H : Host) (t : DrillType) (v : JSON) (hv : v.IsString = false) :
    scalarCell H t v = nullMarker H t := by
  cases t <;> cases v <;> first | rfl | (simp [JSON.IsString] at hv)

theorem forLoop_invariant {σ : Type} (body : Nat → σ → Except Err σ) (P : Nat → σ → Prop)
    (n : Nat) (s0 : σ) (h0 : P 0 s0)
    (hstep : ∀ k s, k < n → P k s → ∃ s1, body k s = .ok s1 ∧ P (k + 1) s1) :
    ∃ s, forLoop body n s0 = .ok s ∧ P n s := by
  induction n with
  | zero => exact ⟨s0, rfl, h0⟩
  | succ m ih =>
      obtain ⟨s, hs, hP⟩ := ih (fun k s hk hp => hstep k s (Nat.lt_succ_of_lt hk) hp)
      obtain ⟨s1, hs1, hP1⟩ := hstep m s (Nat.lt_succ_self m) hP
      exact ⟨s1, by simp [forLoop, hs, bind, Except.bind, hs1], hP1⟩

/-- C1: for each of the eleven field types, the non-repeated decode of a JSON
value that is not a string writes the null marker of the column type into
slot `i` and raises no error; `x` is a column of the storage type that
`vectorInit` allocates for the field and `i` one of its indices. -/
theorem vectorSet_nonstring_null (H : Host) (f : DrillField) (x : Column) (i : Nat) (v : JSON)
    (hv : v.IsString = false) (hx : x.sxp = f.columnType false) (hi : i < x.cells.length) :
    f.vectorSet H x i v false = .ok { x with cells := x.cells.set i (nullMarker H f.type_) } := by
  have h := vectorSetScalar_ok H f x i v hx hi
  rw [scalarCell_nonstring H f.type_ v hv] at h
  simpa [DrillField.vectorSet] using h

/-- C1, witness: a JSON number in slot 1 of a BIGINT column of three rows. -/
theorem vectorSet_nonstring_null_witness :
    (DrillField.mk "n" .DRILL_BIGINT false []).vectorSet demoHost
        ⟨.REALSXP, .integer64, [.int64 7, .int64 8, .int64 9]⟩ 1 (.num 5) false
      = .ok ⟨.REALSXP, .integer64, [.int64 7, .int64 LLONG_MIN, .int64 9]⟩ :=
  vectorSet_nonstring_null demoHost (DrillField.mk "n" .DRILL_BIGINT false [])
    ⟨.REALSXP, .integer64, [.int64 7, .int64 8, .int64 9]⟩ 1 (.num 5) rfl rfl (by decide)

/-- C4, as the code has it: for a repeated field, a value that is not a JSON
array makes the row decode stop with the error `Not an array [1]`; nothing is
stored. -/
theorem vectorSet_repeated_not_array (H : Host) (f : DrillField) (x : Column) (i : Nat)
    (v : JSON) (hv : v.IsArray = false) :
    f.vectorSet H x i v true = .error (.stop "Not an array [1]") := by
  simp [DrillField.vectorSet, hv]

/-- C4, witness: a JSON string given to a repeated VARCHAR field. -/
theorem vectorSet_repeated_not_array_witness :
    (DrillField.mk "tags" .DRILL_VARCHAR true []).vectorSet demoHost
        (Column.fresh .VECSXP .plain 1 .nil) 0 (.str "a") true
      = .error (.stop "Not an array [1]") :=
  vectorSet_repeated_not_array demoHost _ _ 0 (.str "a") rfl

/-- C4, counterexample: JSON `null` for a repeated VARCHAR field, decoded into
the one-row list column that `vectorInit` allocated, raises an error instead
of storing a zero-length sub-column. -/
theorem vectorSet_repeated_null_counterexample :
    (DrillField.mk "tags" .DRILL_VARCHAR true []).vectorSet demoHost
        (Column.fresh .VECSXP .plain 1 .nil) 0 .null true
      = .error (.stop "Not an array [1]")
    ∧ (DrillField.mk "tags" .DRILL_VARCHAR true []).vectorSet demoHost
        (Column.fresh .VECSXP .plain 1 .nil) 0 .null true
      ≠ .ok ⟨.VECSXP, .plain, [.vec .STRSXP .plain []]⟩ :=
  ⟨rfl, fun h => by cases h⟩

/-- C9: on a logical column, the decode of a JSON string stores TRUE (1) when
the first character is the lower-case letter `t` and FALSE (0) for every
other string, the empty one included; a value that is not a string stores
`NA_LOGICAL`. -/
theorem boolean_decode (H : Host) (f : DrillField) (x : Column) (i : Nat)
    (hf : f.type_ = .DRILL_BOOLEAN) (hx : x.sxp = .LGLSXP) (hi : i < x.cells.length) :
    (∀ s : String, s.data.head? = some 't' →
        f.vectorSet H x i (.str s) false = .ok { x with cells := x.cells.set i (.int 1) })
    ∧ (∀ s : String, s.data.head? ≠ some 't' →
        f.vectorSet H x i (.str s) false = .ok { x with cells := x.cells.set i (.int 0) })
    ∧ (∀ v : JSON, v.IsString = false →
        f.vectorSet H x i v false = .ok { x with cells := x.cells.set i (.int NA_LOGICAL) }) := by
  obtain ⟨name, t, a, fs⟩ := f
  simp only [DrillField.type_] at hf
  subst hf
  have hx1 : x.sxp = (DrillField.mk name .DRILL_BOOLEAN a fs).columnType false := hx
  refine ⟨fun s hs => ?_, fun s hs => ?_, fun v hv => ?_⟩
  · have h := vectorSetScalar_ok H _ x i (.str s) hx1 hi
    have hs1 : (c_str s).head? = some 't' := (c_str_head s 't' (by decide)).mpr hs
    simpa [DrillField.vectorSet, scalarCell, DrillField.type_, strncmp1, hs1] using h
  · have h := vectorSetScalar_ok H _ x i (.str s) hx1 hi
    have hs1 : (c_str s).head? ≠ some 't' := fun e => hs ((c_str_head s 't' (by decide)).mp e)
    simpa [DrillField.vectorSet, scalarCell, DrillField.type_, strncmp1, hs1] using h
  · have h := vectorSetScalar_ok H _ x i v hx1 hi
    rw [scalarCell_nonstring H _ v hv] at h
    simpa [DrillField.vectorSet, nullMarker, DrillField.type_] using h

/-- C9, witness: `"t"` and `"true"` give TRUE; `"f"`, `"false"`, `"x"`, `"T"`
and `""` give FALSE; JSON `null` gives `NA_LOGICAL`. -/
theorem boolean_decode_witness :
    (DrillField.mk "b" .DRILL_BOOLEAN false []).vectorSet demoHost ⟨.LGLSXP, .plain, [.int 0]⟩ 0
        (.str "t") false = .ok ⟨.LGLSXP, .plain, [.int 1]⟩
    ∧ (DrillField.mk "b" .DRILL_BOOLEAN false []).vectorSet demoHost ⟨.LGLSXP, .plain, [.int 0]⟩ 0
        (.str "true") false = .ok ⟨.LGLSXP, .plain, [.int 1]⟩
    ∧ (DrillField.mk "b" .DRILL_BOOLEAN false []).vectorSet demoHost ⟨.LGLSXP, .plain, [.int 0]⟩ 0
        (.str "f") false = .ok ⟨.LGLSXP, .plain, [.int 0]⟩
    ∧ (DrillField.mk "b" .DRILL_BOOLEAN false []).vectorSet demoHost ⟨.LGLSXP, .plain, [.int 0]⟩ 0
        (.str "false") false = .ok ⟨.LGLSXP, .plain, [.int 0]⟩
    ∧ (DrillField.mk "b" .DRILL_BOOLEAN false []).vectorSet demoHost ⟨.LGLSXP, .plain, [.int 0]⟩ 0
        (.str "x") false = .ok ⟨.LGLSXP, .plain, [.int 0]⟩
    ∧ (DrillField.mk "b" .DRILL_BOOLEAN false []).vectorSet demoHost ⟨.LGLSXP, .plain, [.int 0]⟩ 0
        (.str "T") false = .ok ⟨.LGLSXP, .plain, [.int 0]⟩
    ∧ (DrillField.mk "b" .DRILL_BOOLEAN false []).vectorSet demoHost ⟨.LGLSXP, .plain, [.int 0]⟩ 0
        (.str "") false = .ok ⟨.LGLSXP, .plain, [.int 0]⟩
    ∧ (DrillField.mk "b" .DRILL_BOOLEAN false []).vectorSet demoHost ⟨.LGLSXP, .plain, [.int 0]⟩ 0
        .null false = .ok ⟨.LGLSXP, .plain, [.int NA_LOGICAL]⟩ :=
  have h := boolean_decode demoHost (DrillField.mk "b" .DRILL_BOOLEAN false [])
    ⟨.LGLSXP, .plain, [.int 0]⟩ 0 rfl rfl (by decide)
  ⟨h.1 "t" rfl, h.1 "true" rfl, h.2.1 "f" (by decide), h.2.1 "false" (by decide),
    h.2.1 "x" (by decide), h.2.1 "T" (by decide), h.2.1 "" (by decide), h.2.2 .null rfl⟩

/-! ## Repeated fields -/

theorem vectorInit_ok (f : DrillField) (n : Nat) (array : Bool) :
    ∃ c, f.vectorInit (n : Int) array = .ok c ∧ c.sxp = f.columnType array
      ∧ c.cells.length = n ∧ c.cls = f.columnClass array := by
  obtain ⟨name, t, a, fs⟩ := f
  have hn : ¬ ((n : Int) < 0) := by omega
  cases array <;> cases t <;>
    simp [DrillField.vectorInit, DrillField.columnType, DrillField.columnClass, DrillField.type_,
      Column.fresh, hn]

theorem columnType_true (f : DrillField) : f.columnType true = .VECSXP := by
  obtain ⟨name, t, a, fs⟩ := f
  rfl

/-- The non-repeated decode of a value on its own is the cell that the
`switch` computes. -/
theorem decode_false (H : Host) (f : DrillField) (v : JSON) :
    f.decode H v false = .ok (scalarCell H f.type_ v) := by
  obtain ⟨c, hc, hs, hl, _⟩ := vectorInit_ok f 1 false
  have hc1 : f.vectorInit 1 false = .ok c := hc
  have h := vectorSetScalar_ok H f c 0 v hs (by omega)
  obtain ⟨sxp, cls, cells⟩ := c
  simp only at hl
  obtain ⟨c0, rfl⟩ : ∃ c0, cells = [c0] := by
    cases cells with
    | nil => simp at hl
    | cons a r =>
        cases r with
        | nil => exact ⟨a, rfl⟩
        | cons b r => simp at hl
  simp [DrillField.decode, hc1, DrillField.vectorSet, h, bind, Except.bind, elemAt]

/-- The element loop of the repeated decode (lines 181-184): with every
element shaped `{v: ...}`, the sub-column holds the scalar cells in order. -/
theorem array_loop (H : Host) (f : DrillField) (elems vs : List JSON)
    (hshape : List.Forall₂ (fun e v => e.member "v" = Except.ok v) elems vs)
    (out0 : Column) (hs : out0.sxp = f.columnType false) (hl : out0.cells.length = elems.length) :
    forLoop (f.vectorSetElem H (.arr elems)) elems.length out0
      = .ok ⟨out0.sxp, out0.cls, vs.map (scalarCell H f.type_)⟩ := by
  have hlen : elems.length = vs.length := hshape.length_eq
  obtain ⟨s, hrun, hsx, hcl, hln, hcells⟩ := forLoop_invariant
    (f.vectorSetElem H (.arr elems))
    (fun k out => out.sxp = out0.sxp ∧ out.cls = out0.cls ∧ out.cells.length = elems.length
      ∧ ∀ j, j < k → out.cells[j]? = (vs[j]?).map (scalarCell H f.type_))
    elems.length out0 ⟨rfl, rfl, hl, fun j hj => absurd hj (Nat.not_lt_zero j)⟩
    (by
      intro k s hk ⟨h1, h2, h3, h4⟩
      have hkv : k < vs.length := hlen ▸ hk
      have he : (JSON.arr elems).index k = .ok (elems.get ⟨k, hk⟩) := by
        simp [JSON.index, List.getElem?_eq_getElem hk]
      have hm : (elems.get ⟨k, hk⟩).member "v" = .ok (vs.get ⟨k, hkv⟩) :=
        List.Forall₂.get hshape hk hkv
      have hw := vectorSetScalar_ok H f s k (vs.get ⟨k, hkv⟩) (h1.trans hs) (h3 ▸ hk)
      refine ⟨{ s with cells := s.cells.set k (scalarCell H f.type_ (vs.get ⟨k, hkv⟩)) }, ?_,
        h1, h2, by simpa using h3, ?_⟩
      · simp only [DrillField.vectorSetElem, he, hm, bind, Except.bind]
        exact hw
      · intro j hj
        by_cases hjk : j = k
        · subst hjk
          simp [List.getElem?_set, h3, hk, List.getElem?_eq_getElem hkv]
        · have hlt : j < k := by omega
          simp only [List.getElem?_set_ne (Ne.symm hjk)]
          exact h4 j hlt)
  rw [hrun]
  obtain ⟨sxp, cls, cells⟩ := s
  simp only at hsx hcl hln hcells
  subst hsx hcl
  congr 2
  apply List.ext_getElem?
  intro j
  by_cases hj : j < elems.length
  · rw [hcells j hj]
    simp
  · have h1 : cells.length ≤ j := by omega
    have h2 : (vs.map (scalarCell H f.type_)).length ≤ j := by simp; omega
    rw [List.getElem?_eq_none h1, List.getElem?_eq_none h2]

/-- C5: for a repeated field and a value that is a JSON array of `k` elements
each shaped `{v: ...}`, the row decode stores in slot `i` a sub-column of the
storage type of the field, of length exactly `k`, whose `j`-th entry is the
non-repeated decode of the `v` of element `j`; for `[]` the sub-column has
length 0. `x` is a list column and `i` one of its indices. -/
theorem vectorSet_repeated_array (H : Host) (f : DrillField) (x : Column) (i : Nat)
    (elems vs : List JSON) (hx : x.sxp = .VECSXP) (hi : i < x.cells.length)
    (hshape : List.Forall₂ (fun e v => e.member "v" = Except.ok v) elems vs) :
    ∃ sub : Column,
      f.vectorSet H x i (.arr elems) true = .ok { x with cells := x.cells.set i sub.toCell }
      ∧ sub.sxp = f.columnType false
      ∧ sub.cells.length = elems.length
      ∧ (∀ (j : Nat) (v : JSON), vs[j]? = some v → ∃ c, sub.cells[j]? = some c ∧ f.decode H v false = .ok c)
      ∧ (elems = [] → sub.cells = []) := by
  obtain ⟨out0, h0, hs0, hl0, _⟩ := vectorInit_ok f elems.length false
  have hloop := array_loop H f elems vs hshape out0 hs0 hl0
  refine ⟨⟨out0.sxp, out0.cls, vs.map (scalarCell H f.type_)⟩, ?_, hs0, ?_, ?_, ?_⟩
  · simp only [DrillField.vectorSet, JSON.IsArray, JSON.Size, if_true, Bool.not_true,
      Bool.false_eq_true, if_false, bind, Except.bind, h0, hloop, Column.setVECTOR]
    exact store_ok x [.VECSXP] i _ (by simp [hx]) hi
  · simp [hshape.length_eq]
  · intro j v hv
    exact ⟨scalarCell H f.type_ v, by simp [hv], decode_false H f v⟩
  · intro he
    subst he
    cases hshape
    rfl

/-- C5, witness: `[{v: "7"}, {v: null}]` and `[]` for a repeated INT field. -/
theorem vectorSet_repeated_array_witness :
    (∃ sub : Column,
      (DrillField.mk "xs" .DRILL_INT true []).vectorSet demoHost ⟨.VECSXP, .plain, [.nil]⟩ 0
          (.arr [.obj [("v", .str "7")], .obj [("v", .null)]]) true
        = .ok { (⟨.VECSXP, .plain, [.nil]⟩ : Column) with
            cells := ([Cell.nil]).set 0 sub.toCell }
      ∧ sub.sxp = (DrillField.mk "xs" .DRILL_INT true []).columnType false
      ∧ sub.cells.length = 2
      ∧ (∀ (j : Nat) (v : JSON), [JSON.str "7", JSON.null][j]? = some v →
          ∃ c, sub.cells[j]? = some c
            ∧ (DrillField.mk "xs" .DRILL_INT true []).decode demoHost v false = .ok c)
      ∧ (([.obj [("v", .str "7")], .obj [("v", .null)]] : List JSON) = [] → sub.cells = []))
    ∧ (DrillField.mk "xs" .DRILL_INT true []).vectorSet demoHost ⟨.VECSXP, .plain, [.nil]⟩ 0
          (.arr []) true
        = .ok ⟨.VECSXP, .plain, [.vec .INTSXP .plain []]⟩ :=
  ⟨vectorSet_repeated_array demoHost (DrillField.mk "xs" .DRILL_INT true [])
      ⟨.VECSXP, .plain, [.nil]⟩ 0 [.obj [("v", .str "7")], .obj [("v", .null)]]
      [.str "7", .null] rfl (by decide)
      (List.Forall₂.cons rfl (List.Forall₂.cons rfl List.Forall₂.nil)),
    rfl⟩

/-- C6, as the code has it: on optional white space, an optional sign, at
least one digit and any rest that does not start with a digit, `parse_int`
returns the signed value of the digit run when it lies in the 32-bit signed
range and `NA_INTEGER` otherwise. Text after the digits is ignored, not
rejected, and no input raises an error (the function is total). -/
theorem parse_int_numeric_prefix (ws : List Char) (sign : Option Bool) (ds rest : List Char)
    (hws : ∀ c ∈ ws, isspace c = true) (hne : ds ≠ []) (hds : ∀ c ∈ ds, isdigit c = true)
    (hrest : ∀ c, rest.head? = some c → isdigit c = false) :
    parse_int (ws ++ (signChars sign ++ (ds ++ rest)))
      = if INT_MIN ≤ literalValue sign ds ∧ literalValue sign ds ≤ INT_MAX
        then literalValue sign ds else NA_INTEGER := by
  unfold parse_int strtol
  rw [strtoRange_literal _ _ ws sign ds rest hws hne hds hrest]
  generalize literalValue sign ds = v
  simp only [LONG_MIN, LONG_MAX, INT_MIN, INT_MAX, NA_INTEGER]
  norm_num
  split_ifs <;> simp_all <;> omega

/-- C6, witness: `" 12abc"` decodes to 12 and `"-4000000000"` to
`NA_INTEGER`. -/
theorem parse_int_numeric_prefix_witness :
    parse_int " 12abc".data = 12 ∧ parse_int "-4000000000".data = NA_INTEGER := by
  constructor
  · have h := parse_int_numeric_prefix [' '] none ['1', '2'] ['a', 'b', 'c']
      (by decide) (by decide) (by decide) (by decide)
    rw [show (" 12abc".data) = [' '] ++ (signChars none ++ (['1', '2'] ++ ['a', 'b', 'c'])) from rfl, h]
    decide
  · have h := parse_int_numeric_prefix [] (some true)
      ['4', '0', '0', '0', '0', '0', '0', '0', '0', '0'] [] (by decide) (by decide) (by decide)
      (by decide)
    rw [show ("-4000000000".data)
      = [] ++ (signChars (some true) ++ (['4', '0', '0', '0', '0', '0', '0', '0', '0', '0'] ++ []))
      from rfl, h]
    decide

/-- C6, counterexample: strings with non-numeric content do not decode to
`NA_INTEGER`: `"12abc"` gives 12, `"abc"` and `""` give 0. -/
theorem parse_int_non_numeric_counterexample :
    parse_int "12abc".data = 12 ∧ parse_int "abc".data = 0 ∧ parse_int "".data = 0
      ∧ parse_int "12abc".data ≠ NA_INTEGER ∧ parse_int "abc".data ≠ NA_INTEGER
      ∧ parse_int "".data ≠ NA_INTEGER := by
  decide

/-- C7: a base-10 integer string (optional sign, digits) whose value is
outside the 32-bit signed range and inside the 64-bit signed range decodes to
`NA_INTEGER` with `parse_int` and to exactly its value with `parse_int64`. -/
theorem int32_null_int64_value (na64 : Int) (sign : Option Bool) (ds : List Char)
    (hne : ds ≠ []) (hds : ∀ c ∈ ds, isdigit c = true)
    (hout : literalValue sign ds < INT_MIN ∨ INT_MAX < literalValue sign ds)
    (hin : LLONG_MIN ≤ literalValue sign ds ∧ literalValue sign ds ≤ LLONG_MAX) :
    parse_int (signChars sign ++ ds) = NA_INTEGER
      ∧ parse_int64 na64 (signChars sign ++ ds) = literalValue sign ds := by
  have e : signChars sign ++ ds = [] ++ (signChars sign ++ (ds ++ [])) := by simp
  have hr : ∀ c, ([] : List Char).head? = some c → isdigit c = false := by simp
  have hw : ∀ c ∈ ([] : List Char), isspace c = true := by simp
  have h32 := strtoRange_literal LONG_MIN LONG_MAX [] sign ds [] hw hne hds hr
  have h64 := strtoRange_literal LLONG_MIN LLONG_MAX [] sign ds [] hw hne hds hr
  rw [← e] at h32 h64
  revert hout hin h32 h64
  generalize literalValue sign ds = v
  simp only [parse_int, parse_int64, strtol, strtoll, LONG_MIN, LONG_MAX, LLONG_MIN, LLONG_MAX,
    INT_MIN, INT_MAX, NA_INTEGER]
  intro hout hin h32 _
  simp only [h32]
  norm_num at hout hin ⊢
  constructor
  · split_ifs <;> simp_all
    omega
  · split_ifs <;> simp_all <;> omega

/-- C7, witness: `"99999999999"`. -/
theorem int32_null_int64_value_witness :
    parse_int "99999999999".data = NA_INTEGER
      ∧ parse_int64 demoHost.NA_INTEGER64 "99999999999".data = 99999999999 := by
  have h := int32_null_int64_value demoHost.NA_INTEGER64 none
    ['9', '9', '9', '9', '9', '9', '9', '9', '9', '9', '9'] (by decide) (by decide) (by decide)
    (by decide)
  exact ⟨h.1, h.2.trans (by decide)⟩

/-- C8, as the code has it: on optional white space, an optional sign, at
least one digit and any rest that does not start with a digit, `parse_int64`
returns the signed value of the digit run when it lies in the 64-bit signed
range (whatever follows the digits) and `NA_INTEGER64` otherwise. -/
theorem parse_int64_numeric_prefix (na64 : Int) (ws : List Char) (sign : Option Bool)
    (ds rest : List Char) (hws : ∀ c ∈ ws, isspace c = true) (hne : ds ≠ [])
    (hds : ∀ c ∈ ds, isdigit c = true) (hrest : ∀ c, rest.head? = some c → isdigit c = false) :
    parse_int64 na64 (ws ++ (signChars sign ++ (ds ++ rest)))
      = if LLONG_MIN ≤ literalValue sign ds ∧ literalValue sign ds ≤ LLONG_MAX
        then literalValue sign ds else na64 := by
  unfold parse_int64 strtoll
  rw [strtoRange_literal _ _ ws sign ds rest hws hne hds hrest]
  generalize literalValue sign ds = v
  simp only [LLONG_MIN, LLONG_MAX]
  norm_num
  split_ifs <;> simp_all <;> omega

/-- C8, witness: `"12abc"` decodes to 12 and `"9223372036854775808"` to the
sentinel. -/
theorem parse_int64_numeric_prefix_witness :
    parse_int64 demoHost.NA_INTEGER64 "12abc".data = 12
      ∧ parse_int64 demoHost.NA_INTEGER64 "9223372036854775808".data
        = demoHost.NA_INTEGER64 := by
  constructor
  · have h := parse_int64_numeric_prefix demoHost.NA_INTEGER64 [] none ['1', '2']
      ['a', 'b', 'c'] (by decide) (by decide) (by decide) (by decide)
    rw [show ("12abc".data) = [] ++ (signChars none ++ (['1', '2'] ++ ['a', 'b', 'c'])) from rfl, h]
    decide
  · have h := parse_int64_numeric_prefix demoHost.NA_INTEGER64 [] none
      ['9', '2', '2', '3', '3', '7', '2', '0', '3', '6', '8', '5', '4', '7', '7', '5', '8', '0', '8']
      [] (by decide) (by decide) (by decide) (by decide)
    rw [show ("9223372036854775808".data) = [] ++ (signChars none ++
      (['9', '2', '2', '3', '3', '7', '2', '0', '3', '6', '8', '5', '4', '7', '7', '5', '8', '0', '8']
        ++ [])) from rfl, h]
    decide

/-- C8, counterexample: no value of the sentinel makes both halves of the
claim true. `"12abc"` is not a base-10 integer and `"12"` is one, yet both
decode to 12, so either the first is not the sentinel or the second is. With
the sentinel of bit64, the valid string `"-9223372036854775808"` decodes to
the sentinel. -/
theorem parse_int64_sentinel_counterexample :
    (¬ ∃ na64 : Int, parse_int64 na64 "12abc".data = na64 ∧ parse_int64 na64 "12".data ≠ na64)
      ∧ parse_int64 demoHost.NA_INTEGER64 "-9223372036854775808".data
        = demoHost.NA_INTEGER64 := by
  constructor
  · rintro ⟨na64, h1, h2⟩
    have e1 : parse_int64 na64 "12abc".data = 12 := by
      simp only [parse_int64]
      rw [show strtoll "12abc".data = (12, false) from by decide]
      rfl
    have e2 : parse_int64 na64 "12".data = 12 := by
      simp only [parse_int64]
      rw [show strtoll "12".data = (12, false) from by decide]
      rfl
    rw [e2] at h2
    rw [e1] at h1
    exact h2 h1
  · decide

/-! ## Schema parsing -/

theorem parse_drill_type_unknown (t : String) (h : t ∉ recognisedTypes) :
    parse_drill_type t = .error (.stop ("Unknown type " ++ t)) := by
  simp only [recognisedTypes, List.mem_cons, List.mem_singleton, List.not_mem_nil, or_false,
    not_or] at h
  obtain ⟨h1, h2, h3, h4, h5, h6, h7, h8, h9, h10⟩ := h
  simp [parse_drill_type, h1, h2, h3, h4, h5, h6, h7, h8, h9, h10]

theorem parse_drill_type_recognised (x : String) (hx : x ∈ recognisedTypes) :
    ∃ t, parse_drill_type x = .ok t ∧ (x, t) ∈ typeTable := by
  simp only [recognisedTypes, List.mem_cons, List.mem_singleton, List.not_mem_nil,
    or_false] at hx
  rcases hx with h | h | h | h | h | h | h | h | h | h <;> subst h <;>
    exact ⟨_, rfl, by simp [typeTable]⟩

theorem ofMembers_eq (ms : List (String × JSON)) :
    DrillField.ofMembers ms
      = match findMember "fields" ms with
        | none => .ok []
        | some v => DrillField.ofFieldsValue v := by
  induction ms with
  | nil => simp [DrillField.ofMembers, findMember]
  | cons kv rest ih =>
      obtain ⟨k, v⟩ := kv
      by_cases hk : k = "fields"
      · simp [DrillField.ofMembers, findMember, hk]
      · simp [DrillField.ofMembers, findMember, hk, ih]

theorem ofList_error (subs : List JSON) (sub : JSON) (hmem : sub ∈ subs)
    (herr : ∃ e, DrillField.ofJSON sub = .error e) :
    ∃ e, DrillField.ofList subs = .error e := by
  induction subs with
  | nil => simp at hmem
  | cons x xs ih =>
      rw [DrillField.ofList]
      rcases List.mem_cons.mp hmem with h | h
      · subst h
        obtain ⟨e, he⟩ := herr
        exact ⟨e, by simp [he, bind, Except.bind]⟩
      · obtain ⟨e, he⟩ := ih h
        cases hx : DrillField.ofJSON x with
        | error e1 => exact ⟨e1, by simp [bind, Except.bind]⟩
        | ok f => exact ⟨e, by simp [he, bind, Except.bind]⟩

theorem textOf_eq (t : String) : textOf t = std_string t := rfl

theorem ofJSON_error (spec : JSON) (h : SpecBad unrecognisedText spec) :
    ∃ e, DrillField.ofJSON spec = .error e := by
  induction h with
  | here ms t ht hbad =>
      rw [DrillField.ofJSON]
      cases h1 : DrillField.specString "name" ms with
      | error e => exact ⟨e, by simp [bind, Except.bind]⟩
      | ok nm =>
          cases h2 : DrillField.specArray ms with
          | error e => exact ⟨e, by simp [bind, Except.bind]⟩
          | ok a =>
              have h3 : DrillField.specString "type" ms = .ok (std_string t) := by
                simp [DrillField.specString, JSON.member, ht, JSON.GetString, bind, Except.bind]
              have hbad1 : std_string t ∉ recognisedTypes := hbad
              exact ⟨.stop ("Unknown type " ++ std_string t),
                by simp [bind, Except.bind, h3, parse_drill_type_unknown _ hbad1]⟩
  | nested ms subs sub hf hmem _ ih =>
      rw [DrillField.ofJSON]
      obtain ⟨e, he⟩ := ofList_error subs sub hmem ih
      have h4 : DrillField.ofMembers ms = .error e := by
        rw [ofMembers_eq, hf]
        simpa [DrillField.ofFieldsValue] using he
      cases h1 : DrillField.specString "name" ms with
      | error e => exact ⟨e, by simp [bind, Except.bind]⟩
      | ok nm =>
          cases h2 : DrillField.specArray ms with
          | error e => exact ⟨e, by simp [bind, Except.bind]⟩
          | ok a =>
              cases h3 : DrillField.specString "type" ms >>= parse_drill_type with
              | error e => exact ⟨e, by simp only [bind, Except.bind] at h3 ⊢⟩
              | ok ty => exact ⟨e, by simp only [bind, Except.bind] at h3 ⊢; simp [h3, h4]⟩

theorem ofList_error_of (P : Err → Prop) (subs : List JSON)
    (h : ∀ sub ∈ subs, ∀ e, DrillField.ofJSON sub = .error e → P e) :
    ∀ e, DrillField.ofList subs = .error e → P e := by
  induction subs with
  | nil => intro e he; simp [DrillField.ofList] at he
  | cons x xs ih =>
      intro e he
      rw [DrillField.ofList] at he
      simp only [bind, Except.bind] at he
      cases hx : DrillField.ofJSON x with
      | error e1 =>
          simp only [hx, Except.error.injEq] at he
          subst he
          exact h x (List.mem_cons_self _ _) e1 hx
      | ok f =>
          simp only [hx] at he
          cases hxs : DrillField.ofList xs with
          | error e2 =>
              simp only [hxs, Except.error.injEq] at he
              subst he
              exact ih (fun sub hs => h sub (List.mem_cons_of_mem _ hs)) e2 hxs
          | ok fs => simp [hxs, pure, Except.pure] at he

theorem ofJSON_shaped_error (spec : JSON) (h : SpecShaped spec) :
    ∀ e, DrillField.ofJSON spec = .error e →
      ∃ t, unrecognisedText t ∧ e = .stop ("Unknown type " ++ textOf t) := by
  induction h with
  | mk ms nm ty hn ht hm hfa hf ih =>
      intro e he
      rw [DrillField.ofJSON] at he
      have h1 : DrillField.specString "name" ms = .ok (std_string nm) := by
        simp [DrillField.specString, JSON.member, hn, JSON.GetString, bind, Except.bind]
      have h3 : DrillField.specString "type" ms = .ok (std_string ty) := by
        simp [DrillField.specString, JSON.member, ht, JSON.GetString, bind, Except.bind]
      have h2 : ∃ a, DrillField.specArray ms = .ok a := by
        unfold DrillField.specArray
        cases hmm : findMember "mode" ms with
        | none => exact ⟨false, rfl⟩
        | some m =>
            obtain ⟨s, rfl⟩ := hm m hmm
            exact ⟨_, rfl⟩
      obtain ⟨a, h2⟩ := h2
      simp only [h1, h2, h3, bind, Except.bind] at he
      by_cases hty : std_string ty ∈ recognisedTypes
      · obtain ⟨t, hpt, _⟩ := parse_drill_type_recognised _ hty
        simp only [hpt] at he
        rw [ofMembers_eq] at he
        cases hff : findMember "fields" ms with
        | none => simp [hff, pure, Except.pure] at he
        | some v =>
            have hv := hfa v hff
            cases v with
            | arr subs =>
                simp only [hff, DrillField.ofFieldsValue] at he
                cases hl : DrillField.ofList subs with
                | ok fs => simp [hl, pure, Except.pure] at he
                | error e1 =>
                    simp only [hl, Except.error.injEq] at he
                    subst he
                    exact ofList_error_of _ subs (fun sub hs => ih subs sub hff hs) e1 hl
            | null => simp [JSON.IsArray] at hv
            | bool b => simp [JSON.IsArray] at hv
            | num q => simp [JSON.IsArray] at hv
            | str s => simp [JSON.IsArray] at hv
            | obj ms1 => simp [JSON.IsArray] at hv
      · rw [parse_drill_type_unknown _ hty] at he
        simp only [Except.error.injEq] at he
        exact ⟨ty, hty, he.symm⟩

/-- C2, as the code has it: the type string of a field spec is read as a C
string, so what counts is its text, the characters before its first NUL.
When some field spec of the schema document, at the top level or at any depth
of nested `fields`, carries a type string whose text is outside the ten
recognised ones, `drill_fields_parse` fails, and `drill_parse` fails with
that same error for every data document: the failure is the one of its first
step, before `drill_fields_init` allocates the table and before
`drill_fields_set` decodes a row. When the field specs are all of the shape
of the protocol, the error is the `Unknown type` that `parse_drill_type`
raises for the text of an unrecognised type string. A type string that holds
no NUL is its own text. -/
theorem drill_parse_unknown_type (doc : JSON) (h : SchemaBad unrecognisedText doc) :
    (∃ e, drill_fields_parse doc = .error e
      ∧ ∀ (H : Host) (data : JSON), drill_parse H doc data = .error e)
    ∧ (∀ specs, ((doc.member "schema") >>= fun s => s.member "fields") = .ok (.arr specs) →
        (∀ spec ∈ specs, SpecShaped spec) →
        ∃ t, unrecognisedText t
          ∧ drill_fields_parse doc = .error (.stop ("Unknown type " ++ textOf t)))
    ∧ ∀ t : String, '\x00' ∉ t.data → (unrecognisedText t ↔ unrecognised t) := by
  obtain ⟨specs, spec, hdoc, hmem, hbad⟩ := h
  obtain ⟨e, he⟩ := ofList_error specs spec hmem (ofJSON_error spec hbad)
  have hp : drill_fields_parse doc = .error e := by
    unfold drill_fields_parse
    cases h1 : doc.member "schema" with
    | error e1 => simp [h1, bind, Except.bind] at hdoc
    | ok s =>
        simp only [h1, bind, Except.bind] at hdoc
        simp only [bind, Except.bind, hdoc]
        exact he
  refine ⟨⟨e, hp, fun H data => by simp [drill_parse, hp, bind, Except.bind]⟩, ?_, ?_⟩
  · intro specs1 hdoc1 hshaped
    rw [hdoc] at hdoc1
    simp only [Except.ok.injEq, JSON.arr.injEq] at hdoc1
    subst hdoc1
    obtain ⟨t, ht, het⟩ := ofList_error_of
      (fun e => ∃ t, unrecognisedText t ∧ e = .stop ("Unknown type " ++ textOf t)) specs
      (fun sub hs => ofJSON_shaped_error sub (hshaped sub hs)) e he
    exact ⟨t, ht, by rw [hp, het]⟩
  · intro t ht
    simp only [unrecognisedText, unrecognised, textOf_eq, std_string_no_nul t ht]

/-- C2, witness: the type `DOUBLE` two levels down in a nested `fields`; the
error is the `Unknown type DOUBLE` of `parse_drill_type`. -/
theorem drill_parse_unknown_type_witness :
    (∃ e, drill_fields_parse (.obj [("schema", .obj [("fields", .arr [
          .obj [("name", .str "a"), ("type", .str "INT"), ("fields", .arr [
            .obj [("name", .str "b"), ("type", .str "DOUBLE")]])]])])]) = .error e
      ∧ ∀ (H : Host) (data : JSON), drill_parse H (.obj [("schema", .obj [("fields", .arr [
          .obj [("name", .str "a"), ("type", .str "INT"), ("fields", .arr [
            .obj [("name", .str "b"), ("type", .str "DOUBLE")]])]])])]) data = .error e)
    ∧ drill_fields_parse (.obj [("schema", .obj [("fields", .arr [
          .obj [("name", .str "a"), ("type", .str "INT"), ("fields", .arr [
            .obj [("name", .str "b"), ("type", .str "DOUBLE")]])]])])])
        = .error (.stop "Unknown type DOUBLE") :=
  ⟨(drill_parse_unknown_type (.obj [("schema", .obj [("fields", .arr [
      .obj [("name", .str "a"), ("type", .str "INT"), ("fields", .arr [
        .obj [("name", .str "b"), ("type", .str "DOUBLE")]])]])])])
    ⟨_, _, rfl, List.mem_singleton.mpr rfl,
      SpecBad.nested _ _ _ rfl (List.mem_singleton.mpr rfl)
        (SpecBad.here _ "DOUBLE" rfl (show textOf "DOUBLE" ∉ recognisedTypes by decide))⟩).1,
    rfl⟩

/-- C2, counterexample: the type string `INT`, NUL, `junk` is not one of the
ten recognised type strings, yet the schema parses, with a field of type
`DRILL_INT`, and `drill_parse` returns a table. -/
theorem drill_parse_nul_type_counterexample :
    SchemaBad unrecognised (.obj [("schema", .obj [("fields", .arr [
        .obj [("name", .str "a"), ("type", .str "INT\x00junk")]])])])
    ∧ drill_fields_parse (.obj [("schema", .obj [("fields", .arr [
        .obj [("name", .str "a"), ("type", .str "INT\x00junk")]])])])
      = .ok [.mk "a" .DRILL_INT false []]
    ∧ drill_parse demoHost (.obj [("schema", .obj [("fields", .arr [
        .obj [("name", .str "a"), ("type", .str "INT\x00junk")]])])])
        (.obj [("rows", .arr [.obj [("f", .arr [.obj [("v", .str "7")]])]])])
      = .ok ⟨[⟨.INTSXP, .plain, [.int 7]⟩], ["a"], 1⟩ :=
  ⟨⟨_, _, rfl, List.mem_singleton.mpr rfl, SpecBad.here _ "INT\x00junk" rfl
      (show "INT\x00junk" ∉ recognisedTypes by decide)⟩,
    rfl, rfl⟩

/-! ## Timestamps -/

theorem digitChar_props (d : Nat) (h : d < 10) :
    isdigit (digitChar d) = true ∧ digitVal (digitChar d) = d ∧ isspace (digitChar d) = false := by
  interval_cases d <;> decide

theorem get_number_two (lo hi n : Nat) (rest : List Char) (hlo : lo ≤ n) (hhi : n ≤ hi)
    (h99 : n ≤ 99) : get_number lo hi 2 (two n ++ rest) = some (n, rest) := by
  obtain ⟨a1, a2, a3⟩ := digitChar_props (n / 10) (by omega)
  obtain ⟨b1, b2, _⟩ := digitChar_props (n % 10) (Nat.mod_lt _ (by norm_num))
  have hc : n / 10 * 10 ≤ hi := by omega
  have hv : n / 10 * 10 + n % 10 = n := by omega
  simp [get_number, two, List.dropWhile, a3, a1, a2, get_digits, b1, b2, hc, hv]
  omega

theorem get_number_four (n : Nat) (rest : List Char) (h : n ≤ 9999) :
    get_number 0 9999 4 (four n ++ rest) = some (n, rest) := by
  obtain ⟨a1, a2, a3⟩ := digitChar_props (n / 1000) (by omega)
  obtain ⟨b1, b2, _⟩ := digitChar_props (n / 100 % 10) (Nat.mod_lt _ (by norm_num))
  obtain ⟨c1, c2, _⟩ := digitChar_props (n / 10 % 10) (Nat.mod_lt _ (by norm_num))
  obtain ⟨d1, d2, _⟩ := digitChar_props (n % 10) (Nat.mod_lt _ (by norm_num))
  have h1 : n / 1000 * 10 ≤ 9999 := by omega
  have h2 : (n / 1000 * 10 + n / 100 % 10) * 10 ≤ 9999 := by omega
  have h3 : ((n / 1000 * 10 + n / 100 % 10) * 10 + n / 10 % 10) * 10 ≤ 9999 := by omega
  have hv : ((n / 1000 * 10 + n / 100 % 10) * 10 + n / 10 % 10) * 10 + n % 10 = n := by omega
  simp [get_number, four, List.dropWhile, a3, a1, a2, get_digits, b1, b2, c1, c2, d1, d2, h1, h2,
    h3, hv]
  omega

theorem strptime_isoPrefix (Y M D h m s : Nat) (rest : List Char) (tm : Tm) (hY : Y ≤ 9999)
    (hM1 : 1 ≤ M) (hM : M ≤ 12) (hD1 : 1 ≤ D) (hD : D ≤ 31) (hh : h ≤ 23) (hm : m ≤ 59)
    (hs : s ≤ 61) :
    strptime "%Y-%m-%dT%H:%M:%S".data (isoPrefix Y M D h m s ++ rest) tm
      = some (rest, ⟨s, m, h, D, (M : Int) - 1, (Y : Int) - 1900⟩) := by
  have e : "%Y-%m-%dT%H:%M:%S".data
      = ['%', 'Y', '-', '%', 'm', '-', '%', 'd', 'T', '%', 'H', ':', '%', 'M', ':', '%', 'S'] := rfl
  have a1 := fun r => get_number_four Y r hY
  have a2 := fun r => get_number_two 1 12 M r hM1 hM (by omega)
  have a3 := fun r => get_number_two 1 31 D r hD1 hD (by omega)
  have a4 := fun r => get_number_two 0 23 h r (Nat.zero_le _) hh (by omega)
  have a5 := fun r => get_number_two 0 59 m r (Nat.zero_le _) hm (by omega)
  have a6 := fun r => get_number_two 0 61 s r (Nat.zero_le _) hs (by omega)
  rw [e]
  simp only [isoPrefix, List.append_assoc, List.cons_append]
  simp [strptime, strptime_conv, a1, a2, a3, a4, a5, a6, isspace]

theorem daysBeforeYear_eq (y : Nat) :
    daysBeforeYear y = 365 * (y : Int) + (leapsBefore y + 1) := by
  induction y with
  | zero => simp [daysBeforeYear, leapsBefore]
  | succ y ih =>
      simp only [daysBeforeYear, ih, leapsBefore, isLeap]
      push_cast
      by_cases h4 : y % 4 = 0 <;> by_cases h100 : y % 100 = 0 <;> by_cases h400 : y % 400 = 0 <;>
        simp [h4, h100, h400] <;> omega

theorem leapyear_eq (y : Nat) : leapyear (y : Int) = isLeap y := by
  simp only [leapyear, isLeap]
  by_cases h4 : y % 4 = 0 <;> by_cases h100 : y % 100 = 0 <;> by_cases h400 : y % 400 = 0 <;>
    simp [h4, h100, h400] <;> omega

theorem mon_yday_eq (y M : Nat) (hM1 : 1 ≤ M) (hM : M ≤ 12) :
    mon_yday (leapyear (y : Int)) (((M : Int) - 1) % 12) = daysBeforeMonth y M := by
  rw [leapyear_eq]
  interval_cases M <;> cases hl : isLeap y <;>
    simp [mon_yday, daysBeforeMonth, monthLength, hl]

/-- The `timegm` of the fields of a civil date and time of day is the day
count of the date times 86400 plus the seconds of the time of day. -/
theorem timegm_civil (Y M D h m s : Nat) (hM1 : 1 ≤ M) (hM : M ≤ 12) :
    timegm ⟨s, m, h, D, (M : Int) - 1, (Y : Int) - 1900⟩
      = daysSinceEpoch Y M D * 86400 + 3600 * h + 60 * m + s := by
  have hq : ((M : Int) - 1) / 12 = 0 := by omega
  have hyd := mon_yday_eq Y M hM1 hM
  simp only [timegm, hq, daysSinceEpoch, daysBeforeYear_eq]
  have hy : (Y : Int) - 1900 + 1900 + 0 = Y := by ring
  rw [hy, hyd]
  push_cast
  ring

/-! ### The time stamps that `strptime` accepts -/

theorem foldl_digits_ge (ds : List Char) (acc : Nat) :
    acc ≤ ds.foldl (fun a c => a * 10 + digitVal c) acc := by
  induction ds generalizing acc with
  | nil => simp
  | cons d ds ih =>
      simp only [List.foldl_cons]
      exact le_trans (by omega) (ih _)

theorem get_digits_run (hi : Nat) (ds : List Char) :
    ∀ (n val : Nat) (r : List Char), (∀ c ∈ ds, isdigit c = true) → ds.length ≤ n →
      ds.foldl (fun a c => a * 10 + digitVal c) val ≤ hi →
      (ds.length = n ∨ hi < ds.foldl (fun a c => a * 10 + digitVal c) val * 10
        ∨ ∀ c, r.head? = some c → isdigit c = false) →
      get_digits hi n val (ds ++ r) = (ds.foldl (fun a c => a * 10 + digitVal c) val, r) := by
  induction ds with
  | nil =>
      intro n val r _ _ hle hstop
      simp only [List.nil_append, List.foldl_nil, List.length_nil] at hstop ⊢
      cases n with
      | zero => simp [get_digits]
      | succ n =>
          cases r with
          | nil => simp [get_digits]
          | cons c r =>
              rcases hstop with h | h | h
              · omega
              · simp only [get_digits]
                rw [if_neg (by omega)]
              · simp only [get_digits]
                rw [if_neg (by simp [h c rfl])]
  | cons d ds ih =>
      intro n val r hds hlen hle hstop
      have hd : isdigit d = true := hds d (List.mem_cons_self _ _)
      cases n with
      | zero => simp at hlen
      | succ n =>
          simp only [List.foldl_cons] at hle hstop ⊢
          have hge := foldl_digits_ge ds (val * 10 + digitVal d)
          have hv : val * 10 ≤ hi := by omega
          simp only [List.cons_append, get_digits]
          rw [if_pos ⟨hv, hd⟩]
          apply ih n _ r (fun c hc => hds c (List.mem_cons_of_mem _ hc))
            (by simpa using hlen) hle
          rcases hstop with h | h | h
          · exact Or.inl (by simpa using h)
          · exact Or.inr (Or.inl h)
          · exact Or.inr (Or.inr h)

theorem get_digits_spec (hi : Nat) :
    ∀ (n val : Nat) (rp : List Char), ∃ ds,
      rp = ds ++ (get_digits hi n val rp).2 ∧ (∀ c ∈ ds, isdigit c = true) ∧ ds.length ≤ n
      ∧ (get_digits hi n val rp).1 = ds.foldl (fun a c => a * 10 + digitVal c) val
      ∧ (ds.length = n ∨ hi < (get_digits hi n val rp).1 * 10
        ∨ ∀ c, (get_digits hi n val rp).2.head? = some c → isdigit c = false) := by
  intro n
  induction n with
  | zero =>
      intro val rp
      exact ⟨[], by simp [get_digits]⟩
  | succ n ih =>
      intro val rp
      cases rp with
      | nil => exact ⟨[], by simp [get_digits]⟩
      | cons c rp =>
          by_cases hc : val * 10 ≤ hi ∧ isdigit c = true
          · obtain ⟨ds, h1, h2, h3, h4, h5⟩ := ih (val * 10 + digitVal c) rp
            simp only [get_digits, if_pos hc]
            refine ⟨c :: ds, ?_, ?_, ?_, ?_, ?_⟩
            · rw [List.cons_append, ← h1]
            · intro a ha
              rcases List.mem_cons.mp ha with h | h
              · rw [h]; exact hc.2
              · exact h2 a h
            · simpa using h3
            · simpa using h4
            · rcases h5 with h | h | h
              · exact Or.inl (by simp [h])
              · exact Or.inr (Or.inl h)
              · exact Or.inr (Or.inr h)
          · simp only [get_digits, if_neg hc]
            refine ⟨[], by simp, by simp, by simp, by simp, ?_⟩
            rw [not_and_or] at hc
            rcases hc with h | h
            · exact Or.inr (Or.inl (by omega))
            · exact Or.inr (Or.inr (by simpa using h))

theorem numeral_eq (ds : List Char) (d : Char) :
    numeral (d :: ds) = ds.foldl (fun a c => a * 10 + digitVal c) (digitVal d) := by
  rw [numeral, ← digitsVal_eq, digitsVal]
  simp

theorem numText_ok_iff (lo hi n : Nat) (t : NumText) :
    t.ok lo hi n = true ↔ (∀ c ∈ t.ws, isspace c = true) ∧ (∀ c ∈ t.ds, isdigit c = true)
      ∧ 1 ≤ t.ds.length ∧ t.ds.length ≤ n ∧ lo ≤ t.val ∧ t.val ≤ hi := by
  simp only [NumText.ok, Bool.and_eq_true, List.all_eq_true, decide_eq_true_eq, and_assoc]

theorem numText_run (lo hi n : Nat) (t : NumText) (r : List Char) (hok : t.ok lo hi n = true)
    (hstop : t.ds.length = n ∨ hi < t.val * 10 ∨ ∀ c, r.head? = some c → isdigit c = false) :
    get_number lo hi n (t.chars ++ r) = some (t.val, r) := by
  obtain ⟨ws, ds⟩ := t
  obtain ⟨hws, hds, h1, hn, hlo, hhi⟩ := (numText_ok_iff lo hi n _).mp hok
  simp only [NumText.val] at hlo hhi hstop ⊢
  simp only at hws hds h1 hn hstop
  cases ds with
  | nil => simp at h1
  | cons d ds =>
      have hd : isdigit d = true := hds d (List.mem_cons_self _ _)
      rw [numeral_eq] at hlo hhi hstop ⊢
      have hdrop : (ws ++ (d :: (ds ++ r))).dropWhile isspace = d :: (ds ++ r) :=
        dropWhile_isspace_append ws _ hws (fun c hc => by
          simp only [List.head?_cons, Option.some.injEq] at hc
          subst hc
          exact isdigit_not_isspace hd)
      have hrun := get_digits_run hi ds (n - 1) (digitVal d) r
        (fun c hc => hds c (List.mem_cons_of_mem _ hc))
        (by simp only [List.length_cons] at hn; omega) hhi
        (by
          rcases hstop with h | h | h
          · exact Or.inl (by simp only [List.length_cons] at h; omega)
          · exact Or.inr (Or.inl h)
          · exact Or.inr (Or.inr h))
      simp only [get_number, NumText.chars, List.append_assoc, List.cons_append, hdrop, hd,
        if_true, hrun]
      rw [if_neg (by omega)]

theorem numText_spec (lo hi n : Nat) (rp : List Char) (v : Nat) (r : List Char) (hn : 1 ≤ n)
    (h : get_number lo hi n rp = some (v, r)) :
    ∃ t : NumText, t.ok lo hi n = true ∧ rp = t.chars ++ r ∧ t.val = v
      ∧ (t.ds.length = n ∨ hi < t.val * 10 ∨ ∀ c, r.head? = some c → isdigit c = false) := by
  have hsplit := List.takeWhile_append_dropWhile isspace rp
  have hws : ∀ c ∈ rp.takeWhile isspace, isspace c = true := fun c hc =>
    List.mem_takeWhile_imp hc
  unfold get_number at h
  cases hd : rp.dropWhile isspace with
  | nil => simp [hd] at h
  | cons c rest =>
      simp only [hd] at h
      by_cases hc : isdigit c = true
      · simp only [hc, if_true] at h
        by_cases hr : (get_digits hi (n - 1) (digitVal c) rest).1 < lo
            ∨ hi < (get_digits hi (n - 1) (digitVal c) rest).1
        · simp [hr] at h
        · rw [if_neg hr] at h
          simp only [Option.some.injEq] at h
          obtain ⟨ds, e1, e2, e3, e4, e5⟩ := get_digits_spec hi (n - 1) (digitVal c) rest
          rw [h] at e1 e4 e5
          simp only at e1 e4 e5
          rw [h] at hr
          simp only [not_or, not_lt] at hr
          have hval : numeral (c :: ds) = v := by rw [numeral_eq, ← e4]
          refine ⟨⟨rp.takeWhile isspace, c :: ds⟩, ?_, ?_, hval, ?_⟩
          · rw [numText_ok_iff]
            refine ⟨hws, ?_, by simp, by simp only [List.length_cons]; omega, ?_, ?_⟩
            · intro a ha
              rcases List.mem_cons.mp ha with h1 | h1
              · rw [h1]; exact hc
              · exact e2 a h1
            · simp only [NumText.val, hval]; exact hr.1
            · simp only [NumText.val, hval]; exact hr.2
          · simp only [NumText.chars, List.append_assoc, List.cons_append]
            rw [← e1, ← hd, hsplit]
          · simp only [NumText.val, hval]
            rcases e5 with h1 | h1 | h1
            · exact Or.inl (by simp only [List.length_cons]; omega)
            · exact Or.inr (Or.inl h1)
            · exact Or.inr (Or.inr h1)
      · simp [hc] at h

theorem stampText_ok_iff (t : StampText) :
    t.ok = true ↔ t.year.ok 0 9999 4 = true ∧ t.month.ok 1 12 2 = true ∧ t.day.ok 1 31 2 = true
      ∧ t.hour.ok 0 23 2 = true ∧ t.minute.ok 0 59 2 = true ∧ t.second.ok 0 61 2 = true
      ∧ (t.second.ds.length = 2 ∨ 61 < t.second.val * 10
        ∨ ∀ c, t.rest.head? = some c → isdigit c = false) := by
  have hstop : ((decide (t.second.ds.length = 2) || decide (7 ≤ t.second.val)
      || !(match t.rest with
        | c :: _ => isdigit c
        | [] => false)) = true)
      ↔ (t.second.ds.length = 2 ∨ 61 < t.second.val * 10
        ∨ ∀ c, t.rest.head? = some c → isdigit c = false) := by
    cases t.rest with
    | nil => simp
    | cons c r =>
        simp only [Bool.or_eq_true, decide_eq_true_eq, Bool.not_eq_true', List.head?_cons,
          Option.some.injEq, forall_eq', or_assoc]
        constructor
        · rintro (h | h | h)
          · exact Or.inl h
          · exact Or.inr (Or.inl (by omega))
          · exact Or.inr (Or.inr h)
        · rintro (h | h | h)
          · exact Or.inl h
          · exact Or.inr (Or.inl (by omega))
          · exact Or.inr (Or.inr h)
  simp only [StampText.ok, Bool.and_eq_true, and_assoc, hstop]

theorem strptime_sep (c : Char) (fmt rp : List Char) (tm : Tm) (out : List Char × Tm)
    (hc1 : c ≠ '%') (hc2 : isspace c = false) (h : strptime (c :: fmt) rp tm = some out) :
    ∃ r, rp = c :: r ∧ strptime fmt r tm = some out := by
  cases rp with
  | nil => simp [strptime, hc1, hc2] at h
  | cons a r =>
      by_cases ha : a = c
      · subst ha
        simp [strptime, hc1, hc2] at h
        exact ⟨r, rfl, h⟩
      · simp [strptime, hc1, hc2, ha] at h

theorem strptime_pct (d : Char) (fmt rp : List Char) (tm : Tm) (out : List Char × Tm)
    (h : strptime ('%' :: d :: fmt) rp tm = some out) :
    ∃ r tm1, strptime_conv d rp tm = some (r, tm1) ∧ strptime fmt r tm1 = some out := by
  rw [strptime] at h
  cases hc : strptime_conv d rp tm with
  | none => simp [hc] at h
  | some p => exact ⟨p.1, p.2, rfl, by simpa [hc] using h⟩

theorem conv_number (d : Char) (lo hi n : Nat) (set : Tm → Nat → Tm) (rp r : List Char)
    (tm tm1 : Tm)
    (hd : strptime_conv d rp tm = (get_number lo hi n rp).map fun p => (p.2, set tm p.1))
    (h : strptime_conv d rp tm = some (r, tm1)) :
    ∃ v, get_number lo hi n rp = some (v, r) ∧ tm1 = set tm v := by
  rw [hd] at h
  cases hg : get_number lo hi n rp with
  | none => simp [hg] at h
  | some p =>
      simp only [hg, Option.map_some', Option.some.injEq, Prod.mk.injEq] at h
      exact ⟨p.1, by rw [← h.1], h.2.symm⟩

theorem strptime_stamp (t : StampText) (ht : t.ok = true) (tm : Tm) :
    strptime "%Y-%m-%dT%H:%M:%S".data t.chars tm
      = some (t.rest, ⟨t.second.val, t.minute.val, t.hour.val, t.day.val,
          (t.month.val : Int) - 1, (t.year.val : Int) - 1900⟩) := by
  have e : "%Y-%m-%dT%H:%M:%S".data
      = ['%', 'Y', '-', '%', 'm', '-', '%', 'd', 'T', '%', 'H', ':', '%', 'M', ':', '%', 'S'] := rfl
  obtain ⟨h1, h2, h3, h4, h5, h6, hstop⟩ := (stampText_ok_iff t).mp ht
  have a1 := fun r => numText_run 0 9999 4 t.year ('-' :: r) h1 (Or.inr (Or.inr (by simp; decide)))
  have a2 := fun r => numText_run 1 12 2 t.month ('-' :: r) h2 (Or.inr (Or.inr (by simp; decide)))
  have a3 := fun r => numText_run 1 31 2 t.day ('T' :: r) h3 (Or.inr (Or.inr (by simp; decide)))
  have a4 := fun r => numText_run 0 23 2 t.hour (':' :: r) h4 (Or.inr (Or.inr (by simp; decide)))
  have a5 := fun r => numText_run 0 59 2 t.minute (':' :: r) h5 (Or.inr (Or.inr (by simp; decide)))
  have a6 := numText_run 0 61 2 t.second t.rest h6 hstop
  rw [e]
  simp only [StampText.chars]
  simp [strptime, strptime_conv, a1, a2, a3, a4, a5, a6, isspace]

theorem strptime_stamp_spec (cs rest : List Char) (tm dtm : Tm)
    (h : strptime "%Y-%m-%dT%H:%M:%S".data cs tm = some (rest, dtm)) :
    ∃ t : StampText, t.ok = true ∧ cs = t.chars ∧ t.rest = rest := by
  have e : "%Y-%m-%dT%H:%M:%S".data
      = ['%', 'Y', '-', '%', 'm', '-', '%', 'd', 'T', '%', 'H', ':', '%', 'M', ':', '%', 'S'] := rfl
  rw [e] at h
  obtain ⟨r1, tm1, c1, h⟩ := strptime_pct _ _ _ _ _ h
  obtain ⟨v1, g1, _⟩ := conv_number 'Y' 0 9999 4
    (fun tm v => { tm with tm_year := (v : Int) - 1900 }) _ _ _ _ (by simp [strptime_conv]) c1
  obtain ⟨s1, rfl, h⟩ := strptime_sep _ _ _ _ _ (by decide) (by decide) h
  obtain ⟨r2, tm2, c2, h⟩ := strptime_pct _ _ _ _ _ h
  obtain ⟨v2, g2, _⟩ := conv_number 'm' 1 12 2
    (fun tm v => { tm with tm_mon := (v : Int) - 1 }) _ _ _ _ (by simp [strptime_conv]) c2
  obtain ⟨s2, rfl, h⟩ := strptime_sep _ _ _ _ _ (by decide) (by decide) h
  obtain ⟨r3, tm3, c3, h⟩ := strptime_pct _ _ _ _ _ h
  obtain ⟨v3, g3, _⟩ := conv_number 'd' 1 31 2
    (fun tm v => { tm with tm_mday := (v : Int) }) _ _ _ _ (by simp [strptime_conv]) c3
  obtain ⟨s3, rfl, h⟩ := strptime_sep _ _ _ _ _ (by decide) (by decide) h
  obtain ⟨r4, tm4, c4, h⟩ := strptime_pct _ _ _ _ _ h
  obtain ⟨v4, g4, _⟩ := conv_number 'H' 0 23 2
    (fun tm v => { tm with tm_hour := (v : Int) }) _ _ _ _ (by simp [strptime_conv]) c4
  obtain ⟨s4, rfl, h⟩ := strptime_sep _ _ _ _ _ (by decide) (by decide) h
  obtain ⟨r5, tm5, c5, h⟩ := strptime_pct _ _ _ _ _ h
  obtain ⟨v5, g5, _⟩ := conv_number 'M' 0 59 2
    (fun tm v => { tm with tm_min := (v : Int) }) _ _ _ _ (by simp [strptime_conv]) c5
  obtain ⟨s5, rfl, h⟩ := strptime_sep _ _ _ _ _ (by decide) (by decide) h
  obtain ⟨r6, tm6, c6, h⟩ := strptime_pct _ _ _ _ _ h
  obtain ⟨v6, g6, _⟩ := conv_number 'S' 0 61 2
    (fun tm v => { tm with tm_sec := (v : Int) }) _ _ _ _ (by simp [strptime_conv]) c6
  simp only [strptime, Option.some.injEq, Prod.mk.injEq] at h
  obtain ⟨t1, k1, e1, _, _⟩ := numText_spec 0 9999 4 _ _ _ (by norm_num) g1
  obtain ⟨t2, k2, e2, _, _⟩ := numText_spec 1 12 2 _ _ _ (by norm_num) g2
  obtain ⟨t3, k3, e3, _, _⟩ := numText_spec 1 31 2 _ _ _ (by norm_num) g3
  obtain ⟨t4, k4, e4, _, _⟩ := numText_spec 0 23 2 _ _ _ (by norm_num) g4
  obtain ⟨t5, k5, e5, _, _⟩ := numText_spec 0 59 2 _ _ _ (by norm_num) g5
  obtain ⟨t6, k6, e6, _, st6⟩ := numText_spec 0 61 2 _ _ _ (by norm_num) g6
  refine ⟨⟨t1, t2, t3, t4, t5, t6, r6⟩, ?_, ?_, h.1⟩
  · rw [stampText_ok_iff]
    exact ⟨k1, k2, k3, k4, k5, k6, st6⟩
  · simp only [StampText.chars]
    rw [e1, e2, e3, e4, e5, e6]

/-- A string that `strptime` rejects is not a time stamp in lenient form. -/
theorem stamp_none (cs : List Char) (tm : Tm)
    (h : strptime "%Y-%m-%dT%H:%M:%S".data cs tm = none) :
    ∀ t : StampText, t.ok = true → cs ≠ t.chars := by
  intro t ht he
  rw [he, strptime_stamp t ht tm] at h
  cases h

/-- C10, as the code has it: on a double column, the Timestamp decode reads
the C string of the value with `strptime`, which accepts the lenient form of
`YYYY-MM-DDTHH:MM:SS`: six numbers separated by `-`, `-`, `T`, `:`, `:`, each
after optional white space, the year of one to four digits and the others of
one or two, in the ranges 1..12, 1..31, 0..23, 0..59 and 0..61. For every
string of that form the slot holds the seconds since 1970-01-01T00:00:00 of
those fields read as UTC (the day count of the date times 86400 plus
`3600 * HH + 60 * MM + SS`, no time-zone term), converted to `double` and
added to `parse_partial_seconds` of the rest of the string; every string that
begins with a zero-padded `YYYY-MM-DDTHH:MM:SS` is of that form; the
contribution of the rest is `0.0` whenever the rest does not start with `.`,
the empty rest included; and every string that is not of the lenient form
stores `NA_REAL`. -/
theorem timestamp_decode (H : Host) (f : DrillField) (x : Column) (i : Nat)
    (hf : f.type_ = .DRILL_TIMESTAMP) (hx : x.sxp = .REALSXP) (hi : i < x.cells.length) :
    (∀ (str : String) (t : StampText), t.ok = true → c_str str = t.chars →
        f.vectorSet H x i (.str str) false
          = .ok { x with cells := x.cells.set i (.real (Dbl.add (Dbl.ofInt t.seconds)
              (parse_partial_seconds t.rest))) })
    ∧ (∀ (str : String) (Y M D h m s : Nat) (rest : List Char), Y ≤ 9999 → 1 ≤ M → M ≤ 12 →
        1 ≤ D → D ≤ 31 → h ≤ 23 → m ≤ 59 → s ≤ 61 →
        c_str str = isoPrefix Y M D h m s ++ rest →
        f.vectorSet H x i (.str str) false
          = .ok { x with cells := x.cells.set i (.real (Dbl.add
              (Dbl.ofInt (daysSinceEpoch Y M D * 86400 + 3600 * h + 60 * m + s))
              (parse_partial_seconds rest))) })
    ∧ (∀ rest : List Char, rest.head? ≠ some '.' → parse_partial_seconds rest = Dbl.zero)
    ∧ (∀ str : String, (∀ t : StampText, t.ok = true → c_str str ≠ t.chars) →
        f.vectorSet H x i (.str str) false
          = .ok { x with cells := x.cells.set i (.real NA_REAL) }) := by
  obtain ⟨name, t, a, fs⟩ := f
  simp only [DrillField.type_] at hf
  subst hf
  have hx1 : x.sxp = (DrillField.mk name .DRILL_TIMESTAMP a fs).columnType false := hx
  refine ⟨?_, ?_, ?_, ?_⟩
  · intro str t ht hstr
    have hw := vectorSetScalar_ok H _ x i (.str str) hx1 hi
    have hp := strptime_stamp t ht Tm.uninit
    obtain ⟨_, h2, _⟩ := (stampText_ok_iff t).mp ht
    obtain ⟨_, _, _, _, hM1, hM⟩ := (numText_ok_iff 1 12 2 _).mp h2
    have htg := timegm_civil t.year.val t.month.val t.day.val t.hour.val t.minute.val
      t.second.val hM1 hM
    simp only [DrillField.vectorSet, Bool.false_eq_true, if_false]
    rw [hw]
    simp only [scalarCell, DrillField.type_, hstr, hp, htg, StampText.seconds]
  · intro str Y M D h m s rest hY hM1 hM hD1 hD hh hm hs hstr
    have hw := vectorSetScalar_ok H _ x i (.str str) hx1 hi
    have hp := strptime_isoPrefix Y M D h m s rest Tm.uninit hY hM1 hM hD1 hD hh hm hs
    have ht := timegm_civil Y M D h m s hM1 hM
    simp only [DrillField.vectorSet, Bool.false_eq_true, if_false]
    rw [hw]
    simp only [scalarCell, DrillField.type_, hstr, hp, ht]
  · intro rest hr
    cases rest with
    | nil => rfl
    | cons c r =>
        have hc : c ≠ '.' := fun h => hr (by simp [h])
        unfold parse_partial_seconds
        split
        · next heq => simp at heq; exact absurd heq.1 hc
        · rfl
  · intro str hno
    have hw := vectorSetScalar_ok H _ x i (.str str) hx1 hi
    simp only [DrillField.vectorSet, Bool.false_eq_true, if_false]
    rw [hw]
    cases hp : strptime "%Y-%m-%dT%H:%M:%S".data (c_str str) Tm.uninit with
    | none => simp only [scalarCell, DrillField.type_, hp]
    | some p =>
        obtain ⟨t, ht, he, _⟩ := strptime_stamp_spec (c_str str) p.1 Tm.uninit p.2 hp
        exact absurd he (hno t ht)

theorem epoch_2021_03_05 :
    daysSinceEpoch 2021 3 5 * 86400 + 3600 * ((10 : Nat) : Int) + 60 * ((15 : Nat) : Int)
      + ((30 : Nat) : Int) = 1614939330 := by
  simp [daysSinceEpoch, daysBeforeYear_eq, leapsBefore, daysBeforeMonth, monthLength, isLeap]

/-- The example `2000-1-1T0:0:0`, cut into its fields. -/
theorem stamp_2000 :
    (⟨⟨[], ['2', '0', '0', '0']⟩, ⟨[], ['1']⟩, ⟨[], ['1']⟩, ⟨[], ['0']⟩, ⟨[], ['0']⟩,
        ⟨[], ['0']⟩, []⟩ : StampText).seconds = 946684800 := by
  simp [StampText.seconds, NumText.val, numeral, digitVal, Nat.ofDigits, daysSinceEpoch,
    daysBeforeYear_eq, leapsBefore, daysBeforeMonth]

set_option maxRecDepth 4000 in
/-- C10, witness: `2021-03-05T10:15:30` is 18691 days and 36930 seconds after
the epoch; with no fraction and with the rest `Z` the contribution is `0.0`
and the slot holds the integer 1614939330 exactly; with the rest `.5` the
slot holds 1614939330.5; the unpadded `2000-1-1T0:0:0` holds 946684800;
`yesterday` and month 13 give `NA_REAL`. -/
theorem timestamp_decode_witness :
    (DrillField.mk "ts" .DRILL_TIMESTAMP false []).vectorSet demoHost
        ⟨.REALSXP, .POSIXct_UTC, [.real Dbl.zero]⟩ 0 (.str "2021-03-05T10:15:30") false
      = .ok ⟨.REALSXP, .POSIXct_UTC, [.real (Dbl.ofInt 1614939330)]⟩
    ∧ (DrillField.mk "ts" .DRILL_TIMESTAMP false []).vectorSet demoHost
        ⟨.REALSXP, .POSIXct_UTC, [.real Dbl.zero]⟩ 0 (.str "2021-03-05T10:15:30Z") false
      = .ok ⟨.REALSXP, .POSIXct_UTC, [.real (Dbl.ofInt 1614939330)]⟩
    ∧ (DrillField.mk "ts" .DRILL_TIMESTAMP false []).vectorSet demoHost
        ⟨.REALSXP, .POSIXct_UTC, [.real Dbl.zero]⟩ 0 (.str "2021-03-05T10:15:30.5") false
      = .ok ⟨.REALSXP, .POSIXct_UTC, [.real (Dbl.ofRatio false 3229878661 2)]⟩
    ∧ (DrillField.mk "ts" .DRILL_TIMESTAMP false []).vectorSet demoHost
        ⟨.REALSXP, .POSIXct_UTC, [.real Dbl.zero]⟩ 0 (.str "2000-1-1T0:0:0") false
      = .ok ⟨.REALSXP, .POSIXct_UTC, [.real (Dbl.ofInt 946684800)]⟩
    ∧ parse_partial_seconds ['Z'] = Dbl.zero
    ∧ (DrillField.mk "ts" .DRILL_TIMESTAMP false []).vectorSet demoHost
        ⟨.REALSXP, .POSIXct_UTC, [.real Dbl.zero]⟩ 0 (.str "yesterday") false
      = .ok ⟨.REALSXP, .POSIXct_UTC, [.real NA_REAL]⟩
    ∧ (DrillField.mk "ts" .DRILL_TIMESTAMP false []).vectorSet demoHost
        ⟨.REALSXP, .POSIXct_UTC, [.real Dbl.zero]⟩ 0 (.str "2021-13-05T10:15:30") false
      = .ok ⟨.REALSXP, .POSIXct_UTC, [.real NA_REAL]⟩ := by
  have h := timestamp_decode demoHost (DrillField.mk "ts" .DRILL_TIMESTAMP false [])
    ⟨.REALSXP, .POSIXct_UTC, [.real Dbl.zero]⟩ 0 rfl rfl (by decide)
  have e1 := h.2.1 "2021-03-05T10:15:30" 2021 3 5 10 15 30 [] (by decide) (by decide)
    (by decide) (by decide) (by decide) (by decide) (by decide) (by decide) (by decide)
  have e2 := h.2.1 "2021-03-05T10:15:30Z" 2021 3 5 10 15 30 ['Z'] (by decide) (by decide)
    (by decide) (by decide) (by decide) (by decide) (by decide) (by decide) (by decide)
  have e3 := h.2.1 "2021-03-05T10:15:30.5" 2021 3 5 10 15 30 ['.', '5'] (by decide) (by decide)
    (by decide) (by decide) (by decide) (by decide) (by decide) (by decide) (by decide)
  have e4 := h.1 "2000-1-1T0:0:0" ⟨⟨[], ['2', '0', '0', '0']⟩, ⟨[], ['1']⟩, ⟨[], ['1']⟩,
    ⟨[], ['0']⟩, ⟨[], ['0']⟩, ⟨[], ['0']⟩, []⟩ (by decide) (by decide)
  rw [epoch_2021_03_05] at e1 e2 e3
  rw [stamp_2000] at e4
  have a1 : Dbl.add (Dbl.ofInt 1614939330) (parse_partial_seconds []) = Dbl.ofInt 1614939330 := by
    decide
  have a2 : Dbl.add (Dbl.ofInt 1614939330) (parse_partial_seconds ['Z'])
      = Dbl.ofInt 1614939330 := by decide
  have a3 : Dbl.add (Dbl.ofInt 1614939330) (parse_partial_seconds ['.', '5'])
      = Dbl.ofRatio false 3229878661 2 := by decide
  have a4 : Dbl.add (Dbl.ofInt 946684800) (parse_partial_seconds []) = Dbl.ofInt 946684800 := by
    decide
  rw [a1] at e1
  rw [a2] at e2
  rw [a3] at e3
  rw [a4] at e4
  exact ⟨e1, e2, e3, e4, h.2.2.1 ['Z'] (by decide),
    h.2.2.2 "yesterday" (stamp_none _ Tm.uninit (by decide)),
    h.2.2.2 "2021-13-05T10:15:30" (stamp_none _ Tm.uninit (by decide))⟩

set_option maxRecDepth 4000 in
/-- C10, counterexample: `2000-1-1T0:0:0` does not begin with a
`YYYY-MM-DDTHH:MM:SS` prefix (four, two, two, two, two and two digits), yet
its Timestamp decode is not null: the slot holds 946684800, the epoch
seconds of 2000-01-01T00:00:00 UTC. -/
theorem timestamp_unpadded_counterexample :
    (¬ ∃ (Y M D h m s : Nat) (rest : List Char),
        "2000-1-1T0:0:0".data = isoPrefix Y M D h m s ++ rest)
    ∧ (DrillField.mk "ts" .DRILL_TIMESTAMP false []).vectorSet demoHost
        ⟨.REALSXP, .POSIXct_UTC, [.real Dbl.zero]⟩ 0 (.str "2000-1-1T0:0:0") false
      = .ok ⟨.REALSXP, .POSIXct_UTC, [.real (Dbl.ofInt 946684800)]⟩
    ∧ Dbl.ofInt 946684800 ≠ NA_REAL
    ∧ (Dbl.ofInt 946684800).toRat = some 946684800 := by
  refine ⟨?_, ?_, by decide, ?_⟩
  · rintro ⟨Y, M, D, h, m, s, rest, he⟩
    have hl := congrArg List.length he
    simp [isoPrefix, four, two] at hl
  · have hp : strptime "%Y-%m-%dT%H:%M:%S".data (c_str "2000-1-1T0:0:0") Tm.uninit
        = some ([], ⟨0, 0, 0, 1, 0, 100⟩) := by decide
    have ht : timegm ⟨0, 0, 0, 1, 0, 100⟩ = 946684800 := by decide
    have ha : Dbl.add (Dbl.ofInt 946684800) (parse_partial_seconds [])
        = Dbl.ofInt 946684800 := by decide
    have hw := vectorSetScalar_ok demoHost (DrillField.mk "ts" .DRILL_TIMESTAMP false [])
      ⟨.REALSXP, .POSIXct_UTC, [.real Dbl.zero]⟩ 0 (.str "2000-1-1T0:0:0") rfl (by decide)
    simp only [DrillField.type_, scalarCell, hp, ht, ha] at hw
    simpa [DrillField.vectorSet] using hw
  · have e : Dbl.ofInt 946684800 = Dbl.fin false 7941367686758400 (-23) := by decide
    rw [e]
    simp only [Dbl.toRat]
    norm_num

/-! ## Row batches -/

theorem hasV_forall₂ (elems : List JSON) (h : elems.all hasV = true) :
    ∃ vs, List.Forall₂ (fun e v => e.member "v" = Except.ok v) elems vs := by
  induction elems with
  | nil => exact ⟨[], List.Forall₂.nil⟩
  | cons e es ih =>
      simp only [List.all_cons, Bool.and_eq_true] at h
      obtain ⟨vs, hvs⟩ := ih h.2
      have he := h.1
      unfold hasV at he
      cases hm : e.member "v" with
      | error err => simp [hm] at he
      | ok v => exact ⟨v :: vs, List.Forall₂.cons hm hvs⟩

/-- The repeated decode of an array of `{v: ...}` elements, as an equation. -/
theorem vectorSet_array_ok (H : Host) (f : DrillField) (x : Column) (i : Nat)
    (elems vs : List JSON) (hx : x.sxp = .VECSXP) (hi : i < x.cells.length)
    (hshape : List.Forall₂ (fun e v => e.member "v" = Except.ok v) elems vs) :
    f.vectorSet H x i (.arr elems) true
      = .ok { x with cells := (x.cells.set i
          (.vec (f.columnType false) (f.columnClass false) (vs.map (scalarCell H f.type_)))) } := by
  obtain ⟨out0, h0, hs0, hl0, hc0⟩ := vectorInit_ok f elems.length false
  have hloop := array_loop H f elems vs hshape out0 hs0 hl0
  simp only [DrillField.vectorSet, JSON.IsArray, JSON.Size, if_true, Bool.not_true,
    Bool.false_eq_true, if_false, bind, Except.bind, h0, hloop, Column.setVECTOR]
  rw [store_ok x [.VECSXP] i _ (by simp [hx]) hi]
  simp [Column.toCell, hs0, hc0]

/-- A write of a value fit for its field succeeds and stores the decode of
the value on its own. -/
theorem vectorSet1_ok (H : Host) (f : DrillField) (col : Column) (idx : Nat) (v : JSON)
    (hs : col.sxp = f.columnType f.array_) (hidx : idx < col.cells.length)
    (hwf : wfValue f v = true) :
    ∃ c, f.decode H v f.array_ = .ok c
      ∧ f.vectorSet1 H col idx v = .ok { col with cells := col.cells.set idx c } := by
  unfold DrillField.vectorSet1
  cases ha : f.array_ with
  | false =>
      rw [ha] at hs
      refine ⟨scalarCell H f.type_ v, decode_false H f v, ?_⟩
      simpa [DrillField.vectorSet] using vectorSetScalar_ok H f col idx v hs hidx
  | true =>
      rw [ha, columnType_true] at hs
      simp only [wfValue, ha, if_true] at hwf
      cases v with
      | arr elems =>
          simp only at hwf
          obtain ⟨vs, hvs⟩ := hasV_forall₂ elems hwf
          obtain ⟨one, h1, h1s, h1l, _⟩ := vectorInit_ok f 1 true
          have h1' : f.vectorInit 1 true = .ok one := h1
          rw [columnType_true] at h1s
          refine ⟨.vec (f.columnType false) (f.columnClass false)
            (vs.map (scalarCell H f.type_)), ?_,
            vectorSet_array_ok H f col idx elems vs hs hidx hvs⟩
          obtain ⟨sxp, cls, cells⟩ := one
          simp only at h1l h1s
          obtain ⟨c0, rfl⟩ : ∃ c0, cells = [c0] := by
            cases cells with
            | nil => simp at h1l
            | cons a r =>
                cases r with
                | nil => exact ⟨a, rfl⟩
                | cons b r => simp at h1l
          have hv := vectorSet_array_ok H f ⟨sxp, cls, [c0]⟩ 0 elems vs h1s (by simp) hvs
          simp [DrillField.decode, h1', hv, bind, Except.bind, elemAt]
      | null => simp at hwf
      | bool b => simp at hwf
      | num q => simp at hwf
      | str s => simp at hwf
      | obj ms => simp at hwf

theorem slot_set (t : Table) (j row : Nat) (col : Column) (c : Cell) (hcol : t.cols[j]? = some col)
    (hrow : row < col.cells.length) (j1 idx : Nat) :
    Table.slot { t with cols := t.cols.set j { col with cells := col.cells.set row c } } j1 idx
      = if j1 = j ∧ idx = row then some c else t.slot j1 idx := by
  have hj : j < t.cols.length := by
    by_contra hn
    rw [List.getElem?_eq_none (by omega)] at hcol
    cases hcol
  unfold Table.slot
  by_cases h1 : j1 = j
  · subst h1
    simp only [List.getElem?_set, hj, if_true, hcol, true_and]
    by_cases h2 : idx = row
    · subst h2
      simp [hrow]
    · simp [h2, Ne.symm h2]
  · simp [List.getElem?_set, Ne.symm h1, h1]

theorem tableOK_set (fields : List DrillField) (t : Table) (N j row : Nat) (col : Column)
    (c : Cell) (hok : TableOK fields t N) (hcol : t.cols[j]? = some col) :
    TableOK fields { t with cols := t.cols.set j { col with cells := col.cells.set row c } } N := by
  obtain ⟨hlen, hall⟩ := hok
  refine ⟨by simpa using hlen, ?_⟩
  intro j1 f c1 hf hc1
  by_cases h1 : j1 = j
  · subst h1
    have hj : j1 < t.cols.length := by
      by_contra hn
      rw [List.getElem?_eq_none (by omega)] at hcol
      cases hcol
    simp only [List.getElem?_set, hj, if_true, Option.some.injEq] at hc1
    subst hc1
    have := hall j1 f col hf hcol
    simpa using this
  · simp only [List.getElem?_set, Ne.symm h1, if_false] at hc1
    exact hall j1 f c1 hf hc1

/-- One execution of line 370 on a well-formed cell: the write succeeds,
stores the decode of the value, and touches no other slot. -/
theorem setCell_ok (H : Host) (fields : List DrillField) (es : List JSON) (row j N : Nat)
    (out : Table) (hok : TableOK fields out N) (hrow : row < N) (fld : DrillField)
    (hfld : fields[j]? = some fld) (e v : JSON) (he : es[j]? = some e)
    (hv : e.member "v" = .ok v) (hwf : wfValue fld v = true) :
    ∃ c out1, fld.decode H v fld.array_ = .ok c
      ∧ setCell H fields (.arr es) row j out = .ok out1
      ∧ TableOK fields out1 N
      ∧ ∀ j1 idx, out1.slot j1 idx = if j1 = j ∧ idx = row then some c else out.slot j1 idx := by
  have hj : j < fields.length := by
    by_contra hn
    rw [List.getElem?_eq_none (by omega)] at hfld
    cases hfld
  have hjc : j < out.cols.length := by rw [hok.1]; exact hj
  have hcol : out.cols[j]? = some (out.cols[j]) := List.getElem?_eq_getElem hjc
  obtain ⟨hsx, hln⟩ := hok.2 j fld _ hfld hcol
  obtain ⟨c, hdec, hset⟩ := vectorSet1_ok H fld (out.cols[j]) row v hsx (by omega) hwf
  refine ⟨c, _, hdec, ?_, tableOK_set fields out N j row _ c hok hcol,
    slot_set out j row _ c hcol (by omega)⟩
  simp [setCell, elemAt, hfld, hcol, JSON.index, he, hv, hset, bind, Except.bind, pure,
    Except.pure]

theorem wfCells_get (fields : List DrillField) (es : List JSON) (h : wfCells fields es = true)
    (j : Nat) (fld : DrillField) (hfld : fields[j]? = some fld) :
    ∃ e v, es[j]? = some e ∧ e.member "v" = .ok v ∧ wfValue fld v = true := by
  induction fields generalizing es j with
  | nil => simp at hfld
  | cons f fs ih =>
      cases es with
      | nil => simp [wfCells] at h
      | cons e es =>
          simp only [wfCells, Bool.and_eq_true] at h
          cases j with
          | zero =>
              simp only [List.getElem?_cons_zero, Option.some.injEq] at hfld
              subst hfld
              cases hm : e.member "v" with
              | error err => simp [hm] at h
              | ok v => exact ⟨e, v, by simp, hm, by simpa [hm] using h.1⟩
          | succ j =>
              simp only [List.getElem?_cons_succ] at hfld ⊢
              exact ih es h.2 j hfld

/-- The inner loop of `drill_fields_set` on a well-formed row: every column
gets the decode of its value in slot `row`, no other row is touched. -/
theorem row_loop_ok (H : Host) (fields : List DrillField) (es : List JSON) (row N : Nat)
    (out : Table) (hok : TableOK fields out N) (hrow : row < N)
    (hwf : wfCells fields es = true) :
    ∃ out1, forLoop (setCell H fields (.arr es) row) fields.length out = .ok out1
      ∧ TableOK fields out1 N
      ∧ (∀ (j : Nat) (fld : DrillField) (e v : JSON), fields[j]? = some fld → es[j]? = some e →
          e.member "v" = .ok v →
          ∃ c, out1.slot j row = some c ∧ fld.decode H v fld.array_ = .ok c)
      ∧ (∀ j1 idx, idx ≠ row → out1.slot j1 idx = out.slot j1 idx) := by
  obtain ⟨out1, hrun, h1, h2, h3⟩ := forLoop_invariant (setCell H fields (.arr es) row)
    (fun k t => TableOK fields t N
      ∧ (∀ (j : Nat) (fld : DrillField) (e v : JSON), j < k → fields[j]? = some fld →
          es[j]? = some e → e.member "v" = .ok v →
          ∃ c, t.slot j row = some c ∧ fld.decode H v fld.array_ = .ok c)
      ∧ (∀ j1 idx, idx ≠ row → t.slot j1 idx = out.slot j1 idx))
    fields.length out ⟨hok, fun j _ _ _ hj => absurd hj (Nat.not_lt_zero j), fun _ _ _ => rfl⟩
    (by
      intro k t hk ⟨p1, p2, p3⟩
      have hfld : fields[k]? = some (fields[k]) := List.getElem?_eq_getElem hk
      obtain ⟨e, v, he, hv, hw⟩ := wfCells_get fields es hwf k _ hfld
      obtain ⟨c, t1, hdec, hset, hok1, hslot⟩ :=
        setCell_ok H fields es row k N t p1 hrow _ hfld e v he hv hw
      refine ⟨t1, hset, hok1, ?_, ?_⟩
      · intro j fld e1 v1 hj hf1 he1 hv1
        by_cases hjk : j = k
        · subst hjk
          rw [hfld] at hf1
          rw [he] at he1
          cases hf1
          cases he1
          rw [hv] at hv1
          cases hv1
          exact ⟨c, by simp [hslot], hdec⟩
        · obtain ⟨c1, hc1, hd1⟩ := p2 j fld e1 v1 (by omega) hf1 he1 hv1
          exact ⟨c1, by simp [hslot, hjk, hc1], hd1⟩
      · intro j1 idx hidx
        rw [hslot]
        simp [hidx, p3 j1 idx hidx])
  exact ⟨out1, hrun, h1,
    fun j fld e v hf he hv => h2 j fld e v (by
      by_contra hn
      rw [List.getElem?_eq_none (by omega)] at hf
      cases hf) hf he hv, h3⟩

theorem cellValue_cases (d : JSON) (rows : List JSON) (i j : Nat) (v : JSON)
    (hd : d.member "rows" = .ok (.arr rows)) (hc : cellValue d i j = .ok v) :
    ∃ row farr e, rows[i]? = some row ∧ row.member "f" = .ok farr ∧ farr.index j = .ok e
      ∧ e.member "v" = .ok v := by
  simp only [cellValue, hd, bind, Except.bind, JSON.index] at hc
  cases hr : rows[i]? with
  | none => simp [hr] at hc
  | some row =>
      simp only [hr] at hc
      cases hf : row.member "f" with
      | error err => simp [hf] at hc
      | ok farr =>
          simp only [hf] at hc
          cases he : farr.index j with
          | error err =>
              simp only [JSON.index] at he
              simp [he] at hc
          | ok e =>
              have he0 := he
              simp only [JSON.index] at he
              simp only [he] at hc
              exact ⟨row, farr, e, rfl, hf, he0, hc⟩

theorem index_arr (es : List JSON) (j : Nat) (e : JSON) (h : (JSON.arr es).index j = .ok e) :
    es[j]? = some e := by
  simp only [JSON.index] at h
  cases he : es[j]? with
  | none => simp [he] at h
  | some x =>
      simp only [he, Except.ok.injEq] at h
      rw [h]

/-- The loops of `drill_fields_set` on a well-formed document that fits
below row `N`: the call returns the row count of the document, slot
`offset + i` of every column holds the decode of the value of row `i`, and
the rows outside `offset, ..., offset + rowCount - 1` are untouched. -/
theorem drill_fields_set_ok (H : Host) (fields : List DrillField) (d : JSON) (out : Table)
    (offset N : Nat) (hok : TableOK fields out N) (hwf : wfDoc fields d = true)
    (hN : offset + rowCount d ≤ N) :
    ∃ out1, drill_fields_set H d out fields offset = .ok (out1, rowCount d)
      ∧ TableOK fields out1 N
      ∧ (∀ (i j : Nat) (fld : DrillField) (v : JSON), fields[j]? = some fld →
          cellValue d i j = .ok v →
          ∃ c, out1.slot j (offset + i) = some c ∧ fld.decode H v fld.array_ = .ok c)
      ∧ (∀ j idx, (idx < offset ∨ offset + rowCount d ≤ idx) → out1.slot j idx = out.slot j idx) := by
  cases d with
  | obj ms =>
      simp only [wfDoc] at hwf
      cases hm : findMember "rows" ms with
      | none =>
          refine ⟨out, ?_, hok, ?_, fun _ _ _ => rfl⟩
          · simp [drill_fields_set, JSON.HasMember, hm, rowCount, JSON.member, bind, Except.bind,
              pure, Except.pure]
          · intro i j fld v _ hc
            simp [cellValue, JSON.member, hm, bind, Except.bind] at hc
      | some r =>
          rw [hm] at hwf
          cases r with
          | arr rows =>
              simp only [List.all_eq_true] at hwf
              have hd : (JSON.obj ms).member "rows" = .ok (.arr rows) := by
                simp [JSON.member, hm]
              have hrc : rowCount (JSON.obj ms) = rows.length := by simp [rowCount, hd]
              rw [hrc] at hN ⊢
              obtain ⟨out1, hrun, h1, h2, h3⟩ := forLoop_invariant
                (setRow H fields (.arr rows) offset)
                (fun k t => TableOK fields t N
                  ∧ (∀ (i j : Nat) (fld : DrillField) (v : JSON), i < k → fields[j]? = some fld →
                      cellValue (JSON.obj ms) i j = .ok v →
                      ∃ c, t.slot j (offset + i) = some c ∧ fld.decode H v fld.array_ = .ok c)
                  ∧ (∀ j idx, (idx < offset ∨ offset + k ≤ idx) → t.slot j idx = out.slot j idx))
                rows.length out
                ⟨hok, fun i _ _ _ hi => absurd hi (Nat.not_lt_zero i), fun _ _ _ => rfl⟩
                (by
                  intro k t hk ⟨p1, p2, p3⟩
                  have hrow : rows[k]? = some (rows[k]) := List.getElem?_eq_getElem hk
                  have hwr := hwf (rows[k]) (List.getElem_mem hk)
                  unfold wfRow at hwr
                  cases hf : (rows[k]).member "f" with
                  | error err => simp [hf] at hwr
                  | ok farr =>
                      rw [hf] at hwr
                      cases farr with
                      | arr es =>
                          simp only at hwr
                          obtain ⟨t1, hl, q1, q2, q3⟩ :=
                            row_loop_ok H fields es (k + offset) N t p1 (by omega) hwr
                          refine ⟨t1, ?_, q1, ?_, ?_⟩
                          · simp [setRow, JSON.index, hrow, hf, hl, bind, Except.bind]
                          · intro i j fld v hi hfld hc
                            by_cases hik : i = k
                            · subst hik
                              obtain ⟨row, farr, e, e1, e2, e3, e4⟩ :=
                                cellValue_cases _ rows i j v hd hc
                              rw [hrow] at e1
                              cases e1
                              rw [hf] at e2
                              cases e2
                              have := q2 j fld e v hfld (index_arr es j e e3) e4
                              rwa [Nat.add_comm i offset] at this
                            · obtain ⟨c, hc1, hc2⟩ := p2 i j fld v (by omega) hfld hc
                              exact ⟨c, by rw [q3 j (offset + i) (by omega)]; exact hc1, hc2⟩
                          · intro j idx hidx
                            rw [q3 j idx (by omega)]
                            exact p3 j idx (by omega)
                      | null => simp at hwr
                      | bool b => simp at hwr
                      | num q => simp at hwr
                      | str s => simp at hwr
                      | obj ms1 => simp at hwr)
              refine ⟨out1, ?_, h1, ?_, h3⟩
              · simp [drill_fields_set, JSON.HasMember, hm, hd, JSON.Size, hrun, bind, Except.bind,
                  pure, Except.pure]
              · intro i j fld v hfld hc
                obtain ⟨row, farr, e, e1, _, _, _⟩ := cellValue_cases _ rows i j v hd hc
                have hi : i < rows.length := by
                  by_contra hn
                  rw [List.getElem?_eq_none (by omega)] at e1
                  cases e1
                exact h2 i j fld v hi hfld hc
          | null => simp at hwf
          | bool b => simp at hwf
          | num q => simp at hwf
          | str s => simp at hwf
          | obj ms1 => simp at hwf
  | null => simp [wfDoc] at hwf
  | bool b => simp [wfDoc] at hwf
  | num q => simp [wfDoc] at hwf
  | str s => simp [wfDoc] at hwf
  | arr es => simp [wfDoc] at hwf

theorem cellValue_lt_rowCount (d : JSON) (i j : Nat) (v : JSON) (hc : cellValue d i j = .ok v) :
    i < rowCount d := by
  cases hd : d.member "rows" with
  | error err => simp [cellValue, hd, bind, Except.bind] at hc
  | ok r =>
      cases r with
      | arr rows =>
          obtain ⟨row, _, _, e1, _, _, _⟩ := cellValue_cases d rows i j v hd hc
          simp only [rowCount, hd]
          by_contra hn
          rw [List.getElem?_eq_none (by omega)] at e1
          cases e1
      | null => simp [cellValue, hd, bind, Except.bind, JSON.index] at hc
      | bool b => simp [cellValue, hd, bind, Except.bind, JSON.index] at hc
      | num q => simp [cellValue, hd, bind, Except.bind, JSON.index] at hc
      | str s => simp [cellValue, hd, bind, Except.bind, JSON.index] at hc
      | obj ms => simp [cellValue, hd, bind, Except.bind, JSON.index] at hc

theorem initCols_ok (fields : List DrillField) (n : Nat) :
    ∃ cols, initCols (n : Int) fields = .ok cols ∧ cols.length = fields.length
      ∧ ∀ (j : Nat) (f : DrillField) (c : Column), fields[j]? = some f → cols[j]? = some c →
          c.sxp = f.columnType f.array_ ∧ c.cells.length = n := by
  induction fields with
  | nil => exact ⟨[], rfl, rfl, fun j f c hf => by simp at hf⟩
  | cons f fs ih =>
      obtain ⟨cols, h1, h2, h3⟩ := ih
      obtain ⟨c, hc, hs, hl, _⟩ := vectorInit_ok f n f.array_
      refine ⟨c :: cols, ?_, by simp [h2], ?_⟩
      · simp [initCols, DrillField.vectorInit1, hc, h1, bind, Except.bind, pure, Except.pure]
      · intro j g c1 hg hc1
        cases j with
        | zero =>
            simp only [List.getElem?_cons_zero, Option.some.injEq] at hg hc1
            subst hg hc1
            exact ⟨hs, hl⟩
        | succ j =>
            simp only [List.getElem?_cons_succ] at hg hc1
            exact h3 j g c1 hg hc1

/-- The loop of `drill_parse_files` over well-formed sources that fit below
row `N`, with no interrupt seen: it ends with the offset advanced by the
total row count; row `i` of source `m` is in slot
`offset + (rows of the sources before m) + i` of every column; and the rows
below `offset` and from `offset + total` on are untouched. -/
theorem parse_files_loop_ok (H : Host) (fields : List DrillField) (quiet : Bool)
    (interrupt : Nat → Bool) (hint : quiet = false ∨ ∀ k, interrupt k = false) (N : Nat)
    (srcs : List (String × JSON)) :
    ∀ (k : Nat) (out : Table) (offset : Nat), TableOK fields out N →
      (∀ s ∈ srcs, wfDoc fields s.2 = true) → offset + totalRows srcs ≤ N →
      ∃ out1, parse_files_loop H fields quiet interrupt (sourcesOf srcs) k out offset
          = .ok (out1, offset + totalRows srcs)
        ∧ TableOK fields out1 N
        ∧ (∀ j idx, (idx < offset ∨ offset + totalRows srcs ≤ idx) →
            out1.slot j idx = out.slot j idx)
        ∧ (∀ (m i j : Nat) (s : String × JSON) (fld : DrillField) (v : JSON),
            srcs[m]? = some s → fields[j]? = some fld → cellValue s.2 i j = .ok v →
            ∃ c, out1.slot j (offset + totalRows (srcs.take m) + i) = some c
              ∧ fld.decode H v fld.array_ = .ok c) := by
  induction srcs with
  | nil =>
      intro k out offset hok _ _
      exact ⟨out, by simp [parse_files_loop, sourcesOf, totalRows], hok, fun _ _ _ => rfl,
        fun m i j s fld v hs => by simp at hs⟩
  | cons s0 rest ih =>
      intro k out offset hok hwf hN
      have htot : totalRows (s0 :: rest) = rowCount s0.2 + totalRows rest := by
        simp [totalRows]
      rw [htot] at hN
      obtain ⟨out1, hset, hok1, hrows, hkeep⟩ :=
        drill_fields_set_ok H fields s0.2 out offset N hok (hwf s0 (List.mem_cons_self _ _))
          (by omega)
      obtain ⟨out2, hloop, hok2, hkeep2, hrows2⟩ :=
        ih (k + 1) out1 (offset + rowCount s0.2) hok1
          (fun s hs => hwf s (List.mem_cons_of_mem _ hs)) (by omega)
      have hq : (quiet && interrupt k) = false := by
        rcases hint with h | h
        · simp [h]
        · simp [h k]
      refine ⟨out2, ?_, hok2, ?_, ?_⟩
      · simp only [sourcesOf, List.map_cons, parse_files_loop, hset, bind, Except.bind, hq]
        simp only [sourcesOf] at hloop
        simp only [Bool.false_eq_true, if_false, hloop, htot, Nat.add_assoc]
      · intro j idx hidx
        rw [htot] at hidx
        rw [hkeep2 j idx (by omega), hkeep j idx (by omega)]
      · intro m i j s fld v hs hfld hc
        cases m with
        | zero =>
            simp only [List.getElem?_cons_zero, Option.some.injEq] at hs
            subst hs
            obtain ⟨c, hc1, hc2⟩ := hrows i j fld v hfld hc
            have hi : i < rowCount s0.2 := cellValue_lt_rowCount s0.2 i j v hc
            refine ⟨c, ?_, hc2⟩
            simp only [List.take_zero, totalRows, List.map_nil, List.sum_nil, Nat.add_zero]
            rw [hkeep2 j (offset + i) (Or.inl (by omega))]
            exact hc1
        | succ m =>
            simp only [List.getElem?_cons_succ] at hs
            obtain ⟨c, hc1, hc2⟩ := hrows2 m i j s fld v hs hfld hc
            refine ⟨c, ?_, hc2⟩
            have e : offset + totalRows ((s0 :: rest).take (m + 1)) + i
                = offset + rowCount s0.2 + totalRows (rest.take m) + i := by
              simp [totalRows]
              omega
            rw [e]
            exact hc1

/-- C3: for every ordered list of well-formed row-batch sources (a source
without `rows` counts 0 rows and is no error) and every bound `n` at least
their total row count, with no interrupt seen, `drill_parse_files` returns a
table of `n` rows per column in which row `i` of source `m` is decoded into
row `(rows of the sources before m) + i` of every column. All these slots
are read in the one final table, so no later source has overwritten a row of
an earlier one. -/
theorem drill_parse_files_offsets (H : Host) (schema_doc : JSON) (fields : List DrillField)
    (hs : drill_fields_parse schema_doc = .ok fields) (srcs : List (String × JSON))
    (hwf : ∀ s ∈ srcs, wfDoc fields s.2 = true) (n : Int) (hn : (totalRows srcs : Int) ≤ n)
    (quiet : Bool) (interrupt : Nat → Bool) (hint : quiet = false ∨ ∀ k, interrupt k = false) :
    ∃ tbl, drill_parse_files H schema_doc (sourcesOf srcs) n quiet interrupt = .ok tbl
      ∧ TableOK fields tbl n.toNat
      ∧ ∀ (m i j : Nat) (s : String × JSON) (fld : DrillField) (v : JSON),
          srcs[m]? = some s → fields[j]? = some fld → cellValue s.2 i j = .ok v →
          ∃ c, tbl.slot j (totalRows (srcs.take m) + i) = some c
            ∧ fld.decode H v fld.array_ = .ok c := by
  have hn0 : ((n.toNat : Nat) : Int) = n := Int.toNat_of_nonneg (by omega)
  obtain ⟨cols, hc1, hc2, hc3⟩ := initCols_ok fields n.toNat
  rw [hn0] at hc1
  have hok : TableOK fields ⟨cols, fields.map DrillField.name, n⟩ n.toNat := ⟨hc2, hc3⟩
  obtain ⟨out1, hloop, hok1, _, hrows⟩ :=
    parse_files_loop_ok H fields quiet interrupt hint n.toNat srcs 0 _ 0 hok hwf (by omega)
  refine ⟨out1, ?_, hok1, ?_⟩
  · simp [drill_parse_files, hs, drill_fields_init, hc1, hloop, bind, Except.bind, pure,
      Except.pure]
  · intro m i j s fld v h1 h2 h3
    have := hrows m i j s fld v h1 h2 h3
    simpa using this

/-- C3, witness: sources of 2, 0 and 3 rows with `n = 5` give rows 0-1 from
source 1 and rows 2-4 from source 3. -/
theorem drill_parse_files_offsets_witness :
    (∃ tbl, drill_parse_files demoHost exampleSchema (sourcesOf exampleSources) 5 true
          (fun _ => false) = .ok tbl
      ∧ TableOK exampleFields tbl 5
      ∧ ∀ (m i j : Nat) (s : String × JSON) (fld : DrillField) (v : JSON),
          exampleSources[m]? = some s → exampleFields[j]? = some fld →
          cellValue s.2 i j = .ok v →
          ∃ c, tbl.slot j (totalRows (exampleSources.take m) + i) = some c
            ∧ fld.decode demoHost v fld.array_ = .ok c)
    ∧ (drill_parse_files demoHost exampleSchema (sourcesOf exampleSources) 5 true
          (fun _ => false)).map (fun t => t.cols.map Column.cells)
        = .ok [[.int 1, .int 2, .int 3, .int 4, .int 5],
            [.vec .STRSXP .plain [.chr (some "x")], .vec .STRSXP .plain [],
             .vec .STRSXP .plain [.chr (some "y"), .chr (some "z")], .vec .STRSXP .plain [],
             .vec .STRSXP .plain [.chr (some "w")]]] :=
  ⟨drill_parse_files_offsets demoHost exampleSchema exampleFields rfl exampleSources
      (by decide) 5 (by decide) true (fun _ => false) (Or.inr fun _ => rfl),
    rfl⟩

/-! ## The timestamp of the specification -/

set_option maxRecDepth 4000 in
theorem timestamp_example_cell (H : Host) :
    scalarCell H .DRILL_TIMESTAMP (.str "2021-03-05T10:15:30.250")
      = .real (Dbl.fin false 6773546492624896 (-22)) := by
  have hp : strptime "%Y-%m-%dT%H:%M:%S".data (c_str "2021-03-05T10:15:30.250") Tm.uninit
      = some (['.', '2', '5', '0'], ⟨30, 15, 10, 5, 2, 121⟩) := by decide
  have ht : timegm ⟨30, 15, 10, 5, 2, 121⟩ = 1614939330 := by decide
  have ha : Dbl.add (Dbl.ofInt 1614939330) (parse_partial_seconds ['.', '2', '5', '0'])
      = Dbl.fin false 6773546492624896 (-22) := by decide
  simp only [scalarCell, hp, ht, ha]

/-- C11, as the code has it: on a double column, the Timestamp decode of
`"2021-03-05T10:15:30.250"` stores the binary64 value
`6773546492624896 * 2^-22`, which is exactly 1614939330.25: the epoch seconds
of 2021-03-05T10:15:30 UTC are 1614939330, and the fraction `.250` is added. -/
theorem timestamp_example (H : Host) (f : DrillField) (x : Column) (i : Nat)
    (hf : f.type_ = .DRILL_TIMESTAMP) (hx : x.sxp = .REALSXP) (hi : i < x.cells.length) :
    f.vectorSet H x i (.str "2021-03-05T10:15:30.250") false
        = .ok { x with cells := x.cells.set i (.real (Dbl.fin false 6773546492624896 (-22))) }
      ∧ (Dbl.fin false 6773546492624896 (-22)).toRat = some (1614939330 + 1 / 4)
      ∧ daysSinceEpoch 2021 3 5 * 86400 + 3600 * 10 + 60 * 15 + 30 = 1614939330 := by
  obtain ⟨name, t, a, fs⟩ := f
  simp only [DrillField.type_] at hf
  subst hf
  have hx1 : x.sxp = (DrillField.mk name .DRILL_TIMESTAMP a fs).columnType false := hx
  have hw := vectorSetScalar_ok H _ x i (.str "2021-03-05T10:15:30.250") hx1 hi
  simp only [DrillField.type_, timestamp_example_cell] at hw
  refine ⟨by simpa [DrillField.vectorSet] using hw, ?_, ?_⟩
  · simp only [Dbl.toRat]
    norm_num
  · simp [daysSinceEpoch, daysBeforeYear_eq, leapsBefore, daysBeforeMonth, monthLength, isLeap]

/-- C11, witness: the decode into a fresh one-row timestamp column. -/
theorem timestamp_example_witness :
    (DrillField.mk "ts" .DRILL_TIMESTAMP false []).vectorSet demoHost
        ⟨.REALSXP, .POSIXct_UTC, [.real Dbl.zero]⟩ 0 (.str "2021-03-05T10:15:30.250") false
      = .ok ⟨.REALSXP, .POSIXct_UTC, [.real (Dbl.fin false 6773546492624896 (-22))]⟩ :=
  (timestamp_example demoHost (DrillField.mk "ts" .DRILL_TIMESTAMP false [])
    ⟨.REALSXP, .POSIXct_UTC, [.real Dbl.zero]⟩ 0 rfl rfl (by decide)).1

/-- C11, counterexample: the value stored for `"2021-03-05T10:15:30.250"` is
not the double nearest to 1614938130.25 (which is `6773541459460096 * 2^-22`),
and the number it denotes is 1200 more than 1614938130.25. -/
theorem timestamp_example_counterexample :
    (DrillField.mk "ts" .DRILL_TIMESTAMP false []).vectorSet demoHost
        ⟨.REALSXP, .POSIXct_UTC, [.real Dbl.zero]⟩ 0 (.str "2021-03-05T10:15:30.250") false
      = .ok ⟨.REALSXP, .POSIXct_UTC, [.real (Dbl.fin false 6773546492624896 (-22))]⟩
    ∧ Dbl.ofRatio false 161493813025 100 = Dbl.fin false 6773541459460096 (-22)
    ∧ Dbl.fin false 6773546492624896 (-22) ≠ Dbl.ofRatio false 161493813025 100
    ∧ (Dbl.fin false 6773546492624896 (-22)).toRat = some (1614938130 + 1 / 4 + 1200) := by
  refine ⟨?_, by decide, by decide, ?_⟩
  · have hw := vectorSetScalar_ok demoHost (DrillField.mk "ts" .DRILL_TIMESTAMP false [])
      ⟨.REALSXP, .POSIXct_UTC, [.real Dbl.zero]⟩ 0 (.str "2021-03-05T10:15:30.250") rfl
      (by decide)
    simp only [DrillField.type_, timestamp_example_cell] at hw
    simpa [DrillField.vectorSet] using hw
  · simp only [Dbl.toRat]
    norm_num

/-! ## Floating columns -/

theorem tolower_ne_digit0 (c : Char) (h : isdigit c = false) : tolower c ≠ '0' := by
  unfold tolower
  split
  · next hr =>
      have hc : c = Char.ofNat c.toNat := (Char.ofNat_toNat c).symm
      obtain ⟨h1, h2⟩ := hr
      rw [hc]
      generalize c.toNat = n at h1 h2
      interval_cases n <;> decide
  · intro hc
    subst hc
    revert h
    decide

theorem stripPrefixCI_none (p : List Char) :
    ∀ s : List Char, startsWord p s = false → stripPrefixCI p s = none := by
  induction p with
  | nil => intro s h; simp [startsWord] at h
  | cons a p ih =>
      intro s h
      cases s with
      | nil => rfl
      | cons c s =>
          simp only [stripPrefixCI]
          by_cases hc : tolower c = a
          · rw [if_pos hc]
            apply ih
            simpa [startsWord, hc] using h
          · rw [if_neg hc]

theorem takeSign_afterSign (cs : List Char) :
    (takeSign (cs.dropWhile isspace)).2 = afterSign cs := by
  unfold afterSign takeSign
  split <;> rfl

/-- With no literal at the start of the string `strtod` converts nothing and
returns positive zero. -/
theorem strtod_no_literal (s : List Char) (hs : startsLiteral s = false) :
    strtod s = Dbl.zero := by
  have hr := takeSign_afterSign s
  unfold startsLiteral at hs
  unfold strtod
  simp only [hr]
  cases hc : afterSign s with
  | nil => simp [stripPrefixCI, strtod_decimal, takeMantissa]
  | cons c r =>
      rw [hc] at hs
      simp only [Bool.or_eq_false_iff, Bool.and_eq_false_imp, decide_eq_true_eq] at hs
      obtain ⟨⟨⟨h1, h2⟩, h3⟩, h4⟩ := hs
      have h8 := tolower_ne_digit0 c h1
      have e4 : (takeMantissa isdigit (c :: r)).1 = []
          ∧ (takeMantissa isdigit (c :: r)).2.1 = [] := by
        unfold takeMantissa
        simp only [List.takeWhile, List.dropWhile, h1]
        split
        · next t heq =>
            simp only [List.cons.injEq] at heq
            obtain ⟨hdot, ht⟩ := heq
            have := h2 hdot
            subst ht
            cases r with
            | nil => simp
            | cons d r1 => simp only at this; simp [List.takeWhile, this]
        · simp
      have e5 : stripPrefixCI ['0', 'x'] (c :: r) = none := by
        simp [stripPrefixCI, h8]
      simp only [stripPrefixCI_none _ _ h3, stripPrefixCI_none _ _ h4, e5, Option.bind,
        strtod_decimal, e4.1, e4.2, and_self, if_true, Option.getD]

/-- What `atof` returns for the spellings of a NaN: the payload of
`nan(...)`, read in base 10, 8 or 16, decides whether R reads the value as
`NA_real_`. -/
theorem atof_nan_payload :
    atof "nan(1954)".data = NA_REAL ∧ atof " -NaN(0x7A2)tail".data = NA_REAL
      ∧ atof "nan(03642)".data = NA_REAL ∧ atof "nan(4294969250)".data = NA_REAL
      ∧ atof "nan".data = Dbl.nan ∧ atof "nan()".data = Dbl.nan
      ∧ atof "nan(1954".data = Dbl.nan ∧ atof "nan(1954x)".data = Dbl.nan
      ∧ atof "nan(1953)".data = Dbl.nan ∧ atof "inf".data = Dbl.inf false := by
  decide

/-- C12, as the code has it: on a double column, the Float32/Float64 decode
of a JSON string whose text starts no floating literal (after white space and
an optional sign there is no digit, no `.` with a digit, and neither `inf` nor
`nan`; `"abc"` and the empty string are such) stores the number `0.0`, the
value `atof` returns when it converts nothing, which is not the null marker
`NA_REAL`. -/
theorem float_decode_non_numeric (H : Host) (f : DrillField) (x : Column) (i : Nat) (s : String)
    (hf : f.type_ = .DRILL_FLOAT ∨ f.type_ = .DRILL_DOUBLE) (hx : x.sxp = .REALSXP)
    (hi : i < x.cells.length) (hs : startsLiteral (c_str s) = false) :
    f.vectorSet H x i (.str s) false = .ok { x with cells := x.cells.set i (.real Dbl.zero) }
      ∧ Dbl.zero ≠ NA_REAL ∧ Dbl.zero.toRat = some 0 := by
  obtain ⟨name, t, a, fs⟩ := f
  simp only [DrillField.type_] at hf
  have hz := strtod_no_literal (c_str s) hs
  refine ⟨?_, by decide, by simp [Dbl.zero, Dbl.toRat]⟩
  rcases hf with hf | hf <;> subst hf
  · have hw := vectorSetScalar_ok H (DrillField.mk name .DRILL_FLOAT a fs) x i (.str s) hx hi
    simpa [DrillField.vectorSet, scalarCell, DrillField.type_, atof, hz] using hw
  · have hw := vectorSetScalar_ok H (DrillField.mk name .DRILL_DOUBLE a fs) x i (.str s) hx hi
    simpa [DrillField.vectorSet, scalarCell, DrillField.type_, atof, hz] using hw

/-- C12, witness: `"abc"` in a FLOAT column, `""` and `" -.x"` in a DOUBLE
column. -/
theorem float_decode_non_numeric_witness :
    ((DrillField.mk "x" .DRILL_FLOAT false []).vectorSet demoHost
        ⟨.REALSXP, .plain, [.real NA_REAL]⟩ 0 (.str "abc") false
        = .ok ⟨.REALSXP, .plain, [.real Dbl.zero]⟩
      ∧ Dbl.zero ≠ NA_REAL ∧ Dbl.zero.toRat = some 0)
    ∧ ((DrillField.mk "x" .DRILL_DOUBLE false []).vectorSet demoHost
        ⟨.REALSXP, .plain, [.real NA_REAL]⟩ 0 (.str "") false
        = .ok ⟨.REALSXP, .plain, [.real Dbl.zero]⟩
      ∧ Dbl.zero ≠ NA_REAL ∧ Dbl.zero.toRat = some 0)
    ∧ ((DrillField.mk "x" .DRILL_DOUBLE false []).vectorSet demoHost
        ⟨.REALSXP, .plain, [.real NA_REAL]⟩ 0 (.str " -.x") false
        = .ok ⟨.REALSXP, .plain, [.real Dbl.zero]⟩
      ∧ Dbl.zero ≠ NA_REAL ∧ Dbl.zero.toRat = some 0) :=
  ⟨float_decode_non_numeric demoHost (DrillField.mk "x" .DRILL_FLOAT false [])
      ⟨.REALSXP, .plain, [.real NA_REAL]⟩ 0 "abc" (Or.inl rfl) rfl (by decide) (by decide),
    float_decode_non_numeric demoHost (DrillField.mk "x" .DRILL_DOUBLE false [])
      ⟨.REALSXP, .plain, [.real NA_REAL]⟩ 0 "" (Or.inr rfl) rfl (by decide) (by decide),
    float_decode_non_numeric demoHost (DrillField.mk "x" .DRILL_DOUBLE false [])
      ⟨.REALSXP, .plain, [.real NA_REAL]⟩ 0 " -.x" (Or.inr rfl) rfl (by decide) (by decide)⟩

/-- C12, counterexample: the strings `"abc"` and `""` decode to `0.0` in a
FLOAT column, not to `NA_REAL`. -/
theorem float_decode_counterexample :
    (DrillField.mk "x" .DRILL_FLOAT false []).vectorSet demoHost
        ⟨.REALSXP, .plain, [.real NA_REAL]⟩ 0 (.str "abc") false
      = .ok ⟨.REALSXP, .plain, [.real Dbl.zero]⟩
    ∧ (DrillField.mk "x" .DRILL_FLOAT false []).vectorSet demoHost
        ⟨.REALSXP, .plain, [.real NA_REAL]⟩ 0 (.str "") false
      = .ok ⟨.REALSXP, .plain, [.real Dbl.zero]⟩
    ∧ atof "abc".data = Dbl.zero ∧ atof "".data = Dbl.zero ∧ Dbl.zero ≠ NA_REAL :=
  ⟨rfl, rfl, by decide, by decide, by decide⟩

/-! ## The type strings -/

theorem parse_drill_type_ok_iff (x : String) (t : DrillType) :
    parse_drill_type x = .ok t ↔ (x, t) ∈ typeTable := by
  constructor
  · intro h
    by_cases hx : x ∈ recognisedTypes
    · obtain ⟨t1, h1, h2⟩ := parse_drill_type_recognised x hx
      rw [h1] at h
      cases h
      exact h2
    · rw [parse_drill_type_unknown x hx] at h
      cases h
  · intro h
    simp only [typeTable, List.mem_cons, Prod.mk.injEq, List.mem_singleton, List.not_mem_nil,
      or_false] at h
    rcases h with h | h | h | h | h | h | h | h | h | h <;> obtain ⟨rfl, rfl⟩ := h <;> rfl

theorem ofJSON_type (j : JSON) (f : DrillField) (h : DrillField.ofJSON j = .ok f) :
    ∃ s, parse_drill_type s = .ok f.type_ := by
  cases j with
  | obj ms =>
      rw [DrillField.ofJSON] at h
      simp only [bind, Except.bind] at h
      cases h1 : DrillField.specString "name" ms with
      | error e => simp [h1] at h
      | ok nm =>
          cases h2 : DrillField.specArray ms with
          | error e => simp [h1, h2] at h
          | ok a =>
              cases h3 : DrillField.specString "type" ms with
              | error e => simp [h1, h2, h3] at h
              | ok s =>
                  cases h4 : parse_drill_type s with
                  | error e => simp [h1, h2, h3, h4] at h
                  | ok ty =>
                      cases h5 : DrillField.ofMembers ms with
                      | error e => simp [h1, h2, h3, h4, h5] at h
                      | ok fs =>
                          simp [h1, h2, h3, h4, h5, pure, Except.pure] at h
                          subst h
                          exact ⟨s, h4⟩
  | null => simp [DrillField.ofJSON] at h
  | bool b => simp [DrillField.ofJSON] at h
  | num q => simp [DrillField.ofJSON] at h
  | str s => simp [DrillField.ofJSON] at h
  | arr es => simp [DrillField.ofJSON] at h

/-- C13: `parse_drill_type` succeeds on `x` exactly when `x` is, case and all,
one of the ten type strings, and then returns the field type that the table
of the specification pairs with it; every other string, `"DOUBLE"`, `"int"`
and `""` among them, raises `Unknown type`; so no string yields
`DRILL_DOUBLE`, and no field descriptor that the schema parser constructs, at
the top level or nested, has that type. -/
theorem parse_drill_type_table :
    (∀ (x : String) (t : DrillType), parse_drill_type x = .ok t ↔ (x, t) ∈ typeTable)
    ∧ (∀ x : String, x ∉ recognisedTypes →
        parse_drill_type x = .error (.stop ("Unknown type " ++ x)))
    ∧ (∀ x : String, x ∈ recognisedTypes → ∃ t, parse_drill_type x = .ok t)
    ∧ parse_drill_type "DOUBLE" = .error (.stop "Unknown type DOUBLE")
    ∧ parse_drill_type "int" = .error (.stop "Unknown type int")
    ∧ parse_drill_type "" = .error (.stop "Unknown type ")
    ∧ (∀ x : String, parse_drill_type x ≠ .ok .DRILL_DOUBLE)
    ∧ (∀ (j : JSON) (f : DrillField), DrillField.ofJSON j = .ok f → f.type_ ≠ .DRILL_DOUBLE) := by
  have hd : ∀ x : String, parse_drill_type x ≠ .ok .DRILL_DOUBLE := by
    intro x hx
    have := (parse_drill_type_ok_iff x .DRILL_DOUBLE).mp hx
    simp [typeTable] at this
  refine ⟨parse_drill_type_ok_iff, parse_drill_type_unknown, ?_, rfl, rfl, rfl, hd, ?_⟩
  · intro x hx
    obtain ⟨t, h1, _⟩ := parse_drill_type_recognised x hx
    exact ⟨t, h1⟩
  · intro j f hf hty
    obtain ⟨s, hs⟩ := ofJSON_type j f hf
    rw [hty] at hs
    exact hd s hs

/-- C13, witness: `STRING` maps to `DRILL_VARCHAR`, and `Int` is rejected. -/
theorem parse_drill_type_table_witness :
    parse_drill_type "STRING" = .ok .DRILL_VARCHAR
      ∧ parse_drill_type "Int" = .error (.stop ("Unknown type " ++ "Int")) :=
  ⟨(parse_drill_type_table.1 "STRING" .DRILL_VARCHAR).mpr (by simp [typeTable]),
    parse_drill_type_table.2.1 "Int" (by decide)⟩

/-! ## Progress reporting -/

theorem parse_files_loop_quiet (H : Host) (fields : List DrillField) (interrupt : Nat → Bool)
    (hint : ∀ k, interrupt k = false) (files : List Source) :
    ∀ (k : Nat) (out : Table) (offset : Nat),
      parse_files_loop H fields true interrupt files k out offset
        = parse_files_loop H fields false interrupt files k out offset := by
  induction files with
  | nil => intro k out offset; rfl
  | cons src rest ih =>
      intro k out offset
      simp only [parse_files_loop]
      cases src.doc with
      | none => rfl
      | some d =>
          simp only [bind, Except.bind]
          cases drill_fields_set H d out fields offset with
          | error e => rfl
          | ok r => simp [hint k, ih]

/-- C16: progress reporting does not affect the decode: for every schema
document, every ordered list of sources (unparsable ones included) and every
bound `n`, when no interrupt is signalled, `drill_parse_files` with
`quiet = true` and with `quiet = false` give the same outcome, the same error
or the same table. -/
theorem drill_parse_files_quiet (H : Host) (schema_doc : JSON) (files : List Source) (n : Int)
    (interrupt : Nat → Bool) (hint : ∀ k, interrupt k = false) :
    drill_parse_files H schema_doc files n true interrupt
      = drill_parse_files H schema_doc files n false interrupt := by
  unfold drill_parse_files
  cases drill_fields_parse schema_doc with
  | error e => rfl
  | ok fields =>
      simp only [bind, Except.bind]
      cases drill_fields_init fields n with
      | error e => rfl
      | ok out => simp only [parse_files_loop_quiet H fields interrupt hint files 0 out 0]

/-- C16, witness: the three example sources with bound 5 (both runs return
the table), and with an unparsable second source (both runs fail alike). -/
theorem drill_parse_files_quiet_witness :
    drill_parse_files demoHost exampleSchema (sourcesOf exampleSources) 5 true (fun _ => false)
        = drill_parse_files demoHost exampleSchema (sourcesOf exampleSources) 5 false
            (fun _ => false)
    ∧ drill_parse_files demoHost exampleSchema
          [⟨"part1.json", some (.obj [])⟩, ⟨"part2.json", none⟩] 5 true (fun _ => false)
        = drill_parse_files demoHost exampleSchema
          [⟨"part1.json", some (.obj [])⟩, ⟨"part2.json", none⟩] 5 false (fun _ => false) :=
  ⟨drill_parse_files_quiet demoHost exampleSchema (sourcesOf exampleSources) 5 (fun _ => false)
      (fun _ => rfl),
    drill_parse_files_quiet demoHost exampleSchema
      [⟨"part1.json", some (.obj [])⟩, ⟨"part2.json", none⟩] 5 (fun _ => false) (fun _ => rfl)⟩

/-! ## The 32-bit value space -/

/-- C19: for a base-10 integer literal (optional sign, digits) of value `v`,
with a 64-bit `long`, the result of `parse_int` equals `v` and differs from
`NA_INTEGER` exactly when `-2^31 < v < 2^31`. The value `-2^31` (`INT_MIN`) is
in the 32-bit range but is the null marker itself, so its decode is
`NA_INTEGER`. -/
theorem parse_int_value_iff (sign : Option Bool) (ds : List Char) (hne : ds ≠ [])
    (hds : ∀ c ∈ ds, isdigit c = true) :
    ((parse_int (signChars sign ++ ds) = literalValue sign ds
        ∧ parse_int (signChars sign ++ ds) ≠ NA_INTEGER)
      ↔ (-(2 ^ 31) < literalValue sign ds ∧ literalValue sign ds < 2 ^ 31))
    ∧ (literalValue sign ds = INT_MIN →
        parse_int (signChars sign ++ ds) = NA_INTEGER ∧ NA_INTEGER = INT_MIN) := by
  have e : signChars sign ++ ds = [] ++ (signChars sign ++ (ds ++ [])) := by simp
  have hr : ∀ c, ([] : List Char).head? = some c → isdigit c = false := by simp
  have hw : ∀ c ∈ ([] : List Char), isspace c = true := by simp
  have h32 := strtoRange_literal LONG_MIN LONG_MAX [] sign ds [] hw hne hds hr
  rw [← e] at h32
  revert h32
  generalize literalValue sign ds = v
  simp only [parse_int, strtol, LONG_MIN, LONG_MAX, INT_MIN, INT_MAX, NA_INTEGER]
  intro h32
  simp only [h32]
  norm_num
  constructor
  · constructor
    · intro ⟨h1, h2⟩
      split_ifs at h1 h2 <;> simp_all
      omega
    · intro ⟨h1, h2⟩
      split_ifs <;> simp_all <;> omega
  · intro hv
    subst hv
    norm_num

/-- C19, witness: `"2147483647"` decodes to itself, `"-2147483648"` and
`"2147483648"` decode to `NA_INTEGER`. -/
theorem parse_int_value_iff_witness :
    (parse_int "2147483647".data = 2147483647 ∧ parse_int "2147483647".data ≠ NA_INTEGER)
      ∧ parse_int "-2147483648".data = NA_INTEGER
      ∧ ¬ (parse_int "2147483648".data = 2147483648
          ∧ parse_int "2147483648".data ≠ NA_INTEGER) := by
  have h1 := parse_int_value_iff none ['2', '1', '4', '7', '4', '8', '3', '6', '4', '7']
    (by decide) (by decide)
  have h2 := parse_int_value_iff (some true) ['2', '1', '4', '7', '4', '8', '3', '6', '4', '8']
    (by decide) (by decide)
  have h3 := parse_int_value_iff none ['2', '1', '4', '7', '4', '8', '3', '6', '4', '8']
    (by decide) (by decide)
  refine ⟨?_, (h2.2 (by decide)).1, ?_⟩
  · have := h1.1.mpr (by decide)
    exact ⟨this.1.trans (by decide), this.2⟩
  · intro h
    have := h3.1.mp ⟨h.1.trans (by decide), h.2⟩
    revert this
    decide

/-! ## Children of a field descriptor -/

theorem vectorInit_strip (f : DrillField) (n : Int) (a : Bool) :
    f.strip.vectorInit n a = f.vectorInit n a := by
  cases f
  rfl

theorem vectorSetScalar_strip (H : Host) (f : DrillField) (x : Column) (i : Nat) (v : JSON) :
    f.strip.vectorSetScalar H x i v = f.vectorSetScalar H x i v := by
  cases f
  rfl

theorem vectorSet_strip (H : Host) (f : DrillField) (x : Column) (i : Nat) (v : JSON)
    (a : Bool) : f.strip.vectorSet H x i v a = f.vectorSet H x i v a := by
  have he : f.strip.vectorSetElem H v = f.vectorSetElem H v := by
    funext j out
    simp only [DrillField.vectorSetElem, vectorSetScalar_strip]
  simp only [DrillField.vectorSet, vectorInit_strip, vectorSetScalar_strip, he]

theorem vectorSet1_strip (H : Host) (f : DrillField) (x : Column) (i : Nat) (v : JSON) :
    f.strip.vectorSet1 H x i v = f.vectorSet1 H x i v := by
  have ha : f.strip.array_ = f.array_ := by cases f; rfl
  simp only [DrillField.vectorSet1, vectorSet_strip, ha]

theorem initCols_strip (n : Int) (fs : List DrillField) :
    initCols n (fs.map DrillField.strip) = initCols n fs := by
  induction fs with
  | nil => rfl
  | cons f fs ih =>
      have ha : f.strip.array_ = f.array_ := by cases f; rfl
      simp only [List.map_cons, initCols, DrillField.vectorInit1, vectorInit_strip, ha, ih]

theorem names_strip (fs : List DrillField) :
    (fs.map DrillField.strip).map DrillField.name = fs.map DrillField.name := by
  induction fs with
  | nil => rfl
  | cons f fs ih =>
      have hn : f.strip.name = f.name := by cases f; rfl
      simp only [List.map_cons, hn, ih]

theorem drill_fields_init_strip (n : Int) (fs : List DrillField) :
    drill_fields_init (fs.map DrillField.strip) n = drill_fields_init fs n := by
  simp only [drill_fields_init, initCols_strip, names_strip]

theorem setCell_strip (H : Host) (fs : List DrillField) (f : JSON) (row : Nat) :
    setCell H (fs.map DrillField.strip) f row = setCell H fs f row := by
  funext j out
  simp only [setCell, elemAt, List.getElem?_map]
  cases fs[j]? with
  | none => rfl
  | some fld => simp only [Option.map_some', bind, Except.bind, vectorSet1_strip]

theorem drill_fields_set_strip (H : Host) (data : JSON) (out : Table) (fs : List DrillField)
    (offset : Nat) :
    drill_fields_set H data out (fs.map DrillField.strip) offset
      = drill_fields_set H data out fs offset := by
  have hr : ∀ rows, setRow H (fs.map DrillField.strip) rows offset = setRow H fs rows offset := by
    intro rows
    funext i t
    simp only [setRow, setCell_strip, List.length_map]
  simp only [drill_fields_set, hr]

/-- The table of `drill_parse` depends on the parsed fields only through
their names, types and repeated flags. -/
theorem drill_parse_congr (H : Host) (m1 m2 : JSON) (fs1 fs2 : List DrillField) (data : JSON)
    (h1 : drill_fields_parse m1 = .ok fs1) (h2 : drill_fields_parse m2 = .ok fs2)
    (hs : fs1.map DrillField.strip = fs2.map DrillField.strip) :
    drill_parse H m1 data = drill_parse H m2 data := by
  have hi : ∀ n, drill_fields_init fs1 n = drill_fields_init fs2 n := by
    intro n
    rw [← drill_fields_init_strip n fs1, hs, drill_fields_init_strip]
  have hset : ∀ out, drill_fields_set H data out fs1 0 = drill_fields_set H data out fs2 0 := by
    intro out
    rw [← drill_fields_set_strip H data out fs1, hs, drill_fields_set_strip]
  simp only [drill_parse, h1, h2, bind, Except.bind, hi, hset]

theorem ofJSON_parts (ms : List (String × JSON)) (f : DrillField)
    (h : DrillField.ofJSON (.obj ms) = .ok f) :
    DrillField.specString "name" ms = .ok f.name ∧ DrillField.specArray ms = .ok f.array_
      ∧ (DrillField.specString "type" ms >>= parse_drill_type) = .ok f.type_ := by
  rw [DrillField.ofJSON] at h
  simp only [bind, Except.bind] at h ⊢
  cases h1 : DrillField.specString "name" ms with
  | error e => simp [h1] at h
  | ok nm =>
      cases h2 : DrillField.specArray ms with
      | error e => simp [h1, h2] at h
      | ok a =>
          cases h3 : DrillField.specString "type" ms with
          | error e => simp [h1, h2, h3] at h
          | ok s =>
              cases h4 : parse_drill_type s with
              | error e => simp [h1, h2, h3, h4] at h
              | ok ty =>
                  cases h5 : DrillField.ofMembers ms with
                  | error e => simp [h1, h2, h3, h4, h5] at h
                  | ok fs =>
                      simp [h1, h2, h3, h4, h5, pure, Except.pure] at h
                      subst h
                      simp [DrillField.name, DrillField.array_, DrillField.type_, h4]

theorem specString_congr (name : String) (ms1 ms2 : List (String × JSON))
    (h : findMember name ms1 = findMember name ms2) :
    DrillField.specString name ms1 = DrillField.specString name ms2 := by
  simp only [DrillField.specString, JSON.member, h]

theorem ofJSON_sim (e1 e2 : JSON) (f g : DrillField) (hsim : SpecSim e1 e2)
    (h1 : DrillField.ofJSON e1 = .ok f) (h2 : DrillField.ofJSON e2 = .ok g) :
    f.strip = g.strip := by
  obtain ⟨ms1, ms2, rfl, rfl, hn, hm, ht⟩ := hsim
  obtain ⟨a1, a2, a3⟩ := ofJSON_parts ms1 f h1
  obtain ⟨b1, b2, b3⟩ := ofJSON_parts ms2 g h2
  rw [specString_congr "name" ms1 ms2 hn, b1] at a1
  rw [specString_congr "type" ms1 ms2 ht, b3] at a3
  have a2' : DrillField.specArray ms2 = .ok f.array_ := by
    simpa [DrillField.specArray, hm] using a2
  rw [b2] at a2'
  simp only [Except.ok.injEq] at a1 a2' a3
  simp only [DrillField.strip, a1, a2', a3]

theorem ofList_sim (specs1 specs2 : List JSON) (hsim : List.Forall₂ SpecSim specs1 specs2) :
    ∀ (fs1 fs2 : List DrillField), DrillField.ofList specs1 = .ok fs1 →
      DrillField.ofList specs2 = .ok fs2 →
      fs1.map DrillField.strip = fs2.map DrillField.strip := by
  induction hsim with
  | nil =>
      intro fs1 fs2 h1 h2
      simp only [DrillField.ofList, Except.ok.injEq] at h1 h2
      subst h1 h2
      rfl
  | @cons e1 e2 r1 r2 hd _ ih =>
      intro fs1 fs2 h1 h2
      rw [DrillField.ofList] at h1 h2
      simp only [bind, Except.bind] at h1 h2
      cases c1 : DrillField.ofJSON e1 with
      | error e => simp [c1] at h1
      | ok f =>
          cases c2 : DrillField.ofJSON e2 with
          | error e => simp [c2] at h2
          | ok g =>
              cases d1 : DrillField.ofList r1 with
              | error e => simp [c1, d1] at h1
              | ok t1 =>
                  cases d2 : DrillField.ofList r2 with
                  | error e => simp [c2, d2] at h2
                  | ok t2 =>
                      simp [c1, d1, pure, Except.pure] at h1
                      simp [c2, d2, pure, Except.pure] at h2
                      subst h1 h2
                      simp only [List.map_cons, ofJSON_sim e1 e2 f g hd c1 c2, ih t1 t2 d1 d2]

theorem drill_fields_parse_arr (m : JSON) (specs : List JSON) (fs : List DrillField)
    (hm : ((m.member "schema") >>= fun s => s.member "fields") = .ok (.arr specs))
    (h : drill_fields_parse m = .ok fs) : DrillField.ofList specs = .ok fs := by
  unfold drill_fields_parse at h
  cases h1 : m.member "schema" with
  | error e1 => simp [h1, bind, Except.bind] at hm
  | ok s =>
      simp only [h1, bind, Except.bind] at hm h
      simp only [hm] at h
      exact h

/-- C17: the tabular decoder reads the name, the type and the repeated flag
of a field and never its children: for two valid schemas whose field specs
agree pairwise in `name`, `mode` and `type`, whatever their nested `fields`,
`drill_parse` gives the same outcome on every data document, the same table
or the same error. -/
theorem drill_parse_ignores_children (H : Host) (m1 m2 : JSON) (fs1 fs2 : List DrillField)
    (hsim : SchemaSim m1 m2) (h1 : drill_fields_parse m1 = .ok fs1)
    (h2 : drill_fields_parse m2 = .ok fs2) (data : JSON) :
    drill_parse H m1 data = drill_parse H m2 data := by
  obtain ⟨specs1, specs2, e1, e2, hall⟩ := hsim
  have l1 := drill_fields_parse_arr m1 specs1 fs1 e1 h1
  have l2 := drill_fields_parse_arr m2 specs2 fs2 e2 h2
  exact drill_parse_congr H m1 m2 fs1 fs2 data h1 h2 (ofList_sim specs1 specs2 hall fs1 fs2 l1 l2)

/-- C17, witness: the example schema with and without children, on the third
example source. -/
theorem drill_parse_ignores_children_witness :
    drill_fields_parse exampleSchema = .ok exampleFields
      ∧ drill_fields_parse exampleSchemaNested = .ok exampleFieldsNested
      ∧ drill_parse demoHost exampleSchema
          (.obj [("rows", .arr [exampleRow "3" ["y", "z"], exampleRow "4" []])])
        = drill_parse demoHost exampleSchemaNested
          (.obj [("rows", .arr [exampleRow "3" ["y", "z"], exampleRow "4" []])]) :=
  ⟨rfl, rfl,
    drill_parse_ignores_children demoHost exampleSchema exampleSchemaNested exampleFields
      exampleFieldsNested
      ⟨_, _, rfl, rfl,
        List.Forall₂.cons ⟨_, _, rfl, rfl, rfl, rfl, rfl⟩
          (List.Forall₂.cons ⟨_, _, rfl, rfl, rfl, rfl, rfl⟩ List.Forall₂.nil)⟩
      rfl rfl _⟩

/-! ## The single-document entry point -/

theorem forLoop_preserves {σ : Type} (body : Nat → σ → Except Err σ) (Q : σ → Prop)
    (hbody : ∀ k s s1, body k s = .ok s1 → Q s → Q s1) :
    ∀ (n : Nat) (s s1 : σ), forLoop body n s = .ok s1 → Q s → Q s1 := by
  intro n
  induction n with
  | zero =>
      intro s s1 h hq
      simp only [forLoop, Except.ok.injEq] at h
      subst h
      exact hq
  | succ m ih =>
      intro s s1 h hq
      simp only [forLoop, bind, Except.bind] at h
      cases hm : forLoop body m s with
      | error e => simp [hm] at h
      | ok s2 =>
          simp only [hm] at h
          exact hbody m s2 s1 h (ih s s2 hm hq)

theorem setCell_meta (H : Host) (fields : List DrillField) (f : JSON) (row j : Nat)
    (out out1 : Table) (h : setCell H fields f row j out = .ok out1) :
    out1.names = out.names ∧ out1.nrow = out.nrow := by
  simp only [setCell, bind, Except.bind] at h
  cases h1 : elemAt fields j with
  | error e => simp [h1] at h
  | ok fld =>
      cases h2 : elemAt out.cols j with
      | error e => simp [h1, h2] at h
      | ok col =>
          cases h3 : f.index j with
          | error e => simp [h1, h2, h3] at h
          | ok e =>
              cases h4 : e.member "v" with
              | error e => simp [h1, h2, h3, h4] at h
              | ok v =>
                  cases h5 : fld.vectorSet1 H col row v with
                  | error e => simp [h1, h2, h3, h4, h5] at h
                  | ok c =>
                      simp [h1, h2, h3, h4, h5, pure, Except.pure] at h
                      subst h
                      exact ⟨rfl, rfl⟩

theorem setRow_meta (H : Host) (fields : List DrillField) (rows : JSON) (offset i : Nat)
    (out out1 : Table) (h : setRow H fields rows offset i out = .ok out1) :
    out1.names = out.names ∧ out1.nrow = out.nrow := by
  simp only [setRow, bind, Except.bind] at h
  cases h1 : rows.index i with
  | error e => simp [h1] at h
  | ok r =>
      cases h2 : r.member "f" with
      | error e => simp [h1, h2] at h
      | ok f =>
          simp only [h1, h2] at h
          exact forLoop_preserves (setCell H fields f (i + offset))
            (fun t => t.names = out.names ∧ t.nrow = out.nrow)
            (fun k s s1 hs hq => by
              obtain ⟨a, b⟩ := setCell_meta H fields f (i + offset) k s s1 hs
              exact ⟨a.trans hq.1, b.trans hq.2⟩)
            fields.length out out1 h ⟨rfl, rfl⟩

/-- The writes of `drill_fields_set` leave the names and the row count of the
table as they are. -/
theorem drill_fields_set_meta (H : Host) (data : JSON) (out : Table) (fields : List DrillField)
    (offset : Nat) (r : Table × Nat) (h : drill_fields_set H data out fields offset = .ok r) :
    r.1.names = out.names ∧ r.1.nrow = out.nrow := by
  simp only [drill_fields_set, bind, Except.bind] at h
  cases h1 : data.HasMember "rows" with
  | error e => simp [h1] at h
  | ok has =>
      cases has with
      | false =>
          simp [h1, pure, Except.pure] at h
          subst h
          exact ⟨rfl, rfl⟩
      | true =>
          cases h2 : data.member "rows" with
          | error e => simp [h1, h2] at h
          | ok rows =>
              cases h3 : rows.Size with
              | error e => simp [h1, h2, h3] at h
              | ok n =>
                  cases h4 : forLoop (setRow H fields rows offset) n out with
                  | error e => simp [h1, h2, h3, h4] at h
                  | ok t =>
                      simp [h1, h2, h3, h4, pure, Except.pure] at h
                      subst h
                      exact forLoop_preserves (setRow H fields rows offset)
                        (fun t => t.names = out.names ∧ t.nrow = out.nrow)
                        (fun k s s1 hs hq => by
                          obtain ⟨a, b⟩ := setRow_meta H fields rows offset k s s1 hs
                          exact ⟨a.trans hq.1, b.trans hq.2⟩)
                        n out t h4 ⟨rfl, rfl⟩

theorem drill_parse_wf_unfold (H : Host) (m : JSON) (fields : List DrillField) (d : JSON)
    (hs : drill_fields_parse m = .ok fields) (hwf : wfDoc fields d = true) :
    drill_parse H m d
      = (drill_fields_init fields (rowCount d) >>= fun out =>
          drill_fields_set H d out fields 0 >>= fun r => pure r.1) := by
  cases d with
  | obj ms =>
      simp only [wfDoc] at hwf
      cases hm : findMember "rows" ms with
      | none =>
          simp [drill_parse, hs, rowCount, JSON.HasMember, JSON.member, hm, bind, Except.bind,
            pure, Except.pure]
      | some r =>
          rw [hm] at hwf
          cases r with
          | arr rows =>
              simp [drill_parse, hs, rowCount, JSON.HasMember, JSON.member, hm, JSON.Size, bind,
                Except.bind, pure, Except.pure]
          | null => simp at hwf
          | bool b => simp at hwf
          | num q => simp at hwf
          | str s => simp at hwf
          | obj ms1 => simp at hwf
  | null => simp [wfDoc] at hwf
  | bool b => simp [wfDoc] at hwf
  | num q => simp [wfDoc] at hwf
  | str s => simp [wfDoc] at hwf
  | arr es => simp [wfDoc] at hwf

/-- On a valid schema and a well-formed document, `drill_parse` returns the
table that `drill_fields_set` fills from the one that `drill_fields_init`
allocates with the row count of the document. -/
theorem drill_parse_ok (H : Host) (m : JSON) (fields : List DrillField) (d : JSON)
    (hs : drill_fields_parse m = .ok fields) (hwf : wfDoc fields d = true) :
    ∃ out0 tbl, drill_fields_init fields (rowCount d) = .ok out0
      ∧ drill_fields_set H d out0 fields 0 = .ok (tbl, rowCount d)
      ∧ drill_parse H m d = .ok tbl
      ∧ TableOK fields tbl (rowCount d)
      ∧ tbl.names = fields.map DrillField.name ∧ tbl.nrow = rowCount d
      ∧ (∀ (i j : Nat) (fld : DrillField) (v : JSON), fields[j]? = some fld →
          cellValue d i j = .ok v →
          ∃ c, tbl.slot j i = some c ∧ fld.decode H v fld.array_ = .ok c) := by
  obtain ⟨cols, hc1, hc2, hc3⟩ := initCols_ok fields (rowCount d)
  have hok : TableOK fields ⟨cols, fields.map DrillField.name, (rowCount d : Int)⟩ (rowCount d) :=
    ⟨hc2, hc3⟩
  obtain ⟨tbl, hset, hok1, hrows, _⟩ :=
    drill_fields_set_ok H fields d _ 0 (rowCount d) hok hwf (by omega)
  have hmeta := drill_fields_set_meta H d _ fields 0 _ hset
  have hinit : drill_fields_init fields (rowCount d)
      = .ok ⟨cols, fields.map DrillField.name, (rowCount d : Int)⟩ := by
    simp [drill_fields_init, hc1, bind, Except.bind, pure, Except.pure]
  refine ⟨_, tbl, hinit, hset, ?_, hok1, hmeta.1, hmeta.2, ?_⟩
  · rw [drill_parse_wf_unfold H m fields d hs hwf]
    simp only [hinit, hset, bind, Except.bind, pure, Except.pure]
  · intro i j fld v hf hc
    have := hrows i j fld v hf hc
    simpa using this

theorem ofJSON_name (e : JSON) (f : DrillField) (h : DrillField.ofJSON e = .ok f) :
    ∃ s, e.member "name" = .ok (.str s) ∧ f.name = textOf s := by
  cases e with
  | obj ms =>
      obtain ⟨h1, _, _⟩ := ofJSON_parts ms f h
      simp only [DrillField.specString, bind, Except.bind] at h1
      cases hm : (JSON.obj ms).member "name" with
      | error e => simp [hm] at h1
      | ok v =>
          simp only [hm] at h1
          cases v with
          | str s =>
              simp only [JSON.GetString, Except.ok.injEq] at h1
              exact ⟨s, rfl, by rw [textOf_eq, h1]⟩
          | null => simp [JSON.GetString] at h1
          | bool b => simp [JSON.GetString] at h1
          | num q => simp [JSON.GetString] at h1
          | arr es => simp [JSON.GetString] at h1
          | obj ms1 => simp [JSON.GetString] at h1
  | null => simp [DrillField.ofJSON] at h
  | bool b => simp [DrillField.ofJSON] at h
  | num q => simp [DrillField.ofJSON] at h
  | str s => simp [DrillField.ofJSON] at h
  | arr es => simp [DrillField.ofJSON] at h

theorem ofList_names (specs : List JSON) :
    ∀ fs : List DrillField, DrillField.ofList specs = .ok fs →
      List.Forall₂ (fun e f => ∃ s, e.member "name" = Except.ok (JSON.str s)
        ∧ DrillField.name f = textOf s) specs fs := by
  induction specs with
  | nil =>
      intro fs h
      simp only [DrillField.ofList, Except.ok.injEq] at h
      subst h
      exact List.Forall₂.nil
  | cons e es ih =>
      intro fs h
      rw [DrillField.ofList] at h
      simp only [bind, Except.bind] at h
      cases c1 : DrillField.ofJSON e with
      | error err => simp [c1] at h
      | ok f =>
          cases d1 : DrillField.ofList es with
          | error err => simp [c1, d1] at h
          | ok t1 =>
              simp [c1, d1, pure, Except.pure] at h
              subst h
              exact List.Forall₂.cons (ofJSON_name e f c1) (ih t1 d1)

theorem textOf_no_nul (s : String) (h : '\x00' ∉ s.data) : textOf s = s := by
  rw [textOf_eq, std_string_no_nul s h]

/-- Column names read as C strings are the names of the field specs when
these hold no NUL. -/
theorem names_no_nul (specs : List JSON) (ns : List String)
    (h : List.Forall₂ (fun spec nm => ∃ s, JSON.member spec "name" = Except.ok (JSON.str s)
      ∧ nm = textOf s) specs ns) :
    ∀ names : List String,
      List.Forall₂ (fun spec nm => JSON.member spec "name" = Except.ok (JSON.str nm)) specs names →
      (∀ nm ∈ names, '\x00' ∉ nm.data) → ns = names := by
  induction h with
  | nil =>
      intro names h2 _
      cases h2
      rfl
  | @cons spec nm specs1 ns1 hd _ ih =>
      intro names h2 hno
      cases h2 with
      | @cons _ nm2 _ names1 hd2 tl2 =>
          obtain ⟨s, hs, hnm⟩ := hd
          rw [hs] at hd2
          simp only [Except.ok.injEq, JSON.str.injEq] at hd2
          subst hd2
          rw [hnm, textOf_no_nul s (hno s (List.mem_cons_self _ _)),
            ih names1 tl2 (fun n hn => hno n (List.mem_cons_of_mem _ hn))]

/-- C14, as the code has it: for a valid schema with `p` top-level field
specs and a well-formed data document with `r` rows (`r = 0` without a member
`rows`), `drill_parse` returns a table with exactly `p` columns, each column
of the storage type of its field (a list for a repeated field) and of exactly
`r` slots; the row count recorded in the table is `r`. The names of the
columns are, in schema order, the texts of the `name` members of the field
specs, a name being read as a C string, up to its first NUL; when no name
holds a NUL the column names are the names of the field specs themselves. -/
theorem drill_parse_shape (H : Host) (m : JSON) (specs : List JSON) (fields : List DrillField)
    (d : JSON)
    (hm : ((m.member "schema") >>= fun s => s.member "fields") = .ok (.arr specs))
    (hs : drill_fields_parse m = .ok fields) (hwf : wfDoc fields d = true) :
    ∃ tbl, drill_parse H m d = .ok tbl
      ∧ tbl.cols.length = specs.length
      ∧ List.Forall₂ (fun spec nm => ∃ s, spec.member "name" = Except.ok (JSON.str s)
          ∧ nm = textOf s) specs tbl.names
      ∧ (∀ names : List String,
          List.Forall₂ (fun spec nm => spec.member "name" = Except.ok (JSON.str nm)) specs names →
          (∀ nm ∈ names, '\x00' ∉ nm.data) → tbl.names = names)
      ∧ TableOK fields tbl (rowCount d)
      ∧ (∀ c ∈ tbl.cols, c.cells.length = rowCount d)
      ∧ tbl.nrow = rowCount d := by
  obtain ⟨out0, tbl, _, _, hp, hok, hnames, hnrow, _⟩ := drill_parse_ok H m fields d hs hwf
  have hl := drill_fields_parse_arr m specs fields hm hs
  have hf2 := ofList_names specs fields hl
  have hn : List.Forall₂ (fun spec nm => ∃ s, JSON.member spec "name" = Except.ok (JSON.str s)
      ∧ nm = textOf s) specs tbl.names := by
    rw [hnames]
    exact List.forall₂_map_right_iff.mpr hf2
  refine ⟨tbl, hp, ?_, hn, names_no_nul specs tbl.names hn, hok, ?_, hnrow⟩
  · rw [hok.1, hf2.length_eq]
  · intro c hc
    obtain ⟨j, hj, hjc⟩ := List.getElem_of_mem hc
    have hjf : j < fields.length := by rw [← hok.1]; exact hj
    have h1 : tbl.cols[j]? = some c := by rw [List.getElem?_eq_getElem hj, hjc]
    exact (hok.2 j (fields[j]) c (List.getElem?_eq_getElem hjf) h1).2

/-- C14, witness: the example schema and the third example source give two
columns `a`, `b` of three rows. -/
theorem drill_parse_shape_witness :
    ∃ tbl, drill_parse demoHost exampleSchema (.obj [("rows", .arr [exampleRow "3" ["y", "z"],
          exampleRow "4" [], exampleRow "5" ["w"]])]) = .ok tbl
      ∧ tbl.cols.length = 2
      ∧ tbl.names = ["a", "b"]
      ∧ (∀ c ∈ tbl.cols, c.cells.length = 3)
      ∧ tbl.nrow = 3 := by
  obtain ⟨tbl, h1, h2, _, h4, _, h5, h6⟩ := drill_parse_shape demoHost exampleSchema
    [.obj [("name", .str "a"), ("type", .str "INT")],
     .obj [("name", .str "b"), ("type", .str "STRING"), ("mode", .str "REPEATED")]]
    exampleFields (.obj [("rows", .arr [exampleRow "3" ["y", "z"],
          exampleRow "4" [], exampleRow "5" ["w"]])]) rfl rfl (by decide)
  exact ⟨tbl, h1, h2,
    h4 ["a", "b"] (List.Forall₂.cons rfl (List.Forall₂.cons rfl List.Forall₂.nil)) (by decide),
    h5, h6⟩

/-- C14, counterexample: for the one-field schema whose field is named `a`,
NUL, `b`, the column that `drill_parse` returns is named `a`, which is not
the name of the field spec. -/
theorem drill_parse_nul_name_counterexample :
    drill_parse demoHost (.obj [("schema", .obj [("fields", .arr [
        .obj [("name", .str "a\x00b"), ("type", .str "INT")]])])])
        (.obj [("rows", .arr [.obj [("f", .arr [.obj [("v", .str "7")]])]])])
      = .ok ⟨[⟨.INTSXP, .plain, [.int 7]⟩], ["a"], 1⟩
    ∧ ¬ List.Forall₂ (fun spec nm => JSON.member spec "name" = Except.ok (JSON.str nm))
        [.obj [("name", .str "a\x00b"), ("type", .str "INT")]] ["a"] := by
  refine ⟨rfl, ?_⟩
  intro h
  cases h with
  | cons hd _ =>
      simp only [JSON.member, findMember, if_true, Except.ok.injEq, JSON.str.injEq] at hd
      revert hd
      decide

/-- C20: for a valid schema and a well-formed row-batch document `d` of `r`
rows, `drill_parse` returns a table, and `drill_parse_files` on the one-source
list `[d]` with bound `n = r` returns that same table, with `quiet = false` and
with `quiet = true` alike (no interrupt being pending at the poll of the
quiet run). -/
theorem drill_parse_agrees_with_files (H : Host) (m : JSON) (fields : List DrillField) (d : JSON)
    (path : String) (quiet : Bool) (interrupt : Nat → Bool)
    (hs : drill_fields_parse m = .ok fields) (hwf : wfDoc fields d = true)
    (hint : quiet = false ∨ interrupt 0 = false) :
    ∃ tbl, drill_parse H m d = .ok tbl
      ∧ drill_parse_files H m [⟨path, some d⟩] (rowCount d) quiet interrupt = .ok tbl := by
  obtain ⟨out0, tbl, hinit, hset, hp, _⟩ := drill_parse_ok H m fields d hs hwf
  have hq : (quiet && interrupt 0) = false := by
    rcases hint with h | h
    · simp [h]
    · simp [h]
  refine ⟨tbl, hp, ?_⟩
  simp only [drill_parse_files, hs, hinit, parse_files_loop, hset, hq, bind, Except.bind, pure,
    Except.pure, Bool.false_eq_true, if_false]

/-- C20, witness: the third example source, decoded by both entry points,
quiet and not. -/
theorem drill_parse_agrees_with_files_witness :
    (∃ tbl, drill_parse demoHost exampleSchema (.obj [("rows", .arr [exampleRow "3" ["y", "z"],
          exampleRow "4" [], exampleRow "5" ["w"]])]) = .ok tbl
      ∧ drill_parse_files demoHost exampleSchema [⟨"part3.json", some (.obj [("rows",
          .arr [exampleRow "3" ["y", "z"], exampleRow "4" [], exampleRow "5" ["w"]])])⟩]
          (rowCount (.obj [("rows", .arr [exampleRow "3" ["y", "z"], exampleRow "4" [],
            exampleRow "5" ["w"]])])) true (fun _ => false) = .ok tbl)
    ∧ (∃ tbl, drill_parse demoHost exampleSchema (.obj [("rows", .arr [exampleRow "3" ["y", "z"],
          exampleRow "4" [], exampleRow "5" ["w"]])]) = .ok tbl
      ∧ drill_parse_files demoHost exampleSchema [⟨"part3.json", some (.obj [("rows",
          .arr [exampleRow "3" ["y", "z"], exampleRow "4" [], exampleRow "5" ["w"]])])⟩]
          (rowCount (.obj [("rows", .arr [exampleRow "3" ["y", "z"], exampleRow "4" [],
            exampleRow "5" ["w"]])])) false (fun _ => true) = .ok tbl) :=
  ⟨drill_parse_agrees_with_files demoHost exampleSchema exampleFields _ "part3.json" true
      (fun _ => false) rfl (by decide) (Or.inr rfl),
    drill_parse_agrees_with_files demoHost exampleSchema exampleFields _ "part3.json" false
      (fun _ => true) rfl (by decide) (Or.inl rfl)⟩

/-! ## Row indices -/

theorem store_in_range (x : Column) (ok : List SexpType) (i : Nat) (c : Cell) (x1 : Column)
    (h : x.store ok i c = .ok x1) : i < x.cells.length ∧ x1.cells.length = x.cells.length := by
  unfold Column.store at h
  split_ifs at h with h1 h2
  simp only [Except.ok.injEq] at h
  subst h
  exact ⟨h2, by simp⟩

theorem parse_files_loop_meta (H : Host) (fields : List DrillField) (quiet : Bool)
    (interrupt : Nat → Bool) (files : List Source) :
    ∀ (k : Nat) (out : Table) (offset : Nat) (r : Table × Nat),
      parse_files_loop H fields quiet interrupt files k out offset = .ok r →
      r.1.names = out.names ∧ r.1.nrow = out.nrow := by
  induction files with
  | nil =>
      intro k out offset r h
      simp only [parse_files_loop, Except.ok.injEq] at h
      subst h
      exact ⟨rfl, rfl⟩
  | cons src rest ih =>
      intro k out offset r h
      simp only [parse_files_loop] at h
      cases hd : src.doc with
      | none => simp [hd] at h
      | some d =>
          simp only [hd, bind, Except.bind] at h
          cases hset : drill_fields_set H d out fields offset with
          | error e => simp [hset] at h
          | ok r1 =>
              simp only [hset] at h
              split_ifs at h
              obtain ⟨a, b⟩ := ih (k + 1) r1.1 (offset + r1.2) r h
              obtain ⟨a1, b1⟩ := drill_fields_set_meta H d out fields offset r1 hset
              exact ⟨a.trans a1, b.trans b1⟩

/-- C18: with well-formed sources and a bound `n` at least their total row
count (and no interrupt seen), the loop of `drill_parse_files` ends with the
offset equal to the total row count; the table it returns has `n` slots in
every column and records `n` rows; every row index `offset + i` that
`drill_fields_set` is given lies below `n`; and the slots from the total up
to `n` are as `drill_fields_init` allocated them. A write through an R
accessor succeeds only at an index below the length of the column and leaves
that length unchanged. -/
theorem drill_parse_files_bounds (H : Host) (schema_doc : JSON) (fields : List DrillField)
    (srcs : List (String × JSON)) (n : Int) (quiet : Bool) (interrupt : Nat → Bool)
    (hs : drill_fields_parse schema_doc = .ok fields)
    (hwf : ∀ s ∈ srcs, wfDoc fields s.2 = true) (hn : (totalRows srcs : Int) ≤ n)
    (hint : quiet = false ∨ ∀ k, interrupt k = false) :
    ∃ out0 tbl, drill_fields_init fields n = .ok out0
      ∧ parse_files_loop H fields quiet interrupt (sourcesOf srcs) 0 out0 0
          = .ok (tbl, totalRows srcs)
      ∧ drill_parse_files H schema_doc (sourcesOf srcs) n quiet interrupt = .ok tbl
      ∧ TableOK fields tbl n.toNat
      ∧ (∀ c ∈ tbl.cols, (c.cells.length : Int) = n)
      ∧ tbl.nrow = n
      ∧ (∀ (m i : Nat) (s : String × JSON), srcs[m]? = some s → i < rowCount s.2 →
          ((totalRows (srcs.take m) + i : Nat) : Int) < n)
      ∧ (∀ j idx, totalRows srcs ≤ idx → tbl.slot j idx = out0.slot j idx)
      ∧ (∀ (x : Column) (ok : List SexpType) (i : Nat) (c : Cell) (x1 : Column),
          x.store ok i c = .ok x1 → i < x.cells.length ∧ x1.cells.length = x.cells.length) := by
  have hn0 : ((n.toNat : Nat) : Int) = n := Int.toNat_of_nonneg (by omega)
  obtain ⟨cols, hc1, hc2, hc3⟩ := initCols_ok fields n.toNat
  rw [hn0] at hc1
  have hok : TableOK fields ⟨cols, fields.map DrillField.name, n⟩ n.toNat := ⟨hc2, hc3⟩
  obtain ⟨tbl, hloop, hok1, hkeep, _⟩ :=
    parse_files_loop_ok H fields quiet interrupt hint n.toNat srcs 0 _ 0 hok hwf (by omega)
  have hinit : drill_fields_init fields n = .ok ⟨cols, fields.map DrillField.name, n⟩ := by
    simp [drill_fields_init, hc1, bind, Except.bind, pure, Except.pure]
  have hmeta := parse_files_loop_meta H fields quiet interrupt (sourcesOf srcs) 0 _ 0 _ hloop
  simp only [Nat.zero_add] at hloop hkeep
  refine ⟨_, tbl, hinit, hloop, ?_, hok1, ?_, hmeta.2, ?_, ?_, store_in_range⟩
  · simp [drill_parse_files, hs, hinit, hloop, bind, Except.bind, pure, Except.pure]
  · intro c hc
    obtain ⟨j, hj, hjc⟩ := List.getElem_of_mem hc
    have hjf : j < fields.length := by rw [← hok1.1]; exact hj
    have h1 : tbl.cols[j]? = some c := by rw [List.getElem?_eq_getElem hj, hjc]
    rw [(hok1.2 j (fields[j]) c (List.getElem?_eq_getElem hjf) h1).2, hn0]
  · intro m i s hm hi
    have hle : totalRows (srcs.take m) + rowCount s.2 ≤ totalRows srcs := by
      have hsplit : srcs = srcs.take m ++ s :: srcs.drop (m + 1) := by
        have hm1 : m < srcs.length := by
          by_contra hcon
          rw [List.getElem?_eq_none (by omega)] at hm
          cases hm
        have hget : srcs[m] = s := by
          rw [List.getElem?_eq_getElem hm1] at hm
          exact Option.some.inj hm
        rw [← hget]
        simp
      have : totalRows srcs = totalRows (srcs.take m) + (rowCount s.2
          + totalRows (srcs.drop (m + 1))) := by
        conv_lhs => rw [hsplit]
        simp [totalRows]
      omega
    omega
  · intro j idx hidx
    exact hkeep j idx (Or.inr hidx)

/-- C18, witness: the three example sources (5 rows) with bound 7 leave
slots 5 and 6 as allocated; with bound 4, below the total, the write of the
fifth row is out of range. -/
theorem drill_parse_files_bounds_witness :
    (∃ out0 tbl, drill_fields_init exampleFields 7 = .ok out0
      ∧ parse_files_loop demoHost exampleFields true (fun _ => false) (sourcesOf exampleSources)
          0 out0 0 = .ok (tbl, totalRows exampleSources)
      ∧ drill_parse_files demoHost exampleSchema (sourcesOf exampleSources) 7 true
          (fun _ => false) = .ok tbl
      ∧ TableOK exampleFields tbl 7
      ∧ (∀ c ∈ tbl.cols, (c.cells.length : Int) = 7)
      ∧ tbl.nrow = 7
      ∧ (∀ (m i : Nat) (s : String × JSON), exampleSources[m]? = some s → i < rowCount s.2 →
          ((totalRows (exampleSources.take m) + i : Nat) : Int) < 7)
      ∧ (∀ j idx, totalRows exampleSources ≤ idx → tbl.slot j idx = out0.slot j idx)
      ∧ (∀ (x : Column) (ok : List SexpType) (i : Nat) (c : Cell) (x1 : Column),
          x.store ok i c = .ok x1 → i < x.cells.length ∧ x1.cells.length = x.cells.length))
    ∧ totalRows exampleSources = 5
    ∧ (drill_parse_files demoHost exampleSchema (sourcesOf exampleSources) 7 true
          (fun _ => false)).map (fun t => t.cols.map Column.cells)
        = .ok [[.int 1, .int 2, .int 3, .int 4, .int 5, .int 0, .int 0],
            [.vec .STRSXP .plain [.chr (some "x")], .vec .STRSXP .plain [],
             .vec .STRSXP .plain [.chr (some "y"), .chr (some "z")], .vec .STRSXP .plain [],
             .vec .STRSXP .plain [.chr (some "w")], .nil, .nil]]
    ∧ drill_parse_files demoHost exampleSchema (sourcesOf exampleSources) 4 true
          (fun _ => false) = .error (.assertion "index out of bounds") :=
  ⟨drill_parse_files_bounds demoHost exampleSchema exampleFields exampleSources 7 true
      (fun _ => false) rfl (by decide) (by decide) (Or.inr fun _ => rfl),
    rfl, rfl, rfl⟩

/-! ## Cancellation -/

/-- The recorded run and `parse_files_loop` are the same computation. -/
theorem parse_files_run_result (H : Host) (fields : List DrillField) (quiet : Bool)
    (interrupt : Nat → Bool) (files : List Source) :
    ∀ (k : Nat) (out : Table) (offset : Nat),
      parse_files_loop H fields quiet interrupt files k out offset
        = (parse_files_run H fields quiet interrupt files k out offset).result := by
  induction files with
  | nil => intro k out offset; rfl
  | cons src rest ih =>
      intro k out offset
      simp only [parse_files_loop, parse_files_run]
      cases src.doc with
      | none => rfl
      | some d =>
          simp only [bind, Except.bind]
          cases drill_fields_set H d out fields offset with
          | error e => rfl
          | ok r =>
              cases quiet with
              | false =>
                  simp only [Bool.false_and, Bool.false_eq_true, if_false, ih]
                  rfl
              | true =>
                  cases hk : interrupt k with
                  | false =>
                      simp only [Bool.true_and, Bool.false_eq_true, if_false, if_true, ih]
                      rfl
                  | true =>
                      simp only [Bool.true_and, if_true]
                      rfl

/-- The events of a run over well-formed sources that fit below row `N`. -/
theorem parse_files_run_trace (H : Host) (fields : List DrillField) (interrupt : Nat → Bool)
    (N : Nat) (srcs : List (String × JSON)) :
    ∀ (k : Nat) (out : Table) (offset : Nat), TableOK fields out N →
      (∀ s ∈ srcs, wfDoc fields s.2 = true) → offset + totalRows srcs ≤ N →
      (parse_files_run H fields true interrupt (sourcesOf srcs) k out offset).trace
          = quietTrace interrupt (srcs.map fun s => rowCount s.2) k
        ∧ (parse_files_run H fields false interrupt (sourcesOf srcs) k out offset).trace
          = loudTrace (srcs.map fun s => rowCount s.2) k := by
  induction srcs with
  | nil => intro k out offset _ _ _; exact ⟨rfl, rfl⟩
  | cons s0 rest ih =>
      intro k out offset hok hwf hN
      have htot : totalRows (s0 :: rest) = rowCount s0.2 + totalRows rest := by
        simp [totalRows]
      rw [htot] at hN
      obtain ⟨out1, hset, hok1, _, _⟩ :=
        drill_fields_set_ok H fields s0.2 out offset N hok (hwf s0 (List.mem_cons_self _ _))
          (by omega)
      obtain ⟨ih1, ih2⟩ := ih (k + 1) out1 (offset + rowCount s0.2) hok1
        (fun s hs => hwf s (List.mem_cons_of_mem _ hs)) (by omega)
      simp only [sourcesOf] at ih1 ih2
      constructor
      · simp only [sourcesOf, List.map_cons, parse_files_run, hset, quietTrace, if_true]
        cases hk : interrupt k with
        | true => simp
        | false => simp [ih1]
      · simp only [sourcesOf, List.map_cons, parse_files_run, hset, loudTrace,
          Bool.false_eq_true, if_false, ih2]

theorem loudTrace_no_poll (cs : List Nat) : ∀ k, ∀ e ∈ loudTrace cs k, e.isPoll = false := by
  induction cs with
  | nil => intro k e he; simp [loudTrace] at he
  | cons c cs ih =>
      intro k e he
      simp only [loudTrace, List.cons_append, List.nil_append, List.mem_cons] at he
      rcases he with h | h | h | h
      · subst h; rfl
      · subst h; rfl
      · subst h; rfl
      · exact ih (k + 1) e h

/-- C15, as the code has it: over well-formed sources within the bound `n`,
a quiet run (`quiet = true`) polls the interrupt signal exactly once per
processed source, after the rows of that source are decoded and before the
next source is opened, and stops at the first poll that sees an interrupt;
so when the interrupt is pending at the first poll, the run ends `interrupted`
with the rows of source 1 in the table, the offset at its row count, and
every later row as allocated, no later source being opened. A run with the
progress bar (`quiet = false`) ticks instead and never polls. In both cases
`drill_parse_files` is the recorded run. -/
theorem drill_parse_files_polls (H : Host) (schema_doc : JSON) (fields : List DrillField)
    (srcs : List (String × JSON)) (n : Int) (interrupt : Nat → Bool)
    (hs : drill_fields_parse schema_doc = .ok fields)
    (hwf : ∀ s ∈ srcs, wfDoc fields s.2 = true) (hn : (totalRows srcs : Int) ≤ n) :
    ∃ out0, drill_fields_init fields n = .ok out0
      ∧ (∀ quiet, drill_parse_files H schema_doc (sourcesOf srcs) n quiet interrupt
          = (parse_files_run H fields quiet interrupt (sourcesOf srcs) 0 out0 0).result.map
              Prod.fst)
      ∧ (parse_files_run H fields true interrupt (sourcesOf srcs) 0 out0 0).trace
          = quietTrace interrupt (srcs.map fun s => rowCount s.2) 0
      ∧ (parse_files_run H fields false interrupt (sourcesOf srcs) 0 out0 0).trace
          = loudTrace (srcs.map fun s => rowCount s.2) 0
      ∧ (∀ e ∈ (parse_files_run H fields false interrupt (sourcesOf srcs) 0 out0 0).trace,
          e.isPoll = false)
      ∧ (∀ (s1 : String × JSON) (rest : List (String × JSON)), srcs = s1 :: rest →
          interrupt 0 = true →
          ∃ run, parse_files_run H fields true interrupt (sourcesOf srcs) 0 out0 0 = run
            ∧ run.outcome = some .interrupted
            ∧ run.trace = [.opened 0, .decoded 0 (rowCount s1.2), .poll 0]
            ∧ run.offset = rowCount s1.2
            ∧ (∀ (i j : Nat) (fld : DrillField) (v : JSON), fields[j]? = some fld →
                cellValue s1.2 i j = .ok v →
                ∃ c, run.out.slot j i = some c ∧ fld.decode H v fld.array_ = .ok c)
            ∧ (∀ j idx, rowCount s1.2 ≤ idx → run.out.slot j idx = out0.slot j idx)
            ∧ drill_parse_files H schema_doc (sourcesOf srcs) n true interrupt
                = .error .interrupted) := by
  have hn0 : ((n.toNat : Nat) : Int) = n := Int.toNat_of_nonneg (by omega)
  obtain ⟨cols, hc1, hc2, hc3⟩ := initCols_ok fields n.toNat
  rw [hn0] at hc1
  have hok : TableOK fields ⟨cols, fields.map DrillField.name, n⟩ n.toNat := ⟨hc2, hc3⟩
  have hinit : drill_fields_init fields n = .ok ⟨cols, fields.map DrillField.name, n⟩ := by
    simp [drill_fields_init, hc1, bind, Except.bind, pure, Except.pure]
  obtain ⟨t1, t2⟩ := parse_files_run_trace H fields interrupt n.toNat srcs 0 _ 0 hok hwf
    (by omega)
  have hres : ∀ quiet, drill_parse_files H schema_doc (sourcesOf srcs) n quiet interrupt
      = (parse_files_run H fields quiet interrupt (sourcesOf srcs) 0
          ⟨cols, fields.map DrillField.name, n⟩ 0).result.map Prod.fst := by
    intro quiet
    simp only [drill_parse_files, hs, hinit, bind, Except.bind, parse_files_run_result]
    cases (parse_files_run H fields quiet interrupt (sourcesOf srcs) 0
      ⟨cols, fields.map DrillField.name, n⟩ 0).result <;> rfl
  refine ⟨_, hinit, hres, t1, t2, ?_, ?_⟩
  · rw [t2]
    exact loudTrace_no_poll _ 0
  · intro s1 rest hsr hi0
    subst hsr
    have htot : totalRows (s1 :: rest) = rowCount s1.2 + totalRows rest := by
      simp [totalRows]
    obtain ⟨out1, hset, _, hrows, hkeep⟩ :=
      drill_fields_set_ok H fields s1.2 ⟨cols, fields.map DrillField.name, n⟩ 0 n.toNat hok
        (hwf s1 (List.mem_cons_self _ _)) (by omega)
    have hrun : parse_files_run H fields true interrupt (sourcesOf (s1 :: rest)) 0
        ⟨cols, fields.map DrillField.name, n⟩ 0
        = ⟨[.opened 0, .decoded 0 (rowCount s1.2), .poll 0], out1, 0 + rowCount s1.2,
            some .interrupted⟩ := by
      simp only [sourcesOf, List.map_cons, parse_files_run, hset, hi0, if_true]
    refine ⟨_, hrun, rfl, rfl, by simp, ?_, ?_, ?_⟩
    · intro i j fld v hf hc
      have := hrows i j fld v hf hc
      simpa using this
    · intro j idx hidx
      exact hkeep j idx (Or.inr (by omega))
    · rw [hres true, hrun]
      rfl

/-- C15, witness: three sources of 2, 0 and 3 rows, quiet, with the interrupt
pending at the first poll: the run is `interrupted` after source 1, whose two
rows are in the table; sources 2 and 3 are not opened. -/
theorem drill_parse_files_polls_witness :
    drill_fields_init exampleFields 5 = .ok exampleInit
    ∧ (parse_files_run demoHost exampleFields true (fun k => decide (k = 0))
          (sourcesOf exampleSources) 0 exampleInit 0).trace
        = [.opened 0, .decoded 0 2, .poll 0]
    ∧ drill_parse_files demoHost exampleSchema (sourcesOf exampleSources) 5 true
          (fun k => decide (k = 0)) = .error .interrupted
    ∧ (parse_files_run demoHost exampleFields true (fun k => decide (k = 0))
          (sourcesOf exampleSources) 0 exampleInit 0).out.cols.map Column.cells
        = [[.int 1, .int 2, .int 0, .int 0, .int 0],
            [.vec .STRSXP .plain [.chr (some "x")], .vec .STRSXP .plain [], .nil, .nil, .nil]]
    ∧ (parse_files_run demoHost exampleFields true (fun _ => false)
          (sourcesOf exampleSources) 0 exampleInit 0).trace
        = [.opened 0, .decoded 0 2, .poll 0, .opened 1, .decoded 1 0, .poll 1,
            .opened 2, .decoded 2 3, .poll 2] := by
  obtain ⟨out0, hinit, _, _, _, _, hsc⟩ := drill_parse_files_polls demoHost exampleSchema
    exampleFields exampleSources 5 (fun k => decide (k = 0)) rfl (by decide) (by decide)
  obtain ⟨run, _, _, _, _, _, _, hres⟩ := hsc _ _ rfl rfl
  obtain ⟨out1, hinit1, _, t1, _, _, _⟩ := drill_parse_files_polls demoHost exampleSchema
    exampleFields exampleSources 5 (fun _ => false) rfl (by decide) (by decide)
  have e1 : drill_fields_init exampleFields 5 = .ok exampleInit := rfl
  rw [e1] at hinit1
  cases hinit1
  exact ⟨rfl, by decide, hres, rfl, t1.trans (by decide)⟩

/-- C15, counterexample: with `quiet = false` and an interrupt pending all
along, the signal is never polled: the run over the three example sources
ticks after each source, decodes all five rows and returns the table. -/
theorem drill_parse_files_not_quiet_counterexample :
    drill_fields_init exampleFields 5 = .ok exampleInit
    ∧ (parse_files_run demoHost exampleFields false (fun _ => true)
          (sourcesOf exampleSources) 0 exampleInit 0).trace
        = [.opened 0, .decoded 0 2, .tick 0, .opened 1, .decoded 1 0, .tick 1,
            .opened 2, .decoded 2 3, .tick 2]
    ∧ (parse_files_run demoHost exampleFields false (fun _ => true)
          (sourcesOf exampleSources) 0 exampleInit 0).outcome = none
    ∧ (drill_parse_files demoHost exampleSchema (sourcesOf exampleSources) 5 false
          (fun _ => true)).map (fun t => t.cols.map Column.cells)
        = .ok [[.int 1, .int 2, .int 3, .int 4, .int 5],
            [.vec .STRSXP .plain [.chr (some "x")], .vec .STRSXP .plain [],
             .vec .STRSXP .plain [.chr (some "y"), .chr (some "z")], .vec .STRSXP .plain [],
             .vec .STRSXP .plain [.chr (some "w")]]]
    ∧ drill_parse_files demoHost exampleSchema (sourcesOf exampleSources) 5 true
          (fun _ => true) = .error .interrupted :=
  ⟨rfl, by decide, by decide, rfl, rfl⟩

end Sergeant
